import Mathlib

/-!
# MyChess: magic attack lookup and adversarial search

A shallow embedding of `src/V2/MagicMoves.hpp` (magic-hashing attack queries),
`src/V3/search/impl/nega_max.hpp` (negamax / negascout) and of the placement part of
`Board::from_fen` and of `Board::derive_flag` in `src/V3/board/impl/interface.hpp`,
followed by the properties established about them.

Conventions
* `U64` values are natural numbers below `2 ^ 64`; a `U64` product is reduced `% 2 ^ 64`.
* `I16` values are integers; a result narrowed to `I16` goes through `wrapI16`.
* `U16` depths are natural numbers; `depth - k` is `subU16`.
-/

namespace MyChess

/-! ## Part I. Definitions -/

/-! ### Machine integers -/

/-- Narrowing of an `int` to `I16` (two's complement, 16 bits). -/
def wrapI16 (x : Int) : Int := (x + 32768) % 65536 - 32768

/-- The expression `-x` (or `x *= -1`) stored back into an `I16`. -/
def negI16 (x : Int) : Int := wrapI16 (-x)

/-- The expression `a - b` stored into a `U16`. -/
def subU16 (a b : Nat) : Nat := (a + 65536 - b % 65536) % 65536

/-! ### Magic attack lookup (`src/V2/MagicMoves.hpp`)

The header is compiled with `MINIMIZE_MAGIC` and `USE_INLINING` defined and
`PERFECT_MAGIC_HASH` undefined, so the four queries are the first branch of each
`static MMINLINE` function. The `extern` arrays are not defined in the header; they are
the fields of `MagicTables`. A pointer `magicmoves_b_indices[square]` into the shared
attack array is represented by the sub-table it points to: `magicmoves_b_indices sq i`
is the word read by `*(magicmoves_b_indices[sq] + i)`. -/

/-- The `extern const` tables of `MagicMoves.hpp` (lines 64-69, 90, 93). -/
structure MagicTables where
  magicmoves_r_magics : Nat → Nat
  magicmoves_r_mask : Nat → Nat
  magicmoves_b_magics : Nat → Nat
  magicmoves_b_mask : Nat → Nat
  magicmoves_b_shift : Nat → Nat
  magicmoves_r_shift : Nat → Nat
  magicmoves_b_indices : Nat → Nat → Nat
  magicmoves_r_indices : Nat → Nat → Nat

/-- The query `Bmagic` (lines 128-139, the `MINIMIZE_MAGIC` branch, line 132). -/
def Bmagic (T : MagicTables) (square occupancy : Nat) : Nat :=
  T.magicmoves_b_indices square
    ((((occupancy &&& T.magicmoves_b_mask square) * T.magicmoves_b_magics square) % 2 ^ 64)
      >>> T.magicmoves_b_shift square)

/-- The query `Rmagic` (lines 140-151, line 144). -/
def Rmagic (T : MagicTables) (square occupancy : Nat) : Nat :=
  T.magicmoves_r_indices square
    ((((occupancy &&& T.magicmoves_r_mask square) * T.magicmoves_r_magics square) % 2 ^ 64)
      >>> T.magicmoves_r_shift square)

/-- The query `BmagicNOMASK` (lines 152-163, line 156). -/
def BmagicNOMASK (T : MagicTables) (square occupancy : Nat) : Nat :=
  T.magicmoves_b_indices square
    (((occupancy * T.magicmoves_b_magics square) % 2 ^ 64) >>> T.magicmoves_b_shift square)

/-- The query `RmagicNOMASK` (lines 164-175, line 168). -/
def RmagicNOMASK (T : MagicTables) (square occupancy : Nat) : Nat :=
  T.magicmoves_r_indices square
    (((occupancy * T.magicmoves_r_magics square) % 2 ^ 64) >>> T.magicmoves_r_shift square)

/-- The query `Qmagic` (lines 177-180). -/
def Qmagic (T : MagicTables) (square occupancy : Nat) : Nat :=
  Bmagic T square occupancy ||| Rmagic T square occupancy

/-- The query `QmagicNOMASK` (lines 181-184). -/
def QmagicNOMASK (T : MagicTables) (square occupancy : Nat) : Nat :=
  BmagicNOMASK T square occupancy ||| RmagicNOMASK T square occupancy

/-- Modelled from the spec: one ray of the brute-force ray-cast that `initmagicmoves`
(declared at line 192, body not in the header) uses to fill the tables. From file `f`,
rank `r` step by `(df, dr)` until the board edge or an occupied square; the blocking
square is included, squares beyond it are not. The first argument bounds the number of
steps (a ray has at most seven squares). -/
def rayCast (occ : Nat) (df dr : Int) : Nat → Int → Int → Nat
  | 0, _, _ => 0
  | n + 1, f, r =>
    let f1 := f + df
    let r1 := r + dr
    if 0 ≤ f1 ∧ f1 < 8 ∧ 0 ≤ r1 ∧ r1 < 8 then
      let bit := 1 <<< (r1 * 8 + f1).toNat
      if occ &&& bit ≠ 0 then bit else bit ||| rayCast occ df dr n f1 r1
    else 0

/-- Modelled from the spec: the ray-cast attack set of a rook on `sq` under occupancy
`occ` (square `sq` has file `sq % 8` and rank `sq / 8`). -/
def rookRayCast (sq occ : Nat) : Nat :=
  let f : Int := sq % 8
  let r : Int := sq / 8
  rayCast occ 1 0 7 f r ||| rayCast occ (-1) 0 7 f r
    ||| rayCast occ 0 1 7 f r ||| rayCast occ 0 (-1) 7 f r

/-- Modelled from the spec: the ray-cast attack set of a bishop on `sq` under occupancy
`occ`. -/
def bishopRayCast (sq occ : Nat) : Nat :=
  let f : Int := sq % 8
  let r : Int := sq / 8
  rayCast occ 1 1 7 f r ||| rayCast occ 1 (-1) 7 f r
    ||| rayCast occ (-1) 1 7 f r ||| rayCast occ (-1) (-1) 7 f r

/-- A small table set used to exercise the lookup: on every square the bishop mask is the
single square b2 (bit 9) and the rook mask is b1 and a2 (bits 1 and 8); the sub-tables of
square 0 hold the ray-cast results at the hashed indices. -/
def sampleTables : MagicTables where
  magicmoves_r_magics := fun _ => 2 ^ 61 + 2 ^ 55
  magicmoves_r_mask := fun _ => 258
  magicmoves_b_magics := fun _ => 2 ^ 54
  magicmoves_b_mask := fun _ => 512
  magicmoves_b_shift := fun _ => 63
  magicmoves_r_shift := fun _ => 62
  magicmoves_b_indices := fun sq i =>
    if sq = 0 then (if i = 0 then 0x8040201008040200 else 512) else 0
  magicmoves_r_indices := fun sq i =>
    if sq = 0 then
      (if i = 0 then 0x01010101010101FE else if i = 1 then 0x0101010101010102
        else if i = 2 then 0x1FE else 0x102)
    else 0

/-! ### Search engine (`src/V3/search/impl/nega_max.hpp`)

The board, move, context, transposition, killer, draw, evaluation and quiescence code is
not part of the reviewed sources: the search reaches it only through the calls below, which
are the fields of `Ext`. The board `b` (type `B`) and the process-wide tables (type `G`:
transposition, killer and draw tables) are threaded explicitly, together with the
instrumentation counters of `Search`. -/

/-- Modelled from the spec: a move is an encoded value whose raw word is `0` exactly for
the null move `Move()` (`get_raw() == 0`). -/
structure Move where
  raw : Nat
deriving DecidableEq, Repr

/-- The default-constructed move `Move()`. -/
def Move.null : Move := ⟨0⟩

/-- The pair `MoveScore { move, score }`; `score` is an `I16`. -/
structure MoveScore where
  move : Move
  score : Int
deriving DecidableEq, Repr

/-- Modelled from the spec: `TranspositionTable::NodeType`. -/
inductive NodeType where
  | EXACT
  | LOWER
  | UPPER
deriving DecidableEq, Repr

/-- Modelled from the spec: the fields of a transposition cell read by the search
(`get_depth()`, `node_type`, `move`, `score`). -/
structure Cell where
  depth : Nat
  node_type : NodeType
  move : Move
  score : Int
deriving DecidableEq, Repr

/-- Modelled from the spec: the side-state accompanying a board. The search reads `hash`,
writes `en_passant` and copies the whole value. -/
structure Context where
  hash : Nat
  turn : Bool
  castling_rights : Nat
  en_passant : Nat
deriving DecidableEq, Repr

/-- The piece tags of `Board` (named as in `interface.hpp`, lines 44-76). -/
inductive Piece where
  | WHITE_PAWN
  | WHITE_KNIGHT
  | WHITE_BISHOP
  | WHITE_ROOK
  | WHITE_QUEEN
  | WHITE_KING
  | WHITE_ALL
  | BLACK_PAWN
  | BLACK_KNIGHT
  | BLACK_BISHOP
  | BLACK_ROOK
  | BLACK_QUEEN
  | BLACK_KING
  | BLACK_ALL
  | NA
deriving DecidableEq, Repr

/-- The template parameter `Color` (`White` or `Black`). -/
inductive Color where
  | White
  | Black
deriving DecidableEq, Repr

/-- The instantiation used for the recursive call: `turn ? ...<Black> : ...<White>`. -/
def Color.opponent : Color → Color
  | .White => .Black
  | .Black => .White

def Color.PAWN : Color → Piece
  | .White => .WHITE_PAWN
  | .Black => .BLACK_PAWN

def Color.KNIGHT : Color → Piece
  | .White => .WHITE_KNIGHT
  | .Black => .BLACK_KNIGHT

def Color.BISHOP : Color → Piece
  | .White => .WHITE_BISHOP
  | .Black => .BLACK_BISHOP

def Color.ROOK : Color → Piece
  | .White => .WHITE_ROOK
  | .Black => .BLACK_ROOK

def Color.QUEEN : Color → Piece
  | .White => .WHITE_QUEEN
  | .Black => .BLACK_QUEEN

def Color.KING : Color → Piece
  | .White => .WHITE_KING
  | .Black => .BLACK_KING

def Color.ALL : Color → Piece
  | .White => .WHITE_ALL
  | .Black => .BLACK_ALL

/-- The mutable state a search call runs in: the board passed by reference, the
process-wide tables, and the counters `nodes`, `leaves`, `node_depth_hist`. -/
structure State (B G : Type) where
  board : B
  glob : G
  nodes : Nat
  leaves : Nat
  node_depth_hist : Nat → Nat

/-- The result of `TranspositionTable::get_cell(hash, depth)`: the hit flag, the cell
pointer (a slot number) and the contents of the cell it points to. -/
structure Probe where
  hit : Bool
  slot : Nat
  cell : Cell

/-- The collaborators of the search. The calls that only read (draw flag, transposition
probe, check detection, bitboards, evaluation) are functions of the part of the state
they are given; the calls that may write return the new state. The context is handed to
a collaborator as a value: the caller's context is not changed by the call. `INFINITY`
and `NULL_DEPTH_REDUCTION` are the two constants the search uses; `-INFINITY` is stored
into an `I16` and so is `negI16 INFINITY`. -/
structure Ext (B G : Type) where
  INFINITY : Int
  NULL_DEPTH_REDUCTION : Nat
  is_draw : G → Bool
  get_cell : G → Nat → Nat → Probe
  add_move : G → Move → Nat → G
  set_cell : G → Nat → Nat → Nat → MoveScore → Int → Int → G
  get_checks : Color → B → Nat
  get_bitboard : B → Piece → Nat
  pestos : B → Int
  toggle_hash_turn : Context → Context
  quiesce : Color → State B G → Context → Int → Int → Int × State B G
  gen_order_moves : Color → State B G → Context → Move → Nat → List Move × State B G
  gen_moves : Color → State B G → Context → Move → Nat → List Move × State B G
  do_move : Color → State B G → Move → Context → Context × State B G
  undo_move : Color → State B G → Move → State B G

/-- One entry of the record a call keeps of what it did: every transposition probe and
store, killer record, quiescence call, hash toggle, move generation, move application and
undo, and every recursive search call with its arguments and the `MoveScore` it returned.
The record is of the call itself, not of the calls below it. -/
inductive Event where
  | get_cell (hash depth : Nat) (hit : Bool) (cell : Cell)
  | set_cell (slot hash depth : Nat) (best : MoveScore) (alpha beta : Int)
  | add_move (move : Move) (depth : Nat)
  | quiesce (c : Color) (ctx : Context) (alpha beta score : Int)
  | toggle_hash_turn (ctx : Context)
  | gen_order_moves (c : Color) (ctx : Context) (priority_move : Move) (depth : Nat)
      (ml : List Move)
  | gen_moves (c : Color) (ctx : Context) (priority_move : Move) (depth : Nat)
      (ml : List Move)
  | do_move (c : Color) (move : Move) (ctx new_ctx : Context)
  | undo_move (c : Color) (move : Move)
  | search (c : Color) (ctx : Context) (depth : Nat) (alpha beta : Int) (r : MoveScore)
deriving DecidableEq, Repr

/-- What a call returns, with the state it leaves and its record. -/
structure Out (B G : Type) where
  result : MoveScore
  state : State B G
  trace : List Event

/-- The type of a search function as seen by its caller; `none` stands for a call that
does not return. -/
abbrev SearchFn (B G : Type) :=
  Color → State B G → Context → Nat → Int → Int → Option (MoveScore × State B G)

/-- The variables of the move loop of `nega_max` (lines 89-123). The counter
`legal_move_count` is an `I16`: its increment goes through `wrapI16`. -/
structure Loop (B G : Type) where
  state : State B G
  trace : List Event
  best : MoveScore
  legal_move_count : Int
  alpha : Int

/-- One iteration of the move loop of `nega_max` (the body of the `for`, lines 93-122) on
`move`. The flag returned is `true` when the iteration ends with `break`. At this point
`depth >= 1`. -/
def nega_max_step {B G : Type} (E : Ext B G) (rec : SearchFn B G) (c : Color)
    (ctx : Context) (depth : Nat) (beta : Int) (move : Move) (L : Loop B G) :
    Option (Bool × Loop B G) :=
  let dm := E.do_move c L.state move ctx
  if E.get_checks c dm.2.board ≠ 0 then
    some (false,
      { L with
        state := E.undo_move c dm.2 move
        trace := L.trace ++ [.do_move c move ctx dm.1, .undo_move c move] })
  else
    match rec c.opponent dm.2 dm.1 (subU16 depth 1) (negI16 beta) (negI16 L.alpha) with
    | none => none
    | some (local_best, s2) =>
      let score := negI16 local_best.score
      let s3 := E.undo_move c s2 move
      let best : MoveScore :=
        if L.best.move.raw = 0 ∨ score > L.best.score then ⟨move, score⟩ else L.best
      let alpha := max L.alpha best.score
      let tr := L.trace ++ [.do_move c move ctx dm.1,
        .search c.opponent dm.1 (subU16 depth 1) (negI16 beta) (negI16 L.alpha) local_best,
        .undo_move c move]
      if alpha ≥ beta then
        some (true,
          { state := { s3 with glob := E.add_move s3.glob move depth }
            trace := tr ++ [.add_move move depth]
            best := best
            legal_move_count := wrapI16 (L.legal_move_count + 1)
            alpha := alpha })
      else
        some (false,
          { state := s3
            trace := tr
            best := best
            legal_move_count := wrapI16 (L.legal_move_count + 1)
            alpha := alpha })

/-- The move loop of `nega_max` (lines 92-123), over the moves not yet examined. -/
def nega_max_loop {B G : Type} (E : Ext B G) (rec : SearchFn B G) (c : Color)
    (ctx : Context) (depth : Nat) (beta : Int) : List Move → Loop B G → Option (Loop B G)
  | [], L => some L
  | move :: ml, L =>
    match nega_max_step E rec c ctx depth beta move L with
    | none => none
    | some (true, L1) => some L1
    | some (false, L1) => nega_max_loop E rec c ctx depth beta ml L1

/-- Lines 84-141 of `nega_max`: move generation, the move loop, terminal detection and
the transposition write-back. -/
def nega_max_moves {B G : Type} (E : Ext B G) (rec : SearchFn B G) (c : Color)
    (s : State B G) (tr : List Event) (ctx : Context) (depth : Nat)
    (alpha beta og_alpha : Int) (slot : Nat) (priority_move : Move) : Option (Out B G) :=
  let g := E.gen_order_moves c s ctx priority_move depth
  match nega_max_loop E rec c ctx depth beta g.1
      { state := g.2
        trace := tr ++ [.gen_order_moves c ctx priority_move depth g.1]
        best := ⟨Move.null, negI16 E.INFINITY⟩
        legal_move_count := 0
        alpha := alpha } with
  | none => none
  | some L =>
    if L.legal_move_count = 0 then
      some { result := ⟨Move.null,
               if E.get_checks c L.state.board ≠ 0 then negI16 E.INFINITY else 0⟩
             state := { L.state with leaves := L.state.leaves + 1 }
             trace := L.trace }
    else
      some { result := L.best
             state := { L.state with
               glob := E.set_cell L.state.glob slot ctx.hash depth L.best og_alpha beta }
             trace := L.trace ++ [.set_cell slot ctx.hash depth L.best og_alpha beta] }

/-- The flag `try_null_move` of `nega_max` (lines 54-65). -/
def try_null_move {B G : Type} (E : Ext B G) (c : Color) (b : B) (depth : Nat)
    (beta : Int) : Bool :=
  let checks := E.get_checks c b
  let static_eval := wrapI16 ((if c = .White then 1 else -1) * E.pestos b)
  let has_piece_req : Bool :=
    E.get_bitboard b c.ALL ≠ (E.get_bitboard b c.PAWN ||| E.get_bitboard b c.KING)
  let has_static_req : Bool := static_eval > beta
  let has_depth_req : Bool := depth ≥ E.NULL_DEPTH_REDUCTION
  has_depth_req && has_piece_req && (checks == 0) && has_static_req

/-- Lines 52-82 of `nega_max` (the null-move heuristic), followed by the rest of the
call. -/
def nega_max_null {B G : Type} (E : Ext B G) (rec : SearchFn B G) (c : Color)
    (s : State B G) (tr : List Event) (ctx : Context) (depth : Nat)
    (alpha beta og_alpha : Int) (slot : Nat) (priority_move : Move) : Option (Out B G) :=
  if try_null_move E c s.board depth beta then
    let new_ctx : Context := { E.toggle_hash_turn ctx with en_passant := 0 }
    match rec c.opponent s new_ctx (subU16 depth E.NULL_DEPTH_REDUCTION)
        (negI16 beta) (negI16 alpha) with
    | none => none
    | some (null_best, s1) =>
      let score := negI16 null_best.score
      let tr1 := tr ++ [.toggle_hash_turn ctx,
        .search c.opponent new_ctx (subU16 depth E.NULL_DEPTH_REDUCTION)
          (negI16 beta) (negI16 alpha) null_best,
        .toggle_hash_turn new_ctx]
      if score ≥ beta then
        some { result := ⟨Move.null, beta⟩
               state := { s1 with leaves := s1.leaves + 1 }
               trace := tr1 }
      else
        nega_max_moves E rec c s1 tr1 ctx depth alpha beta og_alpha slot priority_move
  else
    nega_max_moves E rec c s tr ctx depth alpha beta og_alpha slot priority_move

/-- Lines 44-50 of `nega_max`, entered with the window left by the `switch`: the
empty-window return, else the rest of the call with the cell's move as priority move. -/
def nega_max_tt_cut {B G : Type} (E : Ext B G) (rec : SearchFn B G) (c : Color)
    (s : State B G) (tr : List Event) (ctx : Context) (depth : Nat)
    (alpha beta og_alpha : Int) (p : Probe) : Option (Out B G) :=
  if alpha ≥ beta then
    some { result := ⟨p.cell.move, p.cell.score⟩
           state := { s with glob := E.add_move s.glob p.cell.move depth
                             leaves := s.leaves + 1 }
           trace := tr ++ [.add_move p.cell.move depth] }
  else
    nega_max_null E rec c s tr ctx depth alpha beta og_alpha p.slot
      (if p.hit then p.cell.move else Move.null)

/-- One call of `Search::nega_max<Color>` (lines 6-141), with the recursive calls made
through `rec`. -/
def nega_max_body {B G : Type} (E : Ext B G) (rec : SearchFn B G) (c : Color)
    (s : State B G) (ctx : Context) (depth : Nat) (alpha beta : Int) : Option (Out B G) :=
  let og_alpha := alpha
  let s0 : State B G :=
    { s with
      nodes := s.nodes + 1
      node_depth_hist := Function.update s.node_depth_hist depth (s.node_depth_hist depth + 1) }
  if E.is_draw s0.glob then
    some { result := ⟨Move.null, 0⟩, state := { s0 with leaves := s0.leaves + 1 }, trace := [] }
  else if depth = 0 then
    let q := E.quiesce c { s0 with leaves := s0.leaves + 1 } ctx alpha beta
    some { result := ⟨Move.null, q.1⟩, state := q.2, trace := [.quiesce c ctx alpha beta q.1] }
  else
    let p := E.get_cell s0.glob ctx.hash depth
    let tr : List Event := [.get_cell ctx.hash depth p.hit p.cell]
    if p.hit && decide (p.cell.depth ≥ depth) then
      match p.cell.node_type with
      | .EXACT =>
        some { result := ⟨p.cell.move, p.cell.score⟩
               state := { s0 with leaves := s0.leaves + 1 }
               trace := tr }
      | .LOWER =>
        nega_max_tt_cut E rec c s0 tr ctx depth
          (max alpha p.cell.score) (min beta p.cell.score) og_alpha p
      | .UPPER =>
        nega_max_tt_cut E rec c s0 tr ctx depth alpha (min beta p.cell.score) og_alpha p
    else
      nega_max_null E rec c s0 tr ctx depth alpha beta og_alpha p.slot
        (if p.hit then p.cell.move else Move.null)

/-- The function `Search::nega_max<Color>`: the first argument bounds the nesting of calls; `none` is
returned when the bound is reached. -/
def nega_max {B G : Type} (E : Ext B G) : Nat → SearchFn B G
  | 0 => fun _ _ _ _ _ _ => none
  | fuel + 1 => fun c s ctx depth alpha beta =>
    (nega_max_body E (nega_max E fuel) c s ctx depth alpha beta).map
      (fun o => (o.result, o.state))

/-- The variables of the move loop of `nega_scout` (lines 187-227) that change from one
iteration to the next. The counter `legal_move_count` is an `I16`: its increment goes
through `wrapI16`. -/
structure ScoutLoop (B G : Type) where
  state : State B G
  trace : List Event
  best : MoveScore
  legal_move_count : Int
  og_alpha : Int
  beta : Int

/-- One iteration of the move loop of `nega_scout` (the body of the `for`, lines 191-226)
on `move`, the `i`-th entry of the move list; `alpha` is the window bound left by the
transposition step and `og_beta` the bound the call was entered with. The flag returned is
`true` when the iteration ends with `break`. At this point `depth >= 1`. The
`MoveScore` of the re-search (lines 210-214) is a new local variable of the inner block:
the score used after the block is the one of the first search. -/
def nega_scout_step {B G : Type} (E : Ext B G) (rec : SearchFn B G) (c : Color)
    (ctx : Context) (depth : Nat) (alpha og_beta : Int) (move : Move) (i : Nat)
    (L : ScoutLoop B G) : Option (Bool × ScoutLoop B G) :=
  let dm := E.do_move c L.state move ctx
  if E.get_checks c dm.2.board ≠ 0 then
    some (false,
      { L with
        state := E.undo_move c dm.2 move
        trace := L.trace ++ [.do_move c move ctx dm.1, .undo_move c move] })
  else
    match rec c.opponent dm.2 dm.1 (subU16 depth 1) (negI16 L.beta) (negI16 L.og_alpha) with
    | none => none
    | some (local_best, s2) =>
      let score := negI16 local_best.score
      let tr1 := L.trace ++ [.do_move c move ctx dm.1,
        .search c.opponent dm.1 (subU16 depth 1) (negI16 L.beta) (negI16 L.og_alpha)
          local_best]
      let research : Option (State B G × List Event) :=
        if score > alpha ∧ score < og_beta ∧ i > 0 then
          match rec c.opponent s2 dm.1 (subU16 depth 1) (negI16 og_beta)
              (negI16 L.og_alpha) with
          | none => none
          | some (inner_best, s3) =>
            some (s3, tr1 ++ [.search c.opponent dm.1 (subU16 depth 1) (negI16 og_beta)
              (negI16 L.og_alpha) inner_best])
        else some (s2, tr1)
      match research with
      | none => none
      | some (s3, tr2) =>
        let s4 := E.undo_move c s3 move
        let best : MoveScore :=
          if L.best.move.raw = 0 ∨ score > L.best.score then ⟨move, score⟩ else L.best
        let og_alpha := max L.og_alpha best.score
        if og_alpha ≥ og_beta then
          some (true,
            { state := s4
              trace := tr2 ++ [.undo_move c move]
              best := best
              legal_move_count := wrapI16 (L.legal_move_count + 1)
              og_alpha := og_alpha
              beta := L.beta })
        else
          some (false,
            { state := s4
              trace := tr2 ++ [.undo_move c move]
              best := best
              legal_move_count := wrapI16 (L.legal_move_count + 1)
              og_alpha := og_alpha
              beta := wrapI16 (og_alpha + 1) })

/-- The move loop of `nega_scout` (lines 190-227), over the moves not yet examined; `i` is
the index of the first of them in the move list. -/
def nega_scout_loop {B G : Type} (E : Ext B G) (rec : SearchFn B G) (c : Color)
    (ctx : Context) (depth : Nat) (alpha og_beta : Int) :
    List Move → Nat → ScoutLoop B G → Option (ScoutLoop B G)
  | [], _, L => some L
  | move :: ml, i, L =>
    match nega_scout_step E rec c ctx depth alpha og_beta move i L with
    | none => none
    | some (true, L1) => some L1
    | some (false, L1) => nega_scout_loop E rec c ctx depth alpha og_beta ml (i + 1) L1

/-- Lines 174-244 of `nega_scout`, entered with the window `(alpha, beta)` left by the
transposition step: the depth-zero leaf, move generation, the move loop, terminal
detection and the transposition write-back. -/
def nega_scout_moves {B G : Type} (E : Ext B G) (rec : SearchFn B G) (c : Color)
    (s : State B G) (tr : List Event) (ctx : Context) (depth : Nat)
    (alpha beta og_alpha og_beta : Int) (slot : Nat) (priority_move : Move) :
    Option (Out B G) :=
  if depth = 0 then
    let q := E.quiesce c { s with leaves := s.leaves + 1 } ctx alpha beta
    some { result := ⟨Move.null, q.1⟩
           state := q.2
           trace := tr ++ [.quiesce c ctx alpha beta q.1] }
  else
    let g := E.gen_moves c s ctx priority_move depth
    match nega_scout_loop E rec c ctx depth alpha og_beta g.1 0
        { state := g.2
          trace := tr ++ [.gen_moves c ctx priority_move depth g.1]
          best := ⟨Move.null, negI16 E.INFINITY⟩
          legal_move_count := 0
          og_alpha := og_alpha
          beta := beta } with
    | none => none
    | some L =>
      let best : MoveScore :=
        if L.legal_move_count = 0 then
          ⟨Move.null, if E.get_checks c L.state.board ≠ 0 then negI16 E.INFINITY else 0⟩
        else L.best
      let s1 : State B G :=
        if L.legal_move_count = 0 then { L.state with leaves := L.state.leaves + 1 }
        else L.state
      some { result := best
             state := { s1 with
               glob := E.set_cell s1.glob slot ctx.hash depth best L.og_alpha L.beta }
             trace := L.trace ++ [.set_cell slot ctx.hash depth best L.og_alpha L.beta] }

/-- Line 170-172 of `nega_scout`, entered with the window left by the `switch`. -/
def nega_scout_tt_cut {B G : Type} (E : Ext B G) (rec : SearchFn B G) (c : Color)
    (s : State B G) (tr : List Event) (ctx : Context) (depth : Nat)
    (alpha beta og_alpha og_beta : Int) (p : Probe) : Option (Out B G) :=
  if alpha ≥ beta then
    some { result := ⟨p.cell.move, p.cell.score⟩, state := s, trace := tr }
  else
    nega_scout_moves E rec c s tr ctx depth alpha beta og_alpha og_beta p.slot
      (if p.hit then p.cell.move else Move.null)

/-- One call of `Search::nega_scout<Color>` (lines 143-245), with the recursive calls made
through `rec`. -/
def nega_scout_body {B G : Type} (E : Ext B G) (rec : SearchFn B G) (c : Color)
    (s : State B G) (ctx : Context) (depth : Nat) (alpha beta : Int) : Option (Out B G) :=
  let og_alpha := alpha
  let og_beta := beta
  let s0 : State B G := { s with nodes := s.nodes + 1 }
  if E.is_draw s0.glob then
    some { result := ⟨Move.null, 0⟩, state := { s0 with leaves := s0.leaves + 1 }, trace := [] }
  else
    let p := E.get_cell s0.glob ctx.hash depth
    let tr : List Event := [.get_cell ctx.hash depth p.hit p.cell]
    if p.hit && decide (p.cell.depth ≥ depth) then
      match p.cell.node_type with
      | .EXACT => some { result := ⟨p.cell.move, p.cell.score⟩, state := s0, trace := tr }
      | .LOWER =>
        nega_scout_tt_cut E rec c s0 tr ctx depth
          (max alpha p.cell.score) (min beta p.cell.score) og_alpha og_beta p
      | .UPPER =>
        nega_scout_tt_cut E rec c s0 tr ctx depth alpha (min beta p.cell.score)
          og_alpha og_beta p
    else
      nega_scout_moves E rec c s0 tr ctx depth alpha beta og_alpha og_beta p.slot
        (if p.hit then p.cell.move else Move.null)

/-- The function `Search::nega_scout<Color>`: the first argument bounds the nesting of calls; `none` is
returned when the bound is reached. -/
def nega_scout {B G : Type} (E : Ext B G) : Nat → SearchFn B G
  | 0 => fun _ _ _ _ _ _ => none
  | fuel + 1 => fun c s ctx depth alpha beta =>
    (nega_scout_body E (nega_scout E fuel) c s ctx depth alpha beta).map
      (fun o => (o.result, o.state))

/-! ### Reference value: plain negamax -/

/-- The rules of the game as a function of the board and context alone: the pseudo-legal
moves of the side to move, the board and context after a move, and the value of a leaf. -/
structure Rules (B : Type) where
  moves : Color → B → Context → List Move
  play : Color → B → Move → Context → B
  next_ctx : Color → B → Move → Context → Context
  leaf : Color → B → Context → Int

/-- The moves of `R.moves` that do not leave the mover in check. -/
def legal_moves {B G : Type} (E : Ext B G) (R : Rules B) (c : Color) (b : B)
    (ctx : Context) : List Move :=
  (R.moves c b ctx).filter (fun m => E.get_checks c (R.play c b m ctx) = 0)

/-- Plain negamax, following the spec's words (no window, no pruning, no cache): the leaf
value at depth zero; with no legal move, minus infinity when in check and zero otherwise;
else the greatest negated value of the positions after the legal moves. -/
def minimax {B G : Type} (E : Ext B G) (R : Rules B) : Nat → Color → B → Context → Int
  | 0, c, b, ctx => R.leaf c b ctx
  | d + 1, c, b, ctx =>
    if legal_moves E R c b ctx = [] then
      (if E.get_checks c b ≠ 0 then -E.INFINITY else 0)
    else
      ((legal_moves E R c b ctx).map (fun m =>
        -(minimax E R d c.opponent (R.play c b m ctx) (R.next_ctx c b m ctx)))).foldl
        max (-E.INFINITY)

/-- The assumptions on the collaborators under which `nega_max` is compared with
`minimax`: the draw detector never fires, the transposition probe always misses,
quiescence returns the leaf value whatever the window, the generator yields the moves of
the rules in some order, fewer than 65536 of them (the range of the `I16` counter of legal
moves) and never the null move, `do_move` follows the rules, `undo_move` takes the board
back, and `INFINITY` is a positive `I16`. The assumption on the null-move step is
`NullOff`. -/
structure Implements {B G : Type} (E : Ext B G) (R : Rules B) : Prop where
  draw_never : ∀ g, E.is_draw g = false
  probe_miss : ∀ g h d, (E.get_cell g h d).hit = false
  quiesce_val : ∀ c s ctx alpha beta, (E.quiesce c s ctx alpha beta).1 = R.leaf c s.board ctx
  quiesce_board : ∀ c s ctx alpha beta, (E.quiesce c s ctx alpha beta).2.board = s.board
  leaf_range : ∀ c b ctx, -E.INFINITY < R.leaf c b ctx ∧ R.leaf c b ctx < E.INFINITY
  gen_mem : ∀ c s ctx p d m,
    m ∈ (E.gen_order_moves c s ctx p d).1 ↔ m ∈ R.moves c s.board ctx
  gen_board : ∀ c s ctx p d, (E.gen_order_moves c s ctx p d).2.board = s.board
  gen_short : ∀ c s ctx p d, (E.gen_order_moves c s ctx p d).1.length < 65536
  moves_nonnull : ∀ c b ctx m, m ∈ R.moves c b ctx → m.raw ≠ 0
  do_board : ∀ c s m ctx, (E.do_move c s m ctx).2.board = R.play c s.board m ctx
  do_ctx : ∀ c s m ctx, (E.do_move c s m ctx).1 = R.next_ctx c s.board m ctx
  undo_board : ∀ c (s s2 : State B G) m ctx,
    s2.board = R.play c s.board m ctx → (E.undo_move c s2 m).board = s.board
  inf_range : 0 < E.INFINITY ∧ E.INFINITY ≤ 32767

/-! ### A small concrete game

Positions are the lists of raw moves played from the root (latest first); the tables `G`
count the killer records and the transposition stores. The behaviour of every
collaborator is given by a `Toy` record, so that the search can be run on concrete
inputs. -/

/-- The process-wide tables of the small game: two counters. -/
structure ToyGlob where
  killers : Nat
  stores : Nat
deriving DecidableEq, Repr

/-- The description of a small game. -/
structure Toy where
  INFINITY : Int
  NULL_DEPTH_REDUCTION : Nat
  drawn : Bool
  probe : Nat → Nat → Probe
  moves : List Nat → List Move
  checks : Color → List Nat → Nat
  bitboard : List Nat → Piece → Nat
  pestos : List Nat → Int
  leaf : Color → List Nat → Int

/-- The context after a move in the small game. -/
def Toy.next_ctx (m : Move) (ctx : Context) : Context :=
  { ctx with hash := ctx.hash * 31 + m.raw, turn := !ctx.turn, en_passant := 0 }

/-- The collaborators of the small game. -/
def Toy.ext (t : Toy) : Ext (List Nat) ToyGlob where
  INFINITY := t.INFINITY
  NULL_DEPTH_REDUCTION := t.NULL_DEPTH_REDUCTION
  is_draw := fun _ => t.drawn
  get_cell := fun _ h d => t.probe h d
  add_move := fun g _ _ => { g with killers := g.killers + 1 }
  set_cell := fun g _ _ _ _ _ _ => { g with stores := g.stores + 1 }
  get_checks := t.checks
  get_bitboard := t.bitboard
  pestos := t.pestos
  toggle_hash_turn := fun ctx => { ctx with hash := ctx.hash ^^^ 1 }
  quiesce := fun c s _ _ _ => (t.leaf c s.board, s)
  gen_order_moves := fun _ s _ _ _ => (t.moves s.board, s)
  gen_moves := fun _ s _ _ _ => (t.moves s.board, s)
  do_move := fun _ s m ctx => (Toy.next_ctx m ctx, { s with board := m.raw :: s.board })
  undo_move := fun _ s _ => { s with board := s.board.tail }

/-- The rules of the small game. -/
def Toy.rules (t : Toy) : Rules (List Nat) where
  moves := fun _ b _ => t.moves b
  play := fun _ b m _ => m.raw :: b
  next_ctx := fun _ _ m ctx => Toy.next_ctx m ctx
  leaf := fun c b _ => t.leaf c b

/-- The initial state of the small game: the root position, empty tables, counters at
zero. -/
def Toy.init : State (List Nat) ToyGlob :=
  { board := [], glob := ⟨0, 0⟩, nodes := 0, leaves := 0, node_depth_hist := fun _ => 0 }

/-- The initial context of the small game. -/
def Toy.ctx0 : Context := { hash := 1, turn := true, castling_rights := 0, en_passant := 0 }

/-- A probe result that is a miss. -/
def Probe.miss : Probe := ⟨false, 0, ⟨0, .UPPER, Move.null, 0⟩⟩

/-- A two-ply game. White has the moves 1 and 2. After 1 Black has the moves 3 and 4, which
lead to leaves worth -1 and -5 to White; after 2 Black has the move 5, which leads to a
leaf worth -20 to White. Nobody is ever in check and no side has a piece beyond pawns and
king. The negamax value of the root at depth 2 is -5. -/
def twoPly : Toy where
  INFINITY := 32767
  NULL_DEPTH_REDUCTION := 2
  drawn := false
  probe := fun _ _ => Probe.miss
  moves := fun b =>
    match b with
    | [] => [⟨1⟩, ⟨2⟩]
    | [1] => [⟨3⟩, ⟨4⟩]
    | [2] => [⟨5⟩]
    | _ => []
  checks := fun _ _ => 0
  bitboard := fun _ p =>
    match p with
    | .WHITE_PAWN => 0xFF00
    | .WHITE_KING => 0x10
    | .WHITE_ALL => 0xFF10
    | .BLACK_PAWN => 0xFF000000000000
    | .BLACK_KING => 0x1000000000000000
    | .BLACK_ALL => 0x10FF000000000000
    | _ => 0
  pestos := fun _ => 0
  leaf := fun _ b =>
    match b with
    | [3, 1] => -1
    | [4, 1] => -5
    | [5, 2] => -20
    | _ => 0

/-- The two-ply game with a draw detector that reports a draw. -/
def drawnGame : Toy := { twoPly with drawn := true }

/-- The two-ply game with a transposition table that answers every probe with an `EXACT`
cell of depth 5 holding the move 7 and the score 42. -/
def exactHit : Toy :=
  { twoPly with probe := fun _ _ => ⟨true, 3, ⟨5, .EXACT, ⟨7⟩, 42⟩⟩ }

/-- An event other than a hash toggle. -/
def Event.not_toggle : Event → Prop
  | .toggle_hash_turn _ => False
  | _ => True

/-- The state in which the move loop ends when every move of the list, tried in turn as
the loop does (`do_move`, check test, `undo_move`), leaves the mover in check; `none` when
some move of the list does not. -/
def skip_illegal {B G : Type} (E : Ext B G) (c : Color) (ctx : Context) :
    List Move → State B G → Option (State B G)
  | [], s => some s
  | m :: ml, s =>
    if E.get_checks c (E.do_move c s m ctx).2.board ≠ 0 then
      skip_illegal E c ctx ml (E.undo_move c (E.do_move c s m ctx).2 m)
    else none

/-- A position with no legal move and the mover in check: both moves of the root leave
White in check, and White is in check at the root. -/
def mateGame : Toy :=
  { twoPly with checks := fun c _ => if c = .White then 1 else 0 }

/-- A position with no legal move and the mover not in check, in which White has a knight
and the null-move reduction is 1: the only move of the root leaves White in check, White
is not in check at the root, the evaluation is 0 and the leaf value for Black at the root
is 3. -/
def stalemateGame : Toy :=
  { twoPly with
    NULL_DEPTH_REDUCTION := 1
    moves := fun b => match b with
      | [] => [⟨1⟩]
      | _ => []
    checks := fun c b => if c = .White ∧ b = [1] then 1 else 0
    bitboard := fun _ p =>
      match p with
      | .WHITE_KNIGHT => 0x40
      | .WHITE_KING => 0x80
      | .WHITE_ALL => 0xC0
      | .BLACK_ROOK => 0x01
      | .BLACK_KING => 0x400000
      | .BLACK_ALL => 0x400001
      | _ => 0
    leaf := fun c b => if c = .Black ∧ b = [] then 3 else 0 }

/-- The negated score of a recursive search recorded by an event (the value of
`local_best.score` after `*= -1`), when the event is a recursive search. -/
def Event.negated_score : Event → Option Int
  | .search _ _ _ _ _ r => some (negI16 r.score)
  | _ => none

/-- What lines 84-141 of `nega_max` return at the root of the two-ply game searched to
depth 1 on the window `(-100, 100)` (the null result if they did not return). -/
def twoPlyMovesOut : Out (List Nat) ToyGlob :=
  match nega_max_moves twoPly.ext (nega_max twoPly.ext 1) Color.White Toy.init []
      Toy.ctx0 1 (-100) 100 (-100) 0 Move.null with
  | some out => out
  | none => ⟨⟨Move.null, 0⟩, Toy.init, []⟩

/-- The frame assumptions on the collaborators: quiescence and move generation leave the
board unchanged, and `undo_move` after `do_move` of the same move gives back the board
(check detection and evaluation only read the board: see `Ext`). -/
structure BoardFrame {B G : Type} (E : Ext B G) : Prop where
  quiesce_board : ∀ c s ctx alpha beta, (E.quiesce c s ctx alpha beta).2.board = s.board
  gen_order_board : ∀ c s ctx p d, (E.gen_order_moves c s ctx p d).2.board = s.board
  gen_board : ∀ c s ctx p d, (E.gen_moves c s ctx p d).2.board = s.board
  undo_board : ∀ c (s s2 : State B G) m ctx,
    s2.board = (E.do_move c s m ctx).2.board → (E.undo_move c s2 m).board = s.board

/-- A search function that leaves the board as it found it. -/
def KeepsBoard {B G : Type} (rec : SearchFn B G) : Prop :=
  ∀ c s ctx d a b r s1, rec c s ctx d a b = some (r, s1) → s1.board = s.board

/-- The relation between a score `r` returned on the window `(a, b)` and the exact value
`v`: equal when `v` is inside the window, at most `a` when `v` is, at least `b` when `v`
is. -/
def FailSoft (r v a b : Int) : Prop :=
  (a < v → v < b → r = v) ∧ (v ≤ a → r ≤ a) ∧ (b ≤ v → b ≤ r)

/-- The negated value of the position after move `m`, one ply below: what plain negamax
compares at a node searched to depth `d + 1`. -/
def moveValue {B G : Type} (E : Ext B G) (R : Rules B) (c : Color) (ctx : Context)
    (d : Nat) (b : B) (m : Move) : Int :=
  -(minimax E R d c.opponent (R.play c b m ctx) (R.next_ctx c b m ctx))

/-- The move `m` does not leave the mover in check. -/
def isLegal {B G : Type} (E : Ext B G) (R : Rules B) (c : Color) (ctx : Context)
    (b : B) (m : Move) : Prop :=
  E.get_checks c (R.play c b m ctx) = 0

/-- A set `T` of nodes with their windows (side to move, board, context, remaining depth,
`alpha`, `beta`) that holds, with a node of remaining depth `d + 1` searched on
`(alpha, beta)`, the positions after its legal moves at remaining depth `d` on every window
`(-beta, -a)` with `alpha <= a < beta`: the windows the move loop can give them. -/
def TreeClosed {B G : Type} (E : Ext B G) (R : Rules B)
    (T : Color → B → Context → Nat → Int → Int → Prop) : Prop :=
  ∀ c b ctx d alpha beta m a, T c b ctx (d + 1) alpha beta → m ∈ R.moves c b ctx →
    isLegal E R c ctx b m → alpha ≤ a → a < beta →
    T c.opponent (R.play c b m ctx) (R.next_ctx c b m ctx) d (-beta) (-a)

/-- The null-move step does not fire at the nodes of `T`: at each of them the flag
`try_null_move` is false for the bound `beta` the node is searched with. -/
def NullOff {B G : Type} (E : Ext B G)
    (T : Color → B → Context → Nat → Int → Int → Prop) : Prop :=
  ∀ c b ctx d alpha beta, T c b ctx d alpha beta → try_null_move E c b d beta = false

/-- A search function that, at the nodes of `T` of depth `d` whose window is made of `I16`
values with a lower bound that is not the least `I16`, returns, leaves the board unchanged,
and returns a score within `[-INFINITY, INFINITY]` that is related to the negamax value as
`FailSoft` says. -/
def MeetsSpec {B G : Type} (E : Ext B G) (R : Rules B)
    (T : Color → B → Context → Nat → Int → Int → Prop) (rec : SearchFn B G) (d : Nat) :
    Prop :=
  ∀ c s ctx a b, T c s.board ctx d a b → -32768 < a → a < b → b ≤ 32767 →
    ∃ r s1, rec c s ctx d a b = some (r, s1) ∧ s1.board = s.board ∧
      -E.INFINITY ≤ r.score ∧ r.score ≤ E.INFINITY ∧
      FailSoft r.score (minimax E R d c s.board ctx) a b

/-- The invariant of the move loop of `nega_max` at a node with board `b`, entered with
lower bound `alpha0`, after the moves `pre` have been examined without a cutoff. The
counter of legal moves is the `I16` image of a number `n` of moves of `pre`. -/
def LoopInv {B G : Type} (E : Ext B G) (R : Rules B) (c : Color) (ctx : Context)
    (d : Nat) (b : B) (alpha0 beta : Int) (L : Loop B G) (pre : List Move) : Prop :=
  L.state.board = b ∧ -32768 < L.alpha ∧ L.alpha < beta ∧
  (∃ n : Nat, n ≤ pre.length ∧ L.legal_move_count = wrapI16 n) ∧
  (L.legal_move_count = 0 →
    L.alpha = alpha0 ∧ L.best.move.raw = 0 ∧ ∀ m ∈ pre, ¬ isLegal E R c ctx b m) ∧
  (L.legal_move_count ≠ 0 →
    L.best.move.raw ≠ 0 ∧ -E.INFINITY ≤ L.best.score ∧ L.best.score ≤ E.INFINITY ∧
    L.alpha = max alpha0 L.best.score ∧
    (∃ m ∈ pre, isLegal E R c ctx b m) ∧
    (∀ m ∈ pre, isLegal E R c ctx b m → moveValue E R c ctx d b m ≤ L.alpha) ∧
    (L.alpha = alpha0 ∨
      ∃ m ∈ pre, isLegal E R c ctx b m ∧ moveValue E R c ctx d b m = L.alpha))

/-- How the move loop of `nega_max` ends, `all` being the moves it was given: with no
legal move; or without cutoff, the bound reached being the greatest of `alpha0` and the
values of the legal moves; or with a cutoff on a legal move whose value reaches `beta`. -/
def LoopPost {B G : Type} (E : Ext B G) (R : Rules B) (c : Color) (ctx : Context)
    (d : Nat) (b : B) (alpha0 beta : Int) (L : Loop B G) (all : List Move) : Prop :=
  L.state.board = b ∧
  ((L.legal_move_count = 0 ∧ ∀ m ∈ all, ¬ isLegal E R c ctx b m) ∨
   (L.legal_move_count ≠ 0 ∧ -E.INFINITY ≤ L.best.score ∧ L.best.score ≤ E.INFINITY ∧
     (∃ m ∈ all, isLegal E R c ctx b m) ∧
     ((max alpha0 L.best.score < beta ∧
        (∀ m ∈ all, isLegal E R c ctx b m →
          moveValue E R c ctx d b m ≤ max alpha0 L.best.score) ∧
        (max alpha0 L.best.score = alpha0 ∨
          ∃ m ∈ all, isLegal E R c ctx b m ∧
            moveValue E R c ctx d b m = max alpha0 L.best.score)) ∨
      (beta ≤ L.best.score ∧
        ∃ m ∈ all, isLegal E R c ctx b m ∧ beta ≤ moveValue E R c ctx d b m))))

/-- An event other than a call of `gen_order_moves`. -/
def Event.not_gen_order : Event → Prop
  | .gen_order_moves _ _ _ _ _ => False
  | _ => True

/-- What lines 52-141 of `nega_max` return at the root of `stalemateGame` (White has a
knight, is not in check, evaluation 0, reduction 1) searched to depth 1 on the window
`(-10, -5)` (the null result if they did not return). -/
def nullPruneOut : Out (List Nat) ToyGlob :=
  match nega_max_null stalemateGame.ext (nega_max stalemateGame.ext 1) Color.White Toy.init
      [] Toy.ctx0 1 (-10) (-5) (-10) 0 Move.null with
  | some out => out
  | none => ⟨⟨Move.null, 0⟩, Toy.init, []⟩

/-- An event that, when it is made on a context (quiescence, move generation, move
application) is made on `ctx` itself and, when it is made under a hash (transposition probe
and write-back), is made under the hash of `ctx`. -/
def Event.on_context (ctx : Context) : Event → Prop
  | .get_cell h _ _ _ => h = ctx.hash
  | .set_cell _ h _ _ _ _ => h = ctx.hash
  | .quiesce _ ctx1 _ _ _ => ctx1 = ctx
  | .gen_order_moves _ ctx1 _ _ _ => ctx1 = ctx
  | .gen_moves _ ctx1 _ _ _ => ctx1 = ctx
  | .do_move _ _ ctx1 _ => ctx1 = ctx
  | _ => True

/-- The two-ply game in which White has a knight, the null-move reduction is 1 and the leaf
value for Black at the root is 20: on a window below 0 the null move is tried at the root
and does not prune. -/
def nullTried : Toy :=
  { stalemateGame with
    moves := twoPly.moves
    checks := fun _ _ => 0
    leaf := fun c b => if c = .Black ∧ b = [] then 20 else 0 }

/-- What lines 52-141 of `nega_max` return at the root of `nullTried` searched to depth 1
on the window `(-10, -5)` (the null result if they did not return). -/
def nullTriedOut : Out (List Nat) ToyGlob :=
  match nega_max_null nullTried.ext (nega_max nullTried.ext 1) Color.White Toy.init
      [] Toy.ctx0 1 (-10) (-5) (-10) 0 Move.null with
  | some out => out
  | none => ⟨⟨Move.null, 0⟩, Toy.init, []⟩

/-- The two-ply game with a transposition table that answers every probe with a `LOWER`
cell of depth 5 holding the move 7 and the score 10. -/
def lowerHit : Toy :=
  { twoPly with probe := fun _ _ => ⟨true, 3, ⟨5, .LOWER, ⟨7⟩, 10⟩⟩ }

/-- The collaborators of the small game with a fail-hard quiescence: the leaf value
clamped into the window the quiescence is called with. -/
def Toy.hard (t : Toy) : Ext (List Nat) ToyGlob :=
  { t.ext with
    quiesce := fun c s _ alpha beta => (max alpha (min beta (t.leaf c s.board)), s) }

/-- A one-ply game: White has the moves 1 and 2, which lead to leaves worth 0 and 50 to
White (0 and -50 to Black, who is to move there). Nobody is ever in check. -/
def scoutGame : Toy :=
  { twoPly with
    moves := fun b => match b with
      | [] => [⟨1⟩, ⟨2⟩]
      | _ => []
    leaf := fun _ b => match b with
      | [2] => -50
      | _ => 0 }

/-- The two-ply game with a transposition table that answers every probe with an `UPPER`
cell of depth 5 holding the move 7 and the score 5. -/
def upperHit : Toy :=
  { twoPly with probe := fun _ _ => ⟨true, 3, ⟨5, .UPPER, ⟨7⟩, 5⟩⟩ }

/-- What `nega_max` returns at the root of `upperHit` searched to depth 1 on the window
`(-100, 100)` (the null result if it did not return). -/
def upperHitOut : Out (List Nat) ToyGlob :=
  match nega_max_body upperHit.ext (nega_max upperHit.ext 1) Color.White Toy.init Toy.ctx0
      1 (-100) 100 with
  | some out => out
  | none => ⟨⟨Move.null, 0⟩, Toy.init, []⟩

/-! ### Reading a position (`src/V3/board/impl/interface.hpp`)

`Board::from_fen` splits the FEN string with `sscanf`; the first field, the piece
placement, is left in the array `fen_board`, followed by the terminator `'\0'` and
whatever the rest of the array holds. The embedding takes the contents of that array as
its input. The conversion `char_to_piece` of `util/conversion.hpp` is a parameter; the
mailbox accessors of `Board.hpp` are modelled as said below. -/

/-- The part of a `Board` that `from_fen` writes: the mailbox (one `Piece` per square) and
the array `bitboards`, indexed by `Piece`. -/
structure Board where
  board : Nat → Piece
  bitboards : Piece → Nat

/-- Modelled from the spec: `set_board(i, pc)` makes `pc` the occupant of square `i` in
the mailbox and changes nothing else. -/
def Board.set_board (b : Board) (i : Nat) (pc : Piece) : Board :=
  { b with board := Function.update b.board i pc }

/-- Modelled from the spec: `get_board(i)` reads the occupant of square `i`. -/
def Board.get_board (b : Board) (i : Nat) : Piece :=
  b.board i

/-- The variables of the placement loop of `from_fen` (lines 48-59): the board and the
running square index `i`. -/
structure FenLoop where
  b : Board
  i : Nat

/-- The body of the placement loop (lines 51-58) on a character other than the
terminator: a digit from `'1'` to `'9'` advances `i` by its value; any other character but
`'/'` is converted by `char_to_piece`, sets bit `i` of that piece's bitboard and is stored
in the mailbox at `i`, which is then advanced by one; `'/'` does nothing. -/
def from_fen_step (char_to_piece : Char → Piece) (L : FenLoop) (ch : Char) : FenLoop :=
  if '1' ≤ ch ∧ ch ≤ '9' then
    { L with i := L.i + (ch.toNat - '0'.toNat) }
  else if ch ≠ '/' then
    let pc := char_to_piece ch
    let b1 : Board :=
      { L.b with bitboards := Function.update L.b.bitboards pc (L.b.bitboards pc ||| 1 <<< L.i) }
    { b := b1.set_board L.i pc, i := L.i + 1 }
  else L

/-- The placement loop of `from_fen` (lines 49-59) over the characters of `fen_board`: it
stops at the first `'\0'`. -/
def from_fen_loop (char_to_piece : Char → Piece) : List Char → FenLoop → FenLoop
  | [], L => L
  | ch :: rest, L =>
    if ch = '\x00' then L
    else from_fen_loop char_to_piece rest (from_fen_step char_to_piece L ch)

/-- Lines 42-76 of `Board::from_fen`: the mailbox squares 0..63 are set to `NA` and every
bitboard to 0, the placement loop runs over `fen_board`, and `WHITE_ALL` and `BLACK_ALL`
are assigned the OR of the six bitboards of their colour. The result holds the board and
the final value of the running index `i`. The rest of the function builds the context
and does not write the board. -/
def from_fen (char_to_piece : Char → Piece) (b : Board) (fen_board : List Char) : FenLoop :=
  let b0 : Board :=
    { board := (List.range 64).foldl (fun m i => Function.update m i Piece.NA) b.board
      bitboards := fun _ => 0 }
  let L := from_fen_loop char_to_piece fen_board { b := b0, i := 0 }
  let bb := L.b.bitboards
  let bb1 := Function.update bb Piece.WHITE_ALL
    (bb .WHITE_PAWN ||| bb .WHITE_KNIGHT ||| bb .WHITE_BISHOP ||| bb .WHITE_ROOK
      ||| bb .WHITE_QUEEN ||| bb .WHITE_KING)
  let bb2 := Function.update bb1 Piece.BLACK_ALL
    (bb1 .BLACK_PAWN ||| bb1 .BLACK_KNIGHT ||| bb1 .BLACK_BISHOP ||| bb1 .BLACK_ROOK
      ||| bb1 .BLACK_QUEEN ||| bb1 .BLACK_KING)
  { b := { L.b with bitboards := bb2 }, i := L.i }

/-- The twelve piece kinds, as opposed to the tags `WHITE_ALL`, `BLACK_ALL` and `NA`. -/
def Piece.isPiece : Piece → Bool
  | .WHITE_ALL => false
  | .BLACK_ALL => false
  | .NA => false
  | _ => true

/-- The piece letters of a FEN placement field. -/
def isPieceLetter (ch : Char) : Bool :=
  ch ∈ ['P', 'N', 'B', 'R', 'Q', 'K', 'p', 'n', 'b', 'r', 'q', 'k']

/-- The number of squares described by one rank of a placement field, when it is made of
digits 1-8 and piece letters only. -/
def rankWidth : List Char → Option Nat
  | [] => some 0
  | ch :: rest =>
    if '1' ≤ ch ∧ ch ≤ '8' then (rankWidth rest).map (fun w => (ch.toNat - '0'.toNat) + w)
    else if isPieceLetter ch then (rankWidth rest).map (fun w => 1 + w)
    else none

/-- The placement field made of the given ranks, separated by `'/'`. -/
def joinRanks : List (List Char) → List Char
  | [] => []
  | [r] => r
  | r :: rs => r ++ '/' :: joinRanks rs

/-- The squares that a character of a placement field describes, following the FEN
reading of the field: a digit stands for that many empty squares, `'/'` for none, a
letter for one square with its piece. -/
def squaresOf (char_to_piece : Char → Piece) (ch : Char) : List Piece :=
  if '1' ≤ ch ∧ ch ≤ '8' then List.replicate (ch.toNat - '0'.toNat) Piece.NA
  else if ch = '/' then []
  else [char_to_piece ch]

/-- The squares that a placement field describes, in the order of the field. -/
def fenSquares (char_to_piece : Char → Piece) : List Char → List Piece
  | [] => []
  | ch :: rest => squaresOf char_to_piece ch ++ fenSquares char_to_piece rest

/-- The usual reading of the piece letters (upper case for White), any other character
being read as no piece. -/
def fenPiece (ch : Char) : Piece :=
  match ch with
  | 'P' => .WHITE_PAWN
  | 'N' => .WHITE_KNIGHT
  | 'B' => .WHITE_BISHOP
  | 'R' => .WHITE_ROOK
  | 'Q' => .WHITE_QUEEN
  | 'K' => .WHITE_KING
  | 'p' => .BLACK_PAWN
  | 'n' => .BLACK_KNIGHT
  | 'b' => .BLACK_BISHOP
  | 'r' => .BLACK_ROOK
  | 'q' => .BLACK_QUEEN
  | 'k' => .BLACK_KING
  | _ => .NA

/-- The ranks of the placement field of the initial position. -/
def startRanks : List (List Char) :=
  ["rnbqkbnr".toList, "pppppppp".toList, "8".toList, "8".toList, "8".toList, "8".toList,
    "PPPPPPPP".toList, "RNBQKBNR".toList]

/-- A board with an empty mailbox and empty bitboards. -/
def emptyBoard : Board :=
  { board := fun _ => Piece.NA, bitboards := fun _ => 0 }
/-- The characters of a placement field: digits 1-8, piece letters and `'/'`. -/
def okChar (ch : Char) : Prop :=
  ('1' ≤ ch ∧ ch ≤ '8') ∨ isPieceLetter ch = true ∨ ch = '/'

/-- The invariant of the placement loop once the characters `pre` of the field have been
read: the running index is the number of squares described so far; the mailbox holds the
squares described so far and `NA` after them; bit `j` of a piece's bitboard is set exactly
when the `j`-th square described so far holds that piece; the other bitboards are 0. -/
def FenInv (char_to_piece : Char → Piece) (L : FenLoop) (pre : List Char) : Prop :=
  L.i = (fenSquares char_to_piece pre).length ∧
  (∀ j, j < 64 → L.b.board j = (fenSquares char_to_piece pre).getD j Piece.NA) ∧
  (∀ p, p.isPiece = true → ∀ j,
    ((L.b.bitboards p).testBit j = true ↔ (fenSquares char_to_piece pre).getD j Piece.NA = p)) ∧
  (∀ p, p.isPiece = false → L.b.bitboards p = 0)

/-- The offset that `Bmagic` and `Rmagic` add to the sub-table pointer of the square
(lines 132 and 144), as a function of the square's mask, magic and shift: the `U64`
product of the masked occupancy and the magic, shifted right. -/
def magicIndex (occupancy mask magic shift : Nat) : Nat :=
  (((occupancy &&& mask) * magic) % 2 ^ 64) >>> shift

/-- The offset that `BmagicNOMASK` and `RmagicNOMASK` add to the sub-table pointer of the
square (lines 156 and 168). -/
def magicIndexNOMASK (occupancy magic shift : Nat) : Nat :=
  ((occupancy * magic) % 2 ^ 64) >>> shift

/-! ### The flag of a typed move (`src/V3/board/impl/interface.hpp`, lines 110-134) -/

/-- Modelled from the spec: the special flags of a move. `derive_flag` names `REGULAR`,
`CASTLE` and `QUEEN_PROMO` and, in a comment, `EN_PASSANT`; the three under-promotions
stand for the remaining members of the enumeration. -/
inductive Flag where
  | REGULAR
  | CASTLE
  | EN_PASSANT
  | KNIGHT_PROMO
  | BISHOP_PROMO
  | ROOK_PROMO
  | QUEEN_PROMO
deriving DecidableEq, Repr

/-- `Board::derive_flag<Color>(from, to)` (lines 110-134), returned with the board it
leaves: the function only reads the mailbox. `FINAL_RANK` gives the constant
`Color::FINAL_RANK` of each colour, a bitboard. The squares are numbers below 64, so
that `1ULL << to` is bit `to`, and the tests `to - from == 2` and `from - to == 2` are
made on the integers, as they are after integer promotion of a narrow `Square`. -/
def derive_flag (FINAL_RANK : Color → Nat) (c : Color) (b : Board) (from_ to_ : Nat) :
    Flag × Board :=
  let piece := b.get_board from_
  let is_capture : Bool := decide (b.get_board to_ ≠ Piece.NA)
  let is_promo : Bool :=
    decide (piece = c.PAWN) && decide ((1 <<< to_) &&& FINAL_RANK c ≠ 0)
  if is_capture && is_promo then (Flag.QUEEN_PROMO, b)
  else if is_capture then (Flag.REGULAR, b)
  else if is_promo then (Flag.QUEEN_PROMO, b)
  else
    let is_short_castle : Bool :=
      decide (piece = c.KING) && decide ((to_ : Int) - (from_ : Int) = 2)
    if is_short_castle then (Flag.CASTLE, b)
    else
      let is_long_castle : Bool :=
        decide (piece = c.KING) && decide ((from_ : Int) - (to_ : Int) = 2)
      if is_long_castle then (Flag.CASTLE, b)
      else (Flag.REGULAR, b)

/-- The final ranks of a board whose square 0 is the first square of the FEN placement
field: squares 0-7 for White and 56-63 for Black. -/
def sampleFinalRank : Color → Nat
  | .White => 0xFF
  | .Black => 0xFF00000000000000

/-- A position with a white pawn on square 8, a black rook on square 1, the white king on
square 60 and the black king on square 4. -/
def promoBoard : Board :=
  { board := fun i =>
      if i = 8 then Piece.WHITE_PAWN
      else if i = 1 then Piece.BLACK_ROOK
      else if i = 60 then Piece.WHITE_KING
      else if i = 4 then Piece.BLACK_KING
      else Piece.NA
    bitboards := fun _ => 0 }

/-- The two-ply game with a white knight and a black rook on the board (null-move
reduction 2, evaluation 0, nobody in check): at depth 2 the null-move step fires when
`beta` is negative and does not when `beta` is 0 or more; below depth 2 it never fires. -/
def knightGame : Toy :=
  { twoPly with bitboard := stalemateGame.bitboard }

/-- The nodes of `knightGame` searched below a root of depth 2 whose `beta` is not
negative. -/
def knightTree (_ : Color) (_ : List Nat) (_ : Context) (d : Nat) (_ beta : Int) : Prop :=
  d < 2 ∨ (d = 2 ∧ 0 ≤ beta)

/-- A one-ply game in which the generator yields a move of raw value 0, that of the null
move, first: White has the moves 0 and 2, leading to leaves worth 7 and -3 to White. -/
def nullFirst : Toy :=
  { twoPly with
    moves := fun b => match b with
      | [] => [⟨0⟩, ⟨2⟩]
      | _ => []
    leaf := fun _ b => match b with
      | [0] => -7
      | [2] => 3
      | _ => 0 }

/-! ## Part II. Theorems -/

/-! ### The `I16` counter of legal moves -/

theorem wrapI16_succ (x : Int) : wrapI16 (wrapI16 x + 1) = wrapI16 (x + 1) := by
  unfold wrapI16
  omega

theorem wrapI16_eq_zero (k : Nat) (hk : k < 65536) (h : wrapI16 (k : Int) = 0) : k = 0 := by
  unfold wrapI16 at h
  omega

theorem wrapI16_succ_ne_zero (n : Nat) (hn : n + 1 < 65536) :
    wrapI16 (wrapI16 (n : Int) + 1) ≠ 0 := by
  unfold wrapI16
  omega

/-! ### The move loops -/

theorem nega_max_loop_invariant {B G : Type} (E : Ext B G) (rec : SearchFn B G) (c : Color)
    (ctx : Context) (depth : Nat) (beta : Int) (P : Loop B G → Prop) (Pm : Move → Prop)
    (hstep : ∀ move L stop L1, Pm move → P L →
      nega_max_step E rec c ctx depth beta move L = some (stop, L1) → P L1) :
    ∀ (ml : List Move) (L L1 : Loop B G), (∀ m ∈ ml, Pm m) →
      nega_max_loop E rec c ctx depth beta ml L = some L1 → P L → P L1 := by
  intro ml
  induction ml with
  | nil =>
    intro L L1 _ h hL
    simp only [nega_max_loop, Option.some.injEq] at h
    subst h
    exact hL
  | cons move ml ih =>
    intro L L1 hml h hL
    simp only [nega_max_loop] at h
    cases hs : nega_max_step E rec c ctx depth beta move L with
    | none => simp [hs] at h
    | some r =>
      obtain ⟨stop, L2⟩ := r
      have hP2 := hstep move L stop L2 (hml move (List.mem_cons_self _ _)) hL hs
      cases stop with
      | true =>
        simp only [hs, Option.some.injEq] at h
        subst h
        exact hP2
      | false =>
        simp only [hs] at h
        exact ih L2 L1 (fun m hm => hml m (List.mem_cons_of_mem _ hm)) h hP2

theorem nega_scout_loop_invariant {B G : Type} (E : Ext B G) (rec : SearchFn B G) (c : Color)
    (ctx : Context) (depth : Nat) (alpha og_beta : Int) (P : ScoutLoop B G → Prop)
    (Pm : Move → Prop)
    (hstep : ∀ move i L stop L1, Pm move → P L →
      nega_scout_step E rec c ctx depth alpha og_beta move i L = some (stop, L1) → P L1) :
    ∀ (ml : List Move) (i : Nat) (L L1 : ScoutLoop B G), (∀ m ∈ ml, Pm m) →
      nega_scout_loop E rec c ctx depth alpha og_beta ml i L = some L1 → P L → P L1 := by
  intro ml
  induction ml with
  | nil =>
    intro i L L1 _ h hL
    simp only [nega_scout_loop, Option.some.injEq] at h
    subst h
    exact hL
  | cons move ml ih =>
    intro i L L1 hml h hL
    simp only [nega_scout_loop] at h
    cases hs : nega_scout_step E rec c ctx depth alpha og_beta move i L with
    | none => simp [hs] at h
    | some r =>
      obtain ⟨stop, L2⟩ := r
      have hP2 := hstep move i L stop L2 (hml move (List.mem_cons_self _ _)) hL hs
      cases stop with
      | true =>
        simp only [hs, Option.some.injEq] at h
        subst h
        exact hP2
      | false =>
        simp only [hs] at h
        exact ih (i + 1) L2 L1 (fun m hm => hml m (List.mem_cons_of_mem _ hm)) h hP2

/-- What one iteration of the `nega_max` loop can be: the move is skipped as illegal, or
it is searched and the loop goes on, or it is searched and the loop breaks. -/
theorem nega_max_step_cases {B G : Type} (E : Ext B G) (rec : SearchFn B G) (c : Color)
    (ctx : Context) (depth : Nat) (beta : Int) (move : Move) (L : Loop B G)
    (stop : Bool) (L1 : Loop B G)
    (h : nega_max_step E rec c ctx depth beta move L = some (stop, L1)) :
    (E.get_checks c (E.do_move c L.state move ctx).2.board ≠ 0 ∧ stop = false ∧
      L1 = { L with
        state := E.undo_move c (E.do_move c L.state move ctx).2 move
        trace := L.trace ++ [.do_move c move ctx (E.do_move c L.state move ctx).1,
          .undo_move c move] }) ∨
    (E.get_checks c (E.do_move c L.state move ctx).2.board = 0 ∧
      ∃ local_best s2,
        rec c.opponent (E.do_move c L.state move ctx).2 (E.do_move c L.state move ctx).1
          (subU16 depth 1) (negI16 beta) (negI16 L.alpha) = some (local_best, s2) ∧
        L1.best = (if L.best.move.raw = 0 ∨ negI16 local_best.score > L.best.score
          then ⟨move, negI16 local_best.score⟩ else L.best) ∧
        L1.alpha = max L.alpha L1.best.score ∧
        L1.legal_move_count = wrapI16 (L.legal_move_count + 1) ∧
        stop = decide (L1.alpha ≥ beta) ∧
        L1.state.board = (E.undo_move c s2 move).board ∧
        L1.state.glob = (if L1.alpha ≥ beta
          then E.add_move (E.undo_move c s2 move).glob move depth
          else (E.undo_move c s2 move).glob) ∧
        L1.trace = L.trace ++ [.do_move c move ctx (E.do_move c L.state move ctx).1,
            .search c.opponent (E.do_move c L.state move ctx).1 (subU16 depth 1)
              (negI16 beta) (negI16 L.alpha) local_best,
            .undo_move c move]
          ++ (if L1.alpha ≥ beta then [.add_move move depth] else [])) := by
  unfold nega_max_step at h
  by_cases hc : E.get_checks c (E.do_move c L.state move ctx).2.board ≠ 0
  · left
    rw [if_pos hc] at h
    simp only [Option.some.injEq, Prod.mk.injEq] at h
    exact ⟨hc, h.1.symm, h.2.symm⟩
  · right
    have hc0 : E.get_checks c (E.do_move c L.state move ctx).2.board = 0 := by
      simpa using hc
    refine ⟨hc0, ?_⟩
    rw [if_neg hc] at h
    cases hr : rec c.opponent (E.do_move c L.state move ctx).2 (E.do_move c L.state move ctx).1
        (subU16 depth 1) (negI16 beta) (negI16 L.alpha) with
    | none => simp [hr] at h
    | some r =>
      obtain ⟨local_best, s2⟩ := r
      refine ⟨local_best, s2, rfl, ?_⟩
      simp only [hr] at h
      by_cases hcut : max L.alpha (if L.best.move.raw = 0 ∨ negI16 local_best.score > L.best.score
          then (⟨move, negI16 local_best.score⟩ : MoveScore) else L.best).score ≥ beta
      · rw [if_pos hcut] at h
        simp only [Option.some.injEq, Prod.mk.injEq] at h
        obtain ⟨h1, h2⟩ := h
        subst h2
        simp [hcut, h1.symm]
      · rw [if_neg hcut] at h
        simp only [Option.some.injEq, Prod.mk.injEq] at h
        obtain ⟨h1, h2⟩ := h
        subst h2
        simp [hcut, h1.symm]

/-- What one iteration of the `nega_scout` loop can be: the move is skipped as illegal, or
it is searched (once, or twice when the re-search condition holds) and the loop goes on or
breaks. -/
theorem nega_scout_step_cases {B G : Type} (E : Ext B G) (rec : SearchFn B G) (c : Color)
    (ctx : Context) (depth : Nat) (alpha og_beta : Int) (move : Move) (i : Nat)
    (L : ScoutLoop B G) (stop : Bool) (L1 : ScoutLoop B G)
    (h : nega_scout_step E rec c ctx depth alpha og_beta move i L = some (stop, L1)) :
    (E.get_checks c (E.do_move c L.state move ctx).2.board ≠ 0 ∧ stop = false ∧
      L1 = { L with
        state := E.undo_move c (E.do_move c L.state move ctx).2 move
        trace := L.trace ++ [.do_move c move ctx (E.do_move c L.state move ctx).1,
          .undo_move c move] }) ∨
    (E.get_checks c (E.do_move c L.state move ctx).2.board = 0 ∧
      ∃ local_best s2 s3 tr2,
        rec c.opponent (E.do_move c L.state move ctx).2 (E.do_move c L.state move ctx).1
          (subU16 depth 1) (negI16 L.beta) (negI16 L.og_alpha) = some (local_best, s2) ∧
        (((negI16 local_best.score > alpha ∧ negI16 local_best.score < og_beta ∧ i > 0) ∧
          ∃ inner_best,
            rec c.opponent s2 (E.do_move c L.state move ctx).1 (subU16 depth 1)
              (negI16 og_beta) (negI16 L.og_alpha) = some (inner_best, s3) ∧
            tr2 = L.trace ++ [.do_move c move ctx (E.do_move c L.state move ctx).1,
                .search c.opponent (E.do_move c L.state move ctx).1 (subU16 depth 1)
                  (negI16 L.beta) (negI16 L.og_alpha) local_best]
              ++ [.search c.opponent (E.do_move c L.state move ctx).1 (subU16 depth 1)
                  (negI16 og_beta) (negI16 L.og_alpha) inner_best]) ∨
         (¬ (negI16 local_best.score > alpha ∧ negI16 local_best.score < og_beta ∧ i > 0) ∧
          s3 = s2 ∧
          tr2 = L.trace ++ [.do_move c move ctx (E.do_move c L.state move ctx).1,
                .search c.opponent (E.do_move c L.state move ctx).1 (subU16 depth 1)
                  (negI16 L.beta) (negI16 L.og_alpha) local_best])) ∧
        L1.best = (if L.best.move.raw = 0 ∨ negI16 local_best.score > L.best.score
          then ⟨move, negI16 local_best.score⟩ else L.best) ∧
        L1.og_alpha = max L.og_alpha L1.best.score ∧
        L1.legal_move_count = wrapI16 (L.legal_move_count + 1) ∧
        stop = decide (L1.og_alpha ≥ og_beta) ∧
        L1.state = E.undo_move c s3 move ∧
        L1.trace = tr2 ++ [.undo_move c move] ∧
        L1.beta = (if L1.og_alpha ≥ og_beta then L.beta else wrapI16 (L1.og_alpha + 1))) := by
  unfold nega_scout_step at h
  by_cases hc : E.get_checks c (E.do_move c L.state move ctx).2.board ≠ 0
  · left
    rw [if_pos hc] at h
    simp only [Option.some.injEq, Prod.mk.injEq] at h
    exact ⟨hc, h.1.symm, h.2.symm⟩
  · right
    have hc0 : E.get_checks c (E.do_move c L.state move ctx).2.board = 0 := by
      simpa using hc
    refine ⟨hc0, ?_⟩
    rw [if_neg hc] at h
    cases hr : rec c.opponent (E.do_move c L.state move ctx).2 (E.do_move c L.state move ctx).1
        (subU16 depth 1) (negI16 L.beta) (negI16 L.og_alpha) with
    | none => simp [hr] at h
    | some r =>
      obtain ⟨local_best, s2⟩ := r
      simp only [hr] at h
      -- the re-search
      have key : ∀ (s3 : State B G) (tr2 : List Event),
          (if max L.og_alpha (if L.best.move.raw = 0 ∨ negI16 local_best.score > L.best.score
              then (⟨move, negI16 local_best.score⟩ : MoveScore) else L.best).score ≥ og_beta
            then some (true,
              ({ state := E.undo_move c s3 move
                 trace := tr2 ++ [Event.undo_move c move]
                 best := if L.best.move.raw = 0 ∨ negI16 local_best.score > L.best.score
                   then ⟨move, negI16 local_best.score⟩ else L.best
                 legal_move_count := wrapI16 (L.legal_move_count + 1)
                 og_alpha := max L.og_alpha
                   (if L.best.move.raw = 0 ∨ negI16 local_best.score > L.best.score
                     then (⟨move, negI16 local_best.score⟩ : MoveScore) else L.best).score
                 beta := L.beta } : ScoutLoop B G))
            else some (false,
              { state := E.undo_move c s3 move
                trace := tr2 ++ [Event.undo_move c move]
                best := if L.best.move.raw = 0 ∨ negI16 local_best.score > L.best.score
                  then ⟨move, negI16 local_best.score⟩ else L.best
                legal_move_count := wrapI16 (L.legal_move_count + 1)
                og_alpha := max L.og_alpha
                  (if L.best.move.raw = 0 ∨ negI16 local_best.score > L.best.score
                    then (⟨move, negI16 local_best.score⟩ : MoveScore) else L.best).score
                beta := wrapI16 (max L.og_alpha
                  (if L.best.move.raw = 0 ∨ negI16 local_best.score > L.best.score
                    then (⟨move, negI16 local_best.score⟩ : MoveScore) else L.best).score
                  + 1) })) = some (stop, L1) →
          L1.best = (if L.best.move.raw = 0 ∨ negI16 local_best.score > L.best.score
            then ⟨move, negI16 local_best.score⟩ else L.best) ∧
          L1.og_alpha = max L.og_alpha L1.best.score ∧
          L1.legal_move_count = wrapI16 (L.legal_move_count + 1) ∧
          stop = decide (L1.og_alpha ≥ og_beta) ∧
          L1.state = E.undo_move c s3 move ∧
          L1.trace = tr2 ++ [.undo_move c move] ∧
          L1.beta = (if L1.og_alpha ≥ og_beta then L.beta
            else wrapI16 (L1.og_alpha + 1)) := by
        intro s3 tr2 h
        by_cases hcut : max L.og_alpha
            (if L.best.move.raw = 0 ∨ negI16 local_best.score > L.best.score
              then (⟨move, negI16 local_best.score⟩ : MoveScore) else L.best).score ≥ og_beta
        · rw [if_pos hcut] at h
          simp only [Option.some.injEq, Prod.mk.injEq] at h
          obtain ⟨h1, h2⟩ := h
          subst h2
          simp [hcut, h1.symm]
        · rw [if_neg hcut] at h
          simp only [Option.some.injEq, Prod.mk.injEq] at h
          obtain ⟨h1, h2⟩ := h
          subst h2
          simp [hcut, h1.symm]
      by_cases hre : negI16 local_best.score > alpha ∧ negI16 local_best.score < og_beta ∧ i > 0
      · rw [if_pos hre] at h
        cases hr2 : rec c.opponent s2 (E.do_move c L.state move ctx).1 (subU16 depth 1)
            (negI16 og_beta) (negI16 L.og_alpha) with
        | none => simp [hr2] at h
        | some r2 =>
          obtain ⟨inner_best, s3⟩ := r2
          simp only [hr2] at h
          exact ⟨local_best, s2, s3, _, rfl, Or.inl ⟨hre, inner_best, hr2, rfl⟩, key _ _ h⟩
      · rw [if_neg hre] at h
        simp only at h
        exact ⟨local_best, s2, s2, _, rfl, Or.inr ⟨hre, rfl, rfl⟩, key _ _ h⟩

/-! ### Early returns of one call

The statements of this section are about one call, `nega_max_body E rec` or
`nega_scout_body E rec`, whatever the function `rec` that answers its recursive calls; the
search itself is `nega_max E (fuel + 1) = nega_max_body E (nega_max E fuel)` up to the
record. -/

/-- C9: when the draw detector reports a draw, `nega_max` and `nega_scout` return the null
move with score 0 for every depth and window; the record of the call is empty (no
transposition probe or store, no killer, no move generated or applied) and the board and
the tables are as at entry. -/
theorem draw_returns_null_zero {B G : Type} (E : Ext B G) (rec : SearchFn B G) (c : Color)
    (s : State B G) (ctx : Context) (depth : Nat) (alpha beta : Int)
    (hdraw : E.is_draw s.glob = true) :
    (∃ out, nega_max_body E rec c s ctx depth alpha beta = some out ∧
      out.result = ⟨Move.null, 0⟩ ∧ out.trace = [] ∧
      out.state.board = s.board ∧ out.state.glob = s.glob) ∧
    (∃ out, nega_scout_body E rec c s ctx depth alpha beta = some out ∧
      out.result = ⟨Move.null, 0⟩ ∧ out.trace = [] ∧
      out.state.board = s.board ∧ out.state.glob = s.glob) := by
  constructor
  · simp [nega_max_body, hdraw]
  · simp [nega_scout_body, hdraw]

theorem draw_returns_null_zero_witness :
    drawnGame.ext.is_draw Toy.init.glob = true ∧
    ((∃ out, nega_max_body drawnGame.ext (nega_max drawnGame.ext 2) Color.White Toy.init
        Toy.ctx0 2 (-5) 5 = some out ∧
      out.result = ⟨Move.null, 0⟩ ∧ out.trace = [] ∧
      out.state.board = Toy.init.board ∧ out.state.glob = Toy.init.glob) ∧
    (∃ out, nega_scout_body drawnGame.ext (nega_max drawnGame.ext 2) Color.White Toy.init
        Toy.ctx0 2 (-5) 5 = some out ∧
      out.result = ⟨Move.null, 0⟩ ∧ out.trace = [] ∧
      out.state.board = Toy.init.board ∧ out.state.glob = Toy.init.glob)) :=
  ⟨rfl, draw_returns_null_zero drawnGame.ext (nega_max drawnGame.ext 2) Color.White Toy.init
    Toy.ctx0 2 (-5) 5 rfl⟩

/-- C6: in a position not reported drawn, when the probe at requested depth `d >= 1` hits
an `EXACT` cell whose stored depth is at least `d`, `nega_max` and `nega_scout` return the
cell's move and score; the record of the call is the probe alone (no move generation, no
quiescence, no recursive call, no store) and the board and the tables are as at entry. -/
theorem exact_hit_returns_cell {B G : Type} (E : Ext B G) (rec : SearchFn B G) (c : Color)
    (s : State B G) (ctx : Context) (d : Nat) (alpha beta : Int)
    (hdraw : E.is_draw s.glob = false) (hd : 1 ≤ d)
    (hhit : (E.get_cell s.glob ctx.hash d).hit = true)
    (hexact : (E.get_cell s.glob ctx.hash d).cell.node_type = NodeType.EXACT)
    (hdepth : d ≤ (E.get_cell s.glob ctx.hash d).cell.depth) :
    (∃ out, nega_max_body E rec c s ctx d alpha beta = some out ∧
      out.result = ⟨(E.get_cell s.glob ctx.hash d).cell.move,
        (E.get_cell s.glob ctx.hash d).cell.score⟩ ∧
      out.trace = [Event.get_cell ctx.hash d true (E.get_cell s.glob ctx.hash d).cell] ∧
      out.state.board = s.board ∧ out.state.glob = s.glob) ∧
    (∃ out, nega_scout_body E rec c s ctx d alpha beta = some out ∧
      out.result = ⟨(E.get_cell s.glob ctx.hash d).cell.move,
        (E.get_cell s.glob ctx.hash d).cell.score⟩ ∧
      out.trace = [Event.get_cell ctx.hash d true (E.get_cell s.glob ctx.hash d).cell] ∧
      out.state.board = s.board ∧ out.state.glob = s.glob) := by
  have hd0 : d ≠ 0 := by omega
  constructor
  · simp [nega_max_body, hdraw, hd0, hhit, hexact, hdepth]
  · simp [nega_scout_body, hdraw, hhit, hexact, hdepth]

theorem exact_hit_returns_cell_witness :
    (exactHit.ext.is_draw Toy.init.glob = false ∧ 1 ≤ 2 ∧
      (exactHit.ext.get_cell Toy.init.glob Toy.ctx0.hash 2).hit = true ∧
      (exactHit.ext.get_cell Toy.init.glob Toy.ctx0.hash 2).cell.node_type = NodeType.EXACT ∧
      2 ≤ (exactHit.ext.get_cell Toy.init.glob Toy.ctx0.hash 2).cell.depth) ∧
    ((∃ out, nega_max_body exactHit.ext (nega_max exactHit.ext 2) Color.White Toy.init
        Toy.ctx0 2 (-5) 5 = some out ∧
      out.result = ⟨(exactHit.ext.get_cell Toy.init.glob Toy.ctx0.hash 2).cell.move,
        (exactHit.ext.get_cell Toy.init.glob Toy.ctx0.hash 2).cell.score⟩ ∧
      out.trace = [Event.get_cell Toy.ctx0.hash 2 true
        (exactHit.ext.get_cell Toy.init.glob Toy.ctx0.hash 2).cell] ∧
      out.state.board = Toy.init.board ∧ out.state.glob = Toy.init.glob) ∧
    (∃ out, nega_scout_body exactHit.ext (nega_max exactHit.ext 2) Color.White Toy.init
        Toy.ctx0 2 (-5) 5 = some out ∧
      out.result = ⟨(exactHit.ext.get_cell Toy.init.glob Toy.ctx0.hash 2).cell.move,
        (exactHit.ext.get_cell Toy.init.glob Toy.ctx0.hash 2).cell.score⟩ ∧
      out.trace = [Event.get_cell Toy.ctx0.hash 2 true
        (exactHit.ext.get_cell Toy.init.glob Toy.ctx0.hash 2).cell] ∧
      out.state.board = Toy.init.board ∧ out.state.glob = Toy.init.glob)) :=
  ⟨⟨rfl, by decide, rfl, rfl, by decide⟩,
    exact_hit_returns_cell exactHit.ext (nega_max exactHit.ext 2) Color.White Toy.init
      Toy.ctx0 2 (-5) 5 rfl (by decide) rfl rfl (by decide)⟩

/-- C8 (as the code has it): in a position not reported drawn, `nega_max` at depth 0
returns the null move with the score of `quiesce` on the window it was entered with, and
its record is that call alone: the transposition table is not consulted. `nega_scout`
probes the table before it looks at the depth: at depth 0 it returns the null move with
the score of `quiesce` on the entry window when the probe misses; on a hit (any stored
depth is at least 0) an `EXACT` cell is returned as it is, and a `LOWER` or `UPPER` cell
is returned when it empties the window and otherwise narrows the window `quiesce` is
called with. -/
theorem depth_zero_leaf {B G : Type} (E : Ext B G) (rec : SearchFn B G) (c : Color)
    (s : State B G) (ctx : Context) (alpha beta : Int)
    (hdraw : E.is_draw s.glob = false) :
    (∃ out, nega_max_body E rec c s ctx 0 alpha beta = some out ∧
      out.result = ⟨Move.null, (E.quiesce c
        { s with
          nodes := s.nodes + 1, leaves := s.leaves + 1,
          node_depth_hist := Function.update s.node_depth_hist 0 (s.node_depth_hist 0 + 1) }
        ctx alpha beta).1⟩ ∧
      out.trace = [Event.quiesce c ctx alpha beta out.result.score]) ∧
    (∃ out, nega_scout_body E rec c s ctx 0 alpha beta = some out ∧
      out.result =
        (let p := E.get_cell s.glob ctx.hash 0
         let q := fun a b => (⟨Move.null, (E.quiesce c
           { s with nodes := s.nodes + 1, leaves := s.leaves + 1 } ctx a b).1⟩ : MoveScore)
         let cell : MoveScore := ⟨p.cell.move, p.cell.score⟩
         if p.hit then
           match p.cell.node_type with
           | .EXACT => cell
           | .LOWER =>
             if max alpha p.cell.score ≥ min beta p.cell.score then cell
             else q (max alpha p.cell.score) (min beta p.cell.score)
           | .UPPER =>
             if alpha ≥ min beta p.cell.score then cell else q alpha (min beta p.cell.score)
         else q alpha beta)) := by
  constructor
  · simp [nega_max_body, hdraw]
  · simp only [nega_scout_body, hdraw]
    cases hh : (E.get_cell s.glob ctx.hash 0).hit
    · simp [nega_scout_moves]
    · cases hn : (E.get_cell s.glob ctx.hash 0).cell.node_type
      · simp
      · by_cases hw : max alpha (E.get_cell s.glob ctx.hash 0).cell.score
            ≥ min beta (E.get_cell s.glob ctx.hash 0).cell.score
        · simp [nega_scout_tt_cut, hw]
        · simp [nega_scout_tt_cut, nega_scout_moves, hw]
      · by_cases hw : alpha ≥ min beta (E.get_cell s.glob ctx.hash 0).cell.score
        · simp [nega_scout_tt_cut, hw]
        · simp [nega_scout_tt_cut, nega_scout_moves, hw]

theorem depth_zero_leaf_witness :
    exactHit.ext.is_draw Toy.init.glob = false ∧
    ((∃ out, nega_max_body exactHit.ext (nega_max exactHit.ext 0) Color.White Toy.init
        Toy.ctx0 0 (-100) 100 = some out ∧
      out.result = ⟨Move.null, (exactHit.ext.quiesce Color.White
        { Toy.init with
          nodes := Toy.init.nodes + 1, leaves := Toy.init.leaves + 1,
          node_depth_hist :=
            Function.update Toy.init.node_depth_hist 0 (Toy.init.node_depth_hist 0 + 1) }
        Toy.ctx0 (-100) 100).1⟩ ∧
      out.trace = [Event.quiesce Color.White Toy.ctx0 (-100) 100 out.result.score]) ∧
    (∃ out, nega_scout_body exactHit.ext (nega_max exactHit.ext 0) Color.White Toy.init
        Toy.ctx0 0 (-100) 100 = some out ∧
      out.result =
        (let p := exactHit.ext.get_cell Toy.init.glob Toy.ctx0.hash 0
         let q := fun a b => (⟨Move.null, (exactHit.ext.quiesce Color.White
           { Toy.init with nodes := Toy.init.nodes + 1, leaves := Toy.init.leaves + 1 }
           Toy.ctx0 a b).1⟩ : MoveScore)
         let cell : MoveScore := ⟨p.cell.move, p.cell.score⟩
         if p.hit then
           match p.cell.node_type with
           | .EXACT => cell
           | .LOWER =>
             if max (-100) p.cell.score ≥ min 100 p.cell.score then cell
             else q (max (-100) p.cell.score) (min 100 p.cell.score)
           | .UPPER =>
             if -100 ≥ min 100 p.cell.score then cell else q (-100) (min 100 p.cell.score)
         else q (-100) 100))) :=
  ⟨rfl, depth_zero_leaf exactHit.ext (nega_max exactHit.ext 0) Color.White Toy.init
    Toy.ctx0 (-100) 100 rfl⟩

/-- C8, the claim as stated fails for `nega_scout`: in `exactHit` the position is not
drawn and `quiesce` on the entry window gives 0, yet `nega_scout` at depth 0 returns the
stored move 7 with the stored score 42, while `nega_max` returns the null move with
score 0. -/
theorem depth_zero_scout_reads_table :
    exactHit.ext.is_draw Toy.init.glob = false ∧
    (exactHit.ext.quiesce Color.White
      { Toy.init with nodes := Toy.init.nodes + 1, leaves := Toy.init.leaves + 1 }
      Toy.ctx0 (-100) 100).1 = 0 ∧
    (nega_scout exactHit.ext 1 Color.White Toy.init Toy.ctx0 0 (-100) 100).map (fun r => r.1)
      = some ⟨⟨7⟩, 42⟩ ∧
    (nega_max exactHit.ext 1 Color.White Toy.init Toy.ctx0 0 (-100) 100).map (fun r => r.1)
      = some ⟨Move.null, 0⟩ := by
  refine ⟨rfl, rfl, ?_, ?_⟩ <;> decide

/-! ### The null-move guard -/

theorem nega_max_moves_not_toggle {B G : Type} (E : Ext B G) (rec : SearchFn B G) (c : Color)
    (s : State B G) (tr : List Event) (ctx : Context) (depth : Nat)
    (alpha beta og_alpha : Int) (slot : Nat) (priority_move : Move) (out : Out B G)
    (h : nega_max_moves E rec c s tr ctx depth alpha beta og_alpha slot priority_move
      = some out)
    (htr : ∀ e ∈ tr, e.not_toggle) : ∀ e ∈ out.trace, e.not_toggle := by
  have hstep : ∀ move L stop L1, True → (∀ e ∈ L.trace, Event.not_toggle e) →
      nega_max_step E rec c ctx depth beta move L = some (stop, L1) →
      ∀ e ∈ L1.trace, Event.not_toggle e := by
    intro move L stop L1 _ hL hs e he
    rcases nega_max_step_cases E rec c ctx depth beta move L stop L1 hs with
      ⟨_, _, hL1⟩ | ⟨_, lb, s2, _, _, _, _, _, _, _, htrace⟩
    · subst hL1
      simp only [List.mem_append, List.mem_cons, List.mem_singleton, List.not_mem_nil,
        or_false] at he
      rcases he with he | he | he
      · exact hL e he
      · subst he; trivial
      · subst he; trivial
    · rw [htrace] at he
      simp only [List.mem_append, List.mem_cons, List.mem_singleton, List.not_mem_nil,
        or_false] at he
      rcases he with (he | he | he | he) | he
      · exact hL e he
      · subst he; trivial
      · subst he; trivial
      · subst he; trivial
      · split at he
        · simp only [List.mem_singleton] at he
          subst he; trivial
        · simp at he
  simp only [nega_max_moves] at h
  split at h
  · exact absurd h (by simp)
  · rename_i L hL
    have hLt := nega_max_loop_invariant E rec c ctx depth beta
      (fun L => ∀ e ∈ L.trace, Event.not_toggle e) (fun _ => True) hstep _ _ _
      (fun _ _ => trivial) hL (by
        intro e he
        simp only [List.mem_append, List.mem_singleton] at he
        rcases he with he | he
        · exact htr e he
        · subst he; trivial)
    split at h
    · simp only [Option.some.injEq] at h
      subst h
      exact hLt
    · simp only [Option.some.injEq] at h
      subst h
      intro e he
      simp only [List.mem_append, List.mem_singleton] at he
      rcases he with he | he
      · exact hLt e he
      · subst he; trivial

/-- C7: when the side to move's `ALL` bitboard is the union of its six piece bitboards and
it has no knight, bishop, rook or queen, the flag `try_null_move` is false for every
depth, window, check status and evaluation; the null-move step of `nega_max` is then
skipped as a whole (the call goes on with move generation in the same state and with the
same record), and the record of a returning call holds no hash toggle, hence no null-move
search and no return through the null-move prune. -/
theorem null_move_guard {B G : Type} (E : Ext B G) (rec : SearchFn B G) (c : Color)
    (s : State B G) (ctx : Context) (depth : Nat) (alpha beta : Int)
    (hall : E.get_bitboard s.board c.ALL =
      E.get_bitboard s.board c.PAWN ||| E.get_bitboard s.board c.KNIGHT
        ||| E.get_bitboard s.board c.BISHOP ||| E.get_bitboard s.board c.ROOK
        ||| E.get_bitboard s.board c.QUEEN ||| E.get_bitboard s.board c.KING)
    (hN : E.get_bitboard s.board c.KNIGHT = 0)
    (hB : E.get_bitboard s.board c.BISHOP = 0)
    (hR : E.get_bitboard s.board c.ROOK = 0)
    (hQ : E.get_bitboard s.board c.QUEEN = 0) :
    (∀ d b, try_null_move E c s.board d b = false) ∧
    (∀ (s1 : State B G) tr d a b og slot pm, s1.board = s.board →
      nega_max_null E rec c s1 tr ctx d a b og slot pm
        = nega_max_moves E rec c s1 tr ctx d a b og slot pm) ∧
    (∀ out, nega_max_body E rec c s ctx depth alpha beta = some out →
      ∀ e ∈ out.trace, e.not_toggle) := by
  have hpk : E.get_bitboard s.board c.ALL =
      E.get_bitboard s.board c.PAWN ||| E.get_bitboard s.board c.KING := by
    rw [hall, hN, hB, hR, hQ]
    simp
  have hnull : ∀ d b, try_null_move E c s.board d b = false := by
    intro d b
    simp [try_null_move, hpk]
  have hphase : ∀ (s1 : State B G) tr d a b og slot pm, s1.board = s.board →
      nega_max_null E rec c s1 tr ctx d a b og slot pm
        = nega_max_moves E rec c s1 tr ctx d a b og slot pm := by
    intro s1 tr d a b og slot pm hb
    simp [nega_max_null, hb, hnull]
  refine ⟨hnull, hphase, ?_⟩
  intro out h
  have hprobe : ∀ e ∈ [Event.get_cell ctx.hash depth
      (E.get_cell s.glob ctx.hash depth).hit (E.get_cell s.glob ctx.hash depth).cell],
      e.not_toggle := by
    intro e he
    simp only [List.mem_singleton] at he
    subst he; trivial
  have hcut : ∀ (a b : Int) out,
      nega_max_tt_cut E rec c
        { s with
          nodes := s.nodes + 1
          node_depth_hist :=
            Function.update s.node_depth_hist depth (s.node_depth_hist depth + 1) }
        [Event.get_cell ctx.hash depth
          (E.get_cell s.glob ctx.hash depth).hit (E.get_cell s.glob ctx.hash depth).cell]
        ctx depth a b alpha (E.get_cell s.glob ctx.hash depth) = some out →
      ∀ e ∈ out.trace, e.not_toggle := by
    intro a b out h
    simp only [nega_max_tt_cut] at h
    split at h
    · simp only [Option.some.injEq] at h
      subst h
      intro e he
      simp only [List.cons_append, List.nil_append, List.mem_cons, List.mem_singleton,
        List.not_mem_nil, or_false] at he
      rcases he with he | he
      · subst he; trivial
      · subst he; trivial
    · rw [hphase] at h
      · exact nega_max_moves_not_toggle E rec c _ _ ctx depth _ _ _ _ _ out h hprobe
      · rfl
  simp only [nega_max_body] at h
  split at h
  · simp only [Option.some.injEq] at h
    subst h
    simp
  · split at h
    · simp only [Option.some.injEq] at h
      subst h
      intro e he
      simp only [List.mem_singleton] at he
      subst he; trivial
    · split at h
      · split at h
        · simp only [Option.some.injEq] at h
          subst h
          exact hprobe
        · exact hcut _ _ out h
        · exact hcut _ _ out h
      · rw [hphase] at h
        · exact nega_max_moves_not_toggle E rec c _ _ ctx depth _ _ _ _ _ out h hprobe
        · rfl

theorem null_move_guard_witness :
    (twoPly.ext.get_bitboard Toy.init.board Color.White.ALL =
      twoPly.ext.get_bitboard Toy.init.board Color.White.PAWN
        ||| twoPly.ext.get_bitboard Toy.init.board Color.White.KNIGHT
        ||| twoPly.ext.get_bitboard Toy.init.board Color.White.BISHOP
        ||| twoPly.ext.get_bitboard Toy.init.board Color.White.ROOK
        ||| twoPly.ext.get_bitboard Toy.init.board Color.White.QUEEN
        ||| twoPly.ext.get_bitboard Toy.init.board Color.White.KING ∧
      twoPly.ext.get_bitboard Toy.init.board Color.White.KNIGHT = 0 ∧
      twoPly.ext.get_bitboard Toy.init.board Color.White.BISHOP = 0 ∧
      twoPly.ext.get_bitboard Toy.init.board Color.White.ROOK = 0 ∧
      twoPly.ext.get_bitboard Toy.init.board Color.White.QUEEN = 0) ∧
    ((∀ d b, try_null_move twoPly.ext Color.White Toy.init.board d b = false) ∧
    (∀ (s1 : State (List Nat) ToyGlob) tr d a b og slot pm, s1.board = Toy.init.board →
      nega_max_null twoPly.ext (nega_max twoPly.ext 2) Color.White s1 tr Toy.ctx0 d a b og
          slot pm
        = nega_max_moves twoPly.ext (nega_max twoPly.ext 2) Color.White s1 tr Toy.ctx0 d a b
          og slot pm) ∧
    (∀ out, nega_max_body twoPly.ext (nega_max twoPly.ext 2) Color.White Toy.init Toy.ctx0
        2 (-5) 5 = some out →
      ∀ e ∈ out.trace, e.not_toggle)) :=
  ⟨⟨by decide, rfl, rfl, rfl, rfl⟩,
    null_move_guard twoPly.ext (nega_max twoPly.ext 2) Color.White Toy.init Toy.ctx0 2
      (-5) 5 (by decide) rfl rfl rfl rfl⟩

/-! ### Terminal positions -/

theorem nega_max_step_illegal {B G : Type} (E : Ext B G) (rec : SearchFn B G) (c : Color)
    (ctx : Context) (depth : Nat) (beta : Int) (move : Move) (L : Loop B G)
    (h : E.get_checks c (E.do_move c L.state move ctx).2.board ≠ 0) :
    nega_max_step E rec c ctx depth beta move L = some (false,
      { L with
        state := E.undo_move c (E.do_move c L.state move ctx).2 move
        trace := L.trace ++ [.do_move c move ctx (E.do_move c L.state move ctx).1,
          .undo_move c move] }) := by
  unfold nega_max_step
  rw [if_pos h]

theorem nega_scout_step_illegal {B G : Type} (E : Ext B G) (rec : SearchFn B G) (c : Color)
    (ctx : Context) (depth : Nat) (alpha og_beta : Int) (move : Move) (i : Nat)
    (L : ScoutLoop B G)
    (h : E.get_checks c (E.do_move c L.state move ctx).2.board ≠ 0) :
    nega_scout_step E rec c ctx depth alpha og_beta move i L = some (false,
      { L with
        state := E.undo_move c (E.do_move c L.state move ctx).2 move
        trace := L.trace ++ [.do_move c move ctx (E.do_move c L.state move ctx).1,
          .undo_move c move] }) := by
  unfold nega_scout_step
  rw [if_pos h]

theorem nega_max_loop_skip_illegal {B G : Type} (E : Ext B G) (rec : SearchFn B G)
    (c : Color) (ctx : Context) (depth : Nat) (beta : Int) :
    ∀ (ml : List Move) (L : Loop B G) (s1 : State B G),
      skip_illegal E c ctx ml L.state = some s1 →
      ∃ L1, nega_max_loop E rec c ctx depth beta ml L = some L1 ∧ L1.state = s1 ∧
        L1.best = L.best ∧ L1.legal_move_count = L.legal_move_count ∧
        L1.alpha = L.alpha := by
  intro ml
  induction ml with
  | nil =>
    intro L s1 h
    simp only [skip_illegal, Option.some.injEq] at h
    exact ⟨L, rfl, h, rfl, rfl, rfl⟩
  | cons move ml ih =>
    intro L s1 h
    simp only [skip_illegal] at h
    by_cases hc : E.get_checks c (E.do_move c L.state move ctx).2.board ≠ 0
    · rw [if_pos hc] at h
      simp only [nega_max_loop, nega_max_step_illegal E rec c ctx depth beta move L hc]
      obtain ⟨L1, h1, h2, h3, h4, h5⟩ := ih
        { L with
          state := E.undo_move c (E.do_move c L.state move ctx).2 move
          trace := L.trace ++ [.do_move c move ctx (E.do_move c L.state move ctx).1,
            .undo_move c move] } s1 h
      exact ⟨L1, h1, h2, h3, h4, h5⟩
    · rw [if_neg hc] at h
      exact absurd h (by simp)

theorem nega_scout_loop_skip_illegal {B G : Type} (E : Ext B G) (rec : SearchFn B G)
    (c : Color) (ctx : Context) (depth : Nat) (alpha og_beta : Int) :
    ∀ (ml : List Move) (i : Nat) (L : ScoutLoop B G) (s1 : State B G),
      skip_illegal E c ctx ml L.state = some s1 →
      ∃ L1, nega_scout_loop E rec c ctx depth alpha og_beta ml i L = some L1 ∧
        L1.state = s1 ∧ L1.best = L.best ∧ L1.legal_move_count = L.legal_move_count ∧
        L1.og_alpha = L.og_alpha ∧ L1.beta = L.beta := by
  intro ml
  induction ml with
  | nil =>
    intro i L s1 h
    simp only [skip_illegal, Option.some.injEq] at h
    exact ⟨L, rfl, h, rfl, rfl, rfl, rfl⟩
  | cons move ml ih =>
    intro i L s1 h
    simp only [skip_illegal] at h
    by_cases hc : E.get_checks c (E.do_move c L.state move ctx).2.board ≠ 0
    · rw [if_pos hc] at h
      simp only [nega_scout_loop,
        nega_scout_step_illegal E rec c ctx depth alpha og_beta move i L hc]
      obtain ⟨L1, h1, h2, h3, h4, h5, h6⟩ := ih (i + 1)
        { L with
          state := E.undo_move c (E.do_move c L.state move ctx).2 move
          trace := L.trace ++ [.do_move c move ctx (E.do_move c L.state move ctx).1,
            .undo_move c move] } s1 h
      exact ⟨L1, h1, h2, h3, h4, h5, h6⟩
    · rw [if_neg hc] at h
      exact absurd h (by simp)

/-- C3 (as the code has it): in a position not reported drawn, with no usable
transposition cell and depth at least 1, when every generated move leaves the mover in
check, `nega_scout` returns the null move with score `-INFINITY` if the side to move is in
check and 0 if not. `nega_max` does the same when the null-move search is not made, which
is always so when the side to move is in check. When the null-move search is made,
`nega_max` returns the null move with score `beta` if the negated null-move score reaches
`beta`, and otherwise the terminal score as above. -/
theorem terminal_scores {B G : Type} (E : Ext B G) (rec : SearchFn B G) (c : Color)
    (s : State B G) (ctx : Context) (depth : Nat) (alpha beta : Int)
    (hdraw : E.is_draw s.glob = false) (hd : 1 ≤ depth)
    (p : Probe) (hp : p = E.get_cell s.glob ctx.hash depth)
    (hcell : (p.hit && decide (p.cell.depth ≥ depth)) = false)
    (pm : Move) (hpm : pm = if p.hit then p.cell.move else Move.null)
    (sS sM : State B G) (hsS : sS = { s with nodes := s.nodes + 1 })
    (hsM : sM = { s with
      nodes := s.nodes + 1
      node_depth_hist :=
        Function.update s.node_depth_hist depth (s.node_depth_hist depth + 1) })
    (new_ctx : Context) (hctx : new_ctx = { E.toggle_hash_turn ctx with en_passant := 0 }) :
    (∀ s1, skip_illegal E c ctx (E.gen_moves c sS ctx pm depth).1
        (E.gen_moves c sS ctx pm depth).2 = some s1 →
      ∃ out, nega_scout_body E rec c s ctx depth alpha beta = some out ∧
        out.result = ⟨Move.null,
          if E.get_checks c s1.board ≠ 0 then negI16 E.INFINITY else 0⟩ ∧
        out.state.board = s1.board) ∧
    (E.get_checks c s.board ≠ 0 → try_null_move E c s.board depth beta = false) ∧
    (try_null_move E c s.board depth beta = false →
      ∀ s1, skip_illegal E c ctx (E.gen_order_moves c sM ctx pm depth).1
        (E.gen_order_moves c sM ctx pm depth).2 = some s1 →
      ∃ out, nega_max_body E rec c s ctx depth alpha beta = some out ∧
        out.result = ⟨Move.null,
          if E.get_checks c s1.board ≠ 0 then negI16 E.INFINITY else 0⟩ ∧
        out.state.board = s1.board) ∧
    (try_null_move E c s.board depth beta = true →
      ∀ null_best sN,
        rec c.opponent sM new_ctx (subU16 depth E.NULL_DEPTH_REDUCTION)
          (negI16 beta) (negI16 alpha) = some (null_best, sN) →
        (negI16 null_best.score ≥ beta →
          ∃ out, nega_max_body E rec c s ctx depth alpha beta = some out ∧
            out.result = ⟨Move.null, beta⟩) ∧
        (negI16 null_best.score < beta →
          ∀ s1, skip_illegal E c ctx (E.gen_order_moves c sN ctx pm depth).1
            (E.gen_order_moves c sN ctx pm depth).2 = some s1 →
          ∃ out, nega_max_body E rec c s ctx depth alpha beta = some out ∧
            out.result = ⟨Move.null,
              if E.get_checks c s1.board ≠ 0 then negI16 E.INFINITY else 0⟩ ∧
            out.state.board = s1.board)) := by
  have hd0 : depth ≠ 0 := by omega
  subst hp hpm hsS hsM hctx
  have hmax : ∀ (sG : State B G) tr s1,
      skip_illegal E c ctx
        (E.gen_order_moves c sG ctx (if (E.get_cell s.glob ctx.hash depth).hit
          then (E.get_cell s.glob ctx.hash depth).cell.move else Move.null) depth).1
        (E.gen_order_moves c sG ctx (if (E.get_cell s.glob ctx.hash depth).hit
          then (E.get_cell s.glob ctx.hash depth).cell.move else Move.null) depth).2
        = some s1 →
      ∃ out, nega_max_moves E rec c sG tr ctx depth alpha beta alpha
          (E.get_cell s.glob ctx.hash depth).slot
          (if (E.get_cell s.glob ctx.hash depth).hit
            then (E.get_cell s.glob ctx.hash depth).cell.move else Move.null) = some out ∧
        out.result = ⟨Move.null,
          if E.get_checks c s1.board ≠ 0 then negI16 E.INFINITY else 0⟩ ∧
        out.state.board = s1.board := by
    intro sG tr s1 hskip
    obtain ⟨L1, h1, h2, h3, h4, h5⟩ :=
      nega_max_loop_skip_illegal E rec c ctx depth beta _
        { state := (E.gen_order_moves c sG ctx
            (if (E.get_cell s.glob ctx.hash depth).hit
              then (E.get_cell s.glob ctx.hash depth).cell.move else Move.null) depth).2
          trace := tr ++
            [Event.gen_order_moves c ctx
              (if (E.get_cell s.glob ctx.hash depth).hit
                then (E.get_cell s.glob ctx.hash depth).cell.move else Move.null) depth
              (E.gen_order_moves c sG ctx
                (if (E.get_cell s.glob ctx.hash depth).hit
                  then (E.get_cell s.glob ctx.hash depth).cell.move else Move.null)
                depth).1]
          best := ⟨Move.null, negI16 E.INFINITY⟩
          legal_move_count := 0
          alpha := alpha } s1 hskip
    dsimp only at h4
    simp only [nega_max_moves]
    rw [h1]
    simp [h2, h4]
  refine ⟨?_, ?_, ?_, ?_⟩
  · intro s1 hskip
    obtain ⟨L1, h1, h2, h3, h4, h5, h6⟩ :=
      nega_scout_loop_skip_illegal E rec c ctx depth alpha beta _ 0
        { state := (E.gen_moves c { s with nodes := s.nodes + 1 } ctx
            (if (E.get_cell s.glob ctx.hash depth).hit
              then (E.get_cell s.glob ctx.hash depth).cell.move else Move.null) depth).2
          trace := [Event.get_cell ctx.hash depth (E.get_cell s.glob ctx.hash depth).hit
            (E.get_cell s.glob ctx.hash depth).cell] ++
            [Event.gen_moves c ctx
              (if (E.get_cell s.glob ctx.hash depth).hit
                then (E.get_cell s.glob ctx.hash depth).cell.move else Move.null) depth
              (E.gen_moves c { s with nodes := s.nodes + 1 } ctx
                (if (E.get_cell s.glob ctx.hash depth).hit
                  then (E.get_cell s.glob ctx.hash depth).cell.move else Move.null)
                depth).1]
          best := ⟨Move.null, negI16 E.INFINITY⟩
          legal_move_count := 0
          og_alpha := alpha
          beta := beta } s1 hskip
    dsimp only at h4
    simp only [nega_scout_body, hdraw, hcell, nega_scout_moves, hd0]
    simp only [Bool.false_eq_true, ↓reduceIte]
    rw [h1]
    simp [h2, h4]
  · intro hc
    simp [try_null_move, hc]
  · intro hnull s1 hskip
    simp only [nega_max_body, hdraw, hcell, nega_max_null, hnull, hd0]
    simp only [Bool.false_eq_true, ↓reduceIte]
    exact hmax _ _ s1 hskip
  · intro hnull null_best sN hrec
    constructor
    · intro hge
      simp only [nega_max_body, hdraw, hcell, nega_max_null, hnull, hd0]
      simp only [Bool.false_eq_true, ↓reduceIte]
      rw [hrec]
      simp [hge]
    · intro hlt s1 hskip
      simp only [nega_max_body, hdraw, hcell, nega_max_null, hnull, hd0]
      simp only [Bool.false_eq_true, ↓reduceIte]
      rw [hrec]
      have hnot : ¬ negI16 null_best.score ≥ beta := by omega
      simp only [hnot, ↓reduceIte]
      exact hmax _ _ s1 hskip

theorem terminal_scores_witness :
    (mateGame.ext.is_draw Toy.init.glob = false ∧ 1 ≤ 1 ∧
      ((mateGame.ext.get_cell Toy.init.glob Toy.ctx0.hash 1).hit && decide ((mateGame.ext.get_cell Toy.init.glob Toy.ctx0.hash 1).cell.depth ≥ 1)) = false) ∧
    ((∀ s1, skip_illegal mateGame.ext Color.White Toy.ctx0
        (mateGame.ext.gen_moves Color.White ({ Toy.init with nodes := Toy.init.nodes + 1 } : State (List Nat) ToyGlob) Toy.ctx0 (if (mateGame.ext.get_cell Toy.init.glob Toy.ctx0.hash 1).hit then (mateGame.ext.get_cell Toy.init.glob Toy.ctx0.hash 1).cell.move else Move.null) 1).1
        (mateGame.ext.gen_moves Color.White ({ Toy.init with nodes := Toy.init.nodes + 1 } : State (List Nat) ToyGlob) Toy.ctx0 (if (mateGame.ext.get_cell Toy.init.glob Toy.ctx0.hash 1).hit then (mateGame.ext.get_cell Toy.init.glob Toy.ctx0.hash 1).cell.move else Move.null) 1).2 = some s1 →
      ∃ out, nega_scout_body mateGame.ext (nega_max mateGame.ext 1) Color.White Toy.init Toy.ctx0 1 (-10) 10 = some out ∧
        out.result = ⟨Move.null,
          if mateGame.ext.get_checks Color.White s1.board ≠ 0 then negI16 mateGame.ext.INFINITY else 0⟩ ∧
        out.state.board = s1.board) ∧
    (mateGame.ext.get_checks Color.White Toy.init.board ≠ 0 →
      try_null_move mateGame.ext Color.White Toy.init.board 1 10 = false) ∧
    (try_null_move mateGame.ext Color.White Toy.init.board 1 10 = false →
      ∀ s1, skip_illegal mateGame.ext Color.White Toy.ctx0
        (mateGame.ext.gen_order_moves Color.White ({ Toy.init with
        nodes := Toy.init.nodes + 1
        node_depth_hist :=
          Function.update Toy.init.node_depth_hist 1 (Toy.init.node_depth_hist 1 + 1) } :
        State (List Nat) ToyGlob) Toy.ctx0 (if (mateGame.ext.get_cell Toy.init.glob Toy.ctx0.hash 1).hit then (mateGame.ext.get_cell Toy.init.glob Toy.ctx0.hash 1).cell.move else Move.null) 1).1
        (mateGame.ext.gen_order_moves Color.White ({ Toy.init with
        nodes := Toy.init.nodes + 1
        node_depth_hist :=
          Function.update Toy.init.node_depth_hist 1 (Toy.init.node_depth_hist 1 + 1) } :
        State (List Nat) ToyGlob) Toy.ctx0 (if (mateGame.ext.get_cell Toy.init.glob Toy.ctx0.hash 1).hit then (mateGame.ext.get_cell Toy.init.glob Toy.ctx0.hash 1).cell.move else Move.null) 1).2 = some s1 →
      ∃ out, nega_max_body mateGame.ext (nega_max mateGame.ext 1) Color.White Toy.init Toy.ctx0 1 (-10) 10 = some out ∧
        out.result = ⟨Move.null,
          if mateGame.ext.get_checks Color.White s1.board ≠ 0 then negI16 mateGame.ext.INFINITY else 0⟩ ∧
        out.state.board = s1.board) ∧
    (try_null_move mateGame.ext Color.White Toy.init.board 1 10 = true →
      ∀ null_best sN,
        (nega_max mateGame.ext 1) Color.White.opponent ({ Toy.init with
        nodes := Toy.init.nodes + 1
        node_depth_hist :=
          Function.update Toy.init.node_depth_hist 1 (Toy.init.node_depth_hist 1 + 1) } :
        State (List Nat) ToyGlob) ({ mateGame.ext.toggle_hash_turn Toy.ctx0 with en_passant := 0 } : Context) (subU16 1 mateGame.ext.NULL_DEPTH_REDUCTION)
          (negI16 10) (negI16 (-10)) = some (null_best, sN) →
        (negI16 null_best.score ≥ 10 →
          ∃ out, nega_max_body mateGame.ext (nega_max mateGame.ext 1) Color.White Toy.init Toy.ctx0 1 (-10) 10 = some out ∧
            out.result = ⟨Move.null, 10⟩) ∧
        (negI16 null_best.score < 10 →
          ∀ s1, skip_illegal mateGame.ext Color.White Toy.ctx0
            (mateGame.ext.gen_order_moves Color.White sN Toy.ctx0 (if (mateGame.ext.get_cell Toy.init.glob Toy.ctx0.hash 1).hit then (mateGame.ext.get_cell Toy.init.glob Toy.ctx0.hash 1).cell.move else Move.null) 1).1
            (mateGame.ext.gen_order_moves Color.White sN Toy.ctx0 (if (mateGame.ext.get_cell Toy.init.glob Toy.ctx0.hash 1).hit then (mateGame.ext.get_cell Toy.init.glob Toy.ctx0.hash 1).cell.move else Move.null) 1).2 = some s1 →
          ∃ out, nega_max_body mateGame.ext (nega_max mateGame.ext 1) Color.White Toy.init Toy.ctx0 1 (-10) 10
              = some out ∧
            out.result = ⟨Move.null,
              if mateGame.ext.get_checks Color.White s1.board ≠ 0 then negI16 mateGame.ext.INFINITY else 0⟩ ∧
            out.state.board = s1.board))) :=
  ⟨⟨rfl, by decide, rfl⟩,
    terminal_scores mateGame.ext (nega_max mateGame.ext 1) Color.White Toy.init Toy.ctx0 1 (-10) 10 rfl (by decide)
      _ rfl rfl _ rfl _ _ rfl rfl _ rfl⟩

/-- C3, the claim as stated fails for `nega_max` in a stalemate: in `stalemateGame` the
root is not drawn, the probe misses, the depth is 1, the only generated move leaves White
in check and White is not in check; White has a knight and its evaluation 0 exceeds
`beta = -5`, so the null-move search is made, its negated score -3 reaches `beta`, and
`nega_max` returns the null move with score -5, not 0. `nega_scout` returns score 0. -/
theorem stalemate_null_prune :
    stalemateGame.ext.is_draw Toy.init.glob = false ∧
    (stalemateGame.ext.get_cell Toy.init.glob Toy.ctx0.hash 1).hit = false ∧
    (skip_illegal stalemateGame.ext Color.White Toy.ctx0
      (stalemateGame.ext.gen_order_moves Color.White Toy.init Toy.ctx0 Move.null 1).1
      Toy.init).isSome = true ∧
    stalemateGame.ext.get_checks Color.White Toy.init.board = 0 ∧
    (nega_max stalemateGame.ext 2 Color.White Toy.init Toy.ctx0 1 (-10) (-5)).map
      (fun r => r.1) = some ⟨Move.null, -5⟩ ∧
    (nega_scout stalemateGame.ext 2 Color.White Toy.init Toy.ctx0 1 (-10) (-5)).map
      (fun r => r.1) = some ⟨Move.null, 0⟩ := by
  refine ⟨rfl, rfl, ?_, rfl, ?_, ?_⟩ <;> decide

/-! ### The returns of `nega_max` -/

/-- A call of `nega_max` that returns either returns early (draw, depth-zero leaf,
transposition return, null-move prune), having generated no move, or returns what lines
84-141 return for the state, record, window and priority move reached at line 84. -/
theorem nega_max_body_cases {B G : Type} (E : Ext B G) (rec : SearchFn B G) (c : Color)
    (s : State B G) (ctx : Context) (depth : Nat) (alpha beta : Int) (out : Out B G)
    (h : nega_max_body E rec c s ctx depth alpha beta = some out) :
    (∀ e ∈ out.trace, e.not_gen_order) ∨
    (E.is_draw s.glob = false ∧ depth ≠ 0 ∧
      ∃ s1 tr a b pm, nega_max_moves E rec c s1 tr ctx depth a b alpha
        (E.get_cell s.glob ctx.hash depth).slot pm = some out) := by
  have hnull : ∀ (s1 : State B G) tr a b og slot pm out,
      (∀ e ∈ tr, Event.not_gen_order e) →
      nega_max_null E rec c s1 tr ctx depth a b og slot pm = some out →
      (∀ e ∈ out.trace, e.not_gen_order) ∨
      ∃ s2 tr2, nega_max_moves E rec c s2 tr2 ctx depth a b og slot pm = some out := by
    intro s1 tr a b og slot pm out htr h
    simp only [nega_max_null] at h
    split at h
    · split at h
      · exact absurd h (by simp)
      · split at h
        · left
          simp only [Option.some.injEq] at h
          subst h
          intro e he
          simp only [List.mem_append, List.mem_cons, List.mem_singleton, List.not_mem_nil,
            or_false] at he
          rcases he with he | he | he | he
          · exact htr e he
          · subst he; trivial
          · subst he; trivial
          · subst he; trivial
        · exact Or.inr ⟨_, _, h⟩
    · exact Or.inr ⟨_, _, h⟩
  have hcut : ∀ (s1 : State B G) tr a b og p out,
      (∀ e ∈ tr, Event.not_gen_order e) →
      nega_max_tt_cut E rec c s1 tr ctx depth a b og p = some out →
      (∀ e ∈ out.trace, e.not_gen_order) ∨
      ∃ s2 tr2 pm, nega_max_moves E rec c s2 tr2 ctx depth a b og p.slot pm = some out := by
    intro s1 tr a b og p out htr h
    simp only [nega_max_tt_cut] at h
    split at h
    · left
      simp only [Option.some.injEq] at h
      subst h
      intro e he
      simp only [List.mem_append, List.mem_singleton] at he
      rcases he with he | he
      · exact htr e he
      · subst he; trivial
    · rcases hnull _ _ _ _ _ _ _ out htr h with h1 | ⟨s2, tr2, h2⟩
      · exact Or.inl h1
      · exact Or.inr ⟨s2, tr2, _, h2⟩
  have hprobe : ∀ e ∈ [Event.get_cell ctx.hash depth
      (E.get_cell s.glob ctx.hash depth).hit (E.get_cell s.glob ctx.hash depth).cell],
      e.not_gen_order := by
    intro e he
    simp only [List.mem_singleton] at he
    subst he; trivial
  simp only [nega_max_body] at h
  split at h
  · left
    simp only [Option.some.injEq] at h
    subst h
    simp
  · rename_i hdraw
    have hdraw : E.is_draw s.glob = false := by simpa using hdraw
    split at h
    · left
      simp only [Option.some.injEq] at h
      subst h
      intro e he
      simp only [List.mem_singleton] at he
      subst he; trivial
    · rename_i hd0
      split at h
      · split at h
        · left
          simp only [Option.some.injEq] at h
          subst h
          exact hprobe
        · rcases hcut _ _ _ _ _ _ out hprobe h with h1 | ⟨s2, tr2, pm, h2⟩
          · exact Or.inl h1
          · exact Or.inr ⟨hdraw, hd0, s2, tr2, _, _, pm, h2⟩
        · rcases hcut _ _ _ _ _ _ out hprobe h with h1 | ⟨s2, tr2, pm, h2⟩
          · exact Or.inl h1
          · exact Or.inr ⟨hdraw, hd0, s2, tr2, _, _, pm, h2⟩
      · rcases hnull _ _ _ _ _ _ _ out hprobe h with h1 | ⟨s2, tr2, h2⟩
        · exact Or.inl h1
        · exact Or.inr ⟨hdraw, hd0, s2, tr2, _, _, _, h2⟩

/-! ### The board is restored -/

theorem nega_max_step_board {B G : Type} (E : Ext B G) (hE : BoardFrame E)
    (rec : SearchFn B G) (hrec : KeepsBoard rec) (c : Color)
    (ctx : Context) (depth : Nat) (beta : Int) (move : Move) (L : Loop B G)
    (stop : Bool) (L1 : Loop B G)
    (h : nega_max_step E rec c ctx depth beta move L = some (stop, L1)) :
    L1.state.board = L.state.board := by
  rcases nega_max_step_cases E rec c ctx depth beta move L stop L1 h with
    ⟨_, _, hL1⟩ | ⟨_, lb, s2, hr, _, _, _, _, hb, _⟩
  · subst hL1
    exact hE.undo_board c L.state _ move ctx rfl
  · rw [hb]
    exact hE.undo_board c L.state s2 move ctx (hrec _ _ _ _ _ _ _ _ hr)

theorem nega_scout_step_board {B G : Type} (E : Ext B G) (hE : BoardFrame E)
    (rec : SearchFn B G) (hrec : KeepsBoard rec) (c : Color)
    (ctx : Context) (depth : Nat) (alpha og_beta : Int) (move : Move) (i : Nat)
    (L : ScoutLoop B G) (stop : Bool) (L1 : ScoutLoop B G)
    (h : nega_scout_step E rec c ctx depth alpha og_beta move i L = some (stop, L1)) :
    L1.state.board = L.state.board := by
  rcases nega_scout_step_cases E rec c ctx depth alpha og_beta move i L stop L1 h with
    ⟨_, _, hL1⟩ | ⟨_, lb, s2, s3, tr2, hr, hre, _, _, _, _, hst, _⟩
  · subst hL1
    exact hE.undo_board c L.state _ move ctx rfl
  · rw [hst]
    have h2 : s2.board = (E.do_move c L.state move ctx).2.board :=
      hrec _ _ _ _ _ _ _ _ hr
    rcases hre with ⟨_, ib, hr2, _⟩ | ⟨_, h3, _⟩
    · have h3 : s3.board = s2.board := hrec _ _ _ _ _ _ _ _ hr2
      exact hE.undo_board c L.state s3 move ctx (h3.trans h2)
    · subst h3
      exact hE.undo_board c L.state s3 move ctx h2

theorem nega_max_moves_board {B G : Type} (E : Ext B G) (hE : BoardFrame E)
    (rec : SearchFn B G) (hrec : KeepsBoard rec) (c : Color)
    (s : State B G) (tr : List Event) (ctx : Context) (depth : Nat)
    (alpha beta og_alpha : Int) (slot : Nat) (pm : Move) (out : Out B G)
    (h : nega_max_moves E rec c s tr ctx depth alpha beta og_alpha slot pm = some out) :
    out.state.board = s.board := by
  simp only [nega_max_moves] at h
  split at h
  · exact absurd h (by simp)
  · rename_i L hL
    have hb : L.state.board = s.board :=
      nega_max_loop_invariant E rec c ctx depth beta (fun L => L.state.board = s.board)
        (fun _ => True)
        (fun move L stop L1 _ hL hs =>
          (nega_max_step_board E hE rec hrec c ctx depth beta move L stop L1 hs).trans hL)
        _ _ L (fun _ _ => trivial) hL (hE.gen_order_board c s ctx pm depth)
    split at h
    · simp only [Option.some.injEq] at h
      subst h
      exact hb
    · simp only [Option.some.injEq] at h
      subst h
      exact hb

theorem nega_max_body_board {B G : Type} (E : Ext B G) (hE : BoardFrame E)
    (rec : SearchFn B G) (hrec : KeepsBoard rec) (c : Color)
    (s : State B G) (ctx : Context) (depth : Nat) (alpha beta : Int) (out : Out B G)
    (h : nega_max_body E rec c s ctx depth alpha beta = some out) :
    out.state.board = s.board := by
  have hnull : ∀ (s1 : State B G) tr a b og slot pm out,
      nega_max_null E rec c s1 tr ctx depth a b og slot pm = some out →
      out.state.board = s1.board := by
    intro s1 tr a b og slot pm out h
    simp only [nega_max_null] at h
    split at h
    · split at h
      · exact absurd h (by simp)
      · rename_i nb s2 hr
        have h2 : s2.board = s1.board := hrec _ _ _ _ _ _ _ _ hr
        split at h
        · simp only [Option.some.injEq] at h
          subst h
          exact h2
        · exact (nega_max_moves_board E hE rec hrec c _ _ ctx depth _ _ _ _ _ out h).trans h2
    · exact nega_max_moves_board E hE rec hrec c _ _ ctx depth _ _ _ _ _ out h
  have hcut : ∀ (s1 : State B G) tr a b og p out,
      nega_max_tt_cut E rec c s1 tr ctx depth a b og p = some out →
      out.state.board = s1.board := by
    intro s1 tr a b og p out h
    simp only [nega_max_tt_cut] at h
    split at h
    · simp only [Option.some.injEq] at h
      subst h
      rfl
    · exact hnull _ _ _ _ _ _ _ out h
  simp only [nega_max_body] at h
  split at h
  · simp only [Option.some.injEq] at h
    subst h
    rfl
  · split at h
    · simp only [Option.some.injEq] at h
      subst h
      exact hE.quiesce_board _ _ _ _ _
    · split at h
      · split at h
        · simp only [Option.some.injEq] at h
          subst h
          rfl
        · have hb := hcut _ _ _ _ _ _ out h
          exact hb
        · have hb := hcut _ _ _ _ _ _ out h
          exact hb
      · have hb := hnull _ _ _ _ _ _ _ out h
        exact hb

theorem nega_scout_body_board {B G : Type} (E : Ext B G) (hE : BoardFrame E)
    (rec : SearchFn B G) (hrec : KeepsBoard rec) (c : Color)
    (s : State B G) (ctx : Context) (depth : Nat) (alpha beta : Int) (out : Out B G)
    (h : nega_scout_body E rec c s ctx depth alpha beta = some out) :
    out.state.board = s.board := by
  have hmoves : ∀ (s1 : State B G) tr a b oa ob slot pm out,
      nega_scout_moves E rec c s1 tr ctx depth a b oa ob slot pm = some out →
      out.state.board = s1.board := by
    intro s1 tr a b oa ob slot pm out h
    simp only [nega_scout_moves] at h
    split at h
    · simp only [Option.some.injEq] at h
      subst h
      exact hE.quiesce_board _ _ _ _ _
    · split at h
      · exact absurd h (by simp)
      · rename_i L hL
        have hb : L.state.board = s1.board :=
          nega_scout_loop_invariant E rec c ctx depth a ob (fun L => L.state.board = s1.board)
            (fun _ => True)
            (fun move i L stop L1 _ hL hs =>
              (nega_scout_step_board E hE rec hrec c ctx depth a ob move i L stop L1
                hs).trans hL)
            _ _ _ L (fun _ _ => trivial) hL (hE.gen_board c s1 ctx pm depth)
        simp only [Option.some.injEq] at h
        subst h
        show (if L.legal_move_count = 0 then _ else L.state).board = s1.board
        split
        · exact hb
        · exact hb
  have hcut : ∀ (s1 : State B G) tr a b oa ob p out,
      nega_scout_tt_cut E rec c s1 tr ctx depth a b oa ob p = some out →
      out.state.board = s1.board := by
    intro s1 tr a b oa ob p out h
    simp only [nega_scout_tt_cut] at h
    split at h
    · simp only [Option.some.injEq] at h
      subst h
      rfl
    · exact hmoves _ _ _ _ _ _ _ _ out h
  simp only [nega_scout_body] at h
  split at h
  · simp only [Option.some.injEq] at h
    subst h
    rfl
  · split at h
    · split at h
      · simp only [Option.some.injEq] at h
        subst h
        rfl
      · have hb := hcut _ _ _ _ _ _ _ out h
        exact hb
      · have hb := hcut _ _ _ _ _ _ _ out h
        exact hb
    · have hb := hmoves _ _ _ _ _ _ _ _ out h
      exact hb

theorem nega_max_keeps_board {B G : Type} (E : Ext B G) (hE : BoardFrame E) :
    ∀ fuel, KeepsBoard (nega_max E fuel) := by
  intro fuel
  induction fuel with
  | zero =>
    intro c s ctx d a b r s1 h
    simp [nega_max] at h
  | succ n ih =>
    intro c s ctx d a b r s1 h
    simp only [nega_max, Option.map_eq_some'] at h
    obtain ⟨out, hout, heq⟩ := h
    simp only [Prod.mk.injEq] at heq
    rw [← heq.2]
    exact nega_max_body_board E hE _ ih c s ctx d a b out hout

theorem nega_scout_keeps_board {B G : Type} (E : Ext B G) (hE : BoardFrame E) :
    ∀ fuel, KeepsBoard (nega_scout E fuel) := by
  intro fuel
  induction fuel with
  | zero =>
    intro c s ctx d a b r s1 h
    simp [nega_scout] at h
  | succ n ih =>
    intro c s ctx d a b r s1 h
    simp only [nega_scout, Option.map_eq_some'] at h
    obtain ⟨out, hout, heq⟩ := h
    simp only [Prod.mk.injEq] at heq
    rw [← heq.2]
    exact nega_scout_body_board E hE _ ih c s ctx d a b out hout

/-! ### The searches return -/

theorem subU16_one_lt (depth : Nat) (h0 : depth ≠ 0) (h : depth < 65536) :
    subU16 depth 1 < depth := by
  unfold subU16
  omega

theorem subU16_lt (depth r : Nat) (hr : 1 ≤ r) (hle : r ≤ depth) (h : depth < 65536) :
    subU16 depth r < depth := by
  unfold subU16
  have : r % 65536 = r := Nat.mod_eq_of_lt (by omega)
  rw [this]
  omega

theorem ite_some_isSome {α : Type} (p : Prop) [Decidable p] (a b : α) :
    (if p then some a else some b).isSome = true := by
  split <;> rfl

theorem nega_max_step_isSome {B G : Type} (E : Ext B G) (rec : SearchFn B G) (c : Color)
    (ctx : Context) (depth : Nat) (beta : Int) (move : Move) (L : Loop B G)
    (hrec : ∀ c s ctx a b, (rec c s ctx (subU16 depth 1) a b).isSome = true) :
    (nega_max_step E rec c ctx depth beta move L).isSome = true := by
  unfold nega_max_step
  by_cases hc : E.get_checks c (E.do_move c L.state move ctx).2.board ≠ 0
  · rw [if_pos hc]
    rfl
  · rw [if_neg hc]
    have h := hrec c.opponent (E.do_move c L.state move ctx).2 (E.do_move c L.state move ctx).1
      (negI16 beta) (negI16 L.alpha)
    cases hr : rec c.opponent (E.do_move c L.state move ctx).2 (E.do_move c L.state move ctx).1
        (subU16 depth 1) (negI16 beta) (negI16 L.alpha) with
    | none => rw [hr] at h; exact absurd h (by simp)
    | some r =>
      obtain ⟨lb, s2⟩ := r
      exact ite_some_isSome _ _ _

theorem nega_max_loop_isSome {B G : Type} (E : Ext B G) (rec : SearchFn B G) (c : Color)
    (ctx : Context) (depth : Nat) (beta : Int)
    (hrec : ∀ c s ctx a b, (rec c s ctx (subU16 depth 1) a b).isSome = true) :
    ∀ (ml : List Move) (L : Loop B G),
      (nega_max_loop E rec c ctx depth beta ml L).isSome = true := by
  intro ml
  induction ml with
  | nil => intro L; rfl
  | cons move ml ih =>
    intro L
    simp only [nega_max_loop]
    have h := nega_max_step_isSome E rec c ctx depth beta move L hrec
    cases hs : nega_max_step E rec c ctx depth beta move L with
    | none => rw [hs] at h; exact absurd h (by simp)
    | some r =>
      obtain ⟨stop, L1⟩ := r
      cases stop with
      | true => rfl
      | false => exact ih L1

theorem nega_scout_step_isSome {B G : Type} (E : Ext B G) (rec : SearchFn B G) (c : Color)
    (ctx : Context) (depth : Nat) (alpha og_beta : Int) (move : Move) (i : Nat)
    (L : ScoutLoop B G)
    (hrec : ∀ c s ctx a b, (rec c s ctx (subU16 depth 1) a b).isSome = true) :
    (nega_scout_step E rec c ctx depth alpha og_beta move i L).isSome = true := by
  unfold nega_scout_step
  by_cases hc : E.get_checks c (E.do_move c L.state move ctx).2.board ≠ 0
  · rw [if_pos hc]
    rfl
  · rw [if_neg hc]
    have h := hrec c.opponent (E.do_move c L.state move ctx).2 (E.do_move c L.state move ctx).1
      (negI16 L.beta) (negI16 L.og_alpha)
    cases hr : rec c.opponent (E.do_move c L.state move ctx).2 (E.do_move c L.state move ctx).1
        (subU16 depth 1) (negI16 L.beta) (negI16 L.og_alpha) with
    | none => rw [hr] at h; exact absurd h (by simp)
    | some r =>
      obtain ⟨lb, s2⟩ := r
      simp only
      by_cases hre : negI16 lb.score > alpha ∧ negI16 lb.score < og_beta ∧ i > 0
      · rw [if_pos hre]
        have h2 := hrec c.opponent s2 (E.do_move c L.state move ctx).1
          (negI16 og_beta) (negI16 L.og_alpha)
        cases hr2 : rec c.opponent s2 (E.do_move c L.state move ctx).1
            (subU16 depth 1) (negI16 og_beta) (negI16 L.og_alpha) with
        | none => rw [hr2] at h2; exact absurd h2 (by simp)
        | some r2 =>
          obtain ⟨ib, s3⟩ := r2
          exact ite_some_isSome _ _ _
      · rw [if_neg hre]
        exact ite_some_isSome _ _ _

theorem nega_scout_loop_isSome {B G : Type} (E : Ext B G) (rec : SearchFn B G) (c : Color)
    (ctx : Context) (depth : Nat) (alpha og_beta : Int)
    (hrec : ∀ c s ctx a b, (rec c s ctx (subU16 depth 1) a b).isSome = true) :
    ∀ (ml : List Move) (i : Nat) (L : ScoutLoop B G),
      (nega_scout_loop E rec c ctx depth alpha og_beta ml i L).isSome = true := by
  intro ml
  induction ml with
  | nil => intro i L; rfl
  | cons move ml ih =>
    intro i L
    simp only [nega_scout_loop]
    have h := nega_scout_step_isSome E rec c ctx depth alpha og_beta move i L hrec
    cases hs : nega_scout_step E rec c ctx depth alpha og_beta move i L with
    | none => rw [hs] at h; exact absurd h (by simp)
    | some r =>
      obtain ⟨stop, L1⟩ := r
      cases stop with
      | true => rfl
      | false => exact ih (i + 1) L1

theorem nega_max_body_isSome {B G : Type} (E : Ext B G) (rec : SearchFn B G) (c : Color)
    (s : State B G) (ctx : Context) (depth : Nat) (alpha beta : Int)
    (hR : 1 ≤ E.NULL_DEPTH_REDUCTION) (hdepth : depth < 65536)
    (hrec : ∀ d, d < depth → ∀ c s ctx a b, (rec c s ctx d a b).isSome = true) :
    (nega_max_body E rec c s ctx depth alpha beta).isSome = true := by
  by_cases hd0 : depth = 0
  · subst hd0
    simp only [nega_max_body]
    split <;> rfl
  have hrec1 : ∀ c s ctx a b, (rec c s ctx (subU16 depth 1) a b).isSome = true :=
    hrec _ (subU16_one_lt depth hd0 hdepth)
  have hmoves : ∀ (s1 : State B G) tr a b og slot pm,
      (nega_max_moves E rec c s1 tr ctx depth a b og slot pm).isSome = true := by
    intro s1 tr a b og slot pm
    simp only [nega_max_moves]
    have h := nega_max_loop_isSome E rec c ctx depth b hrec1
      (E.gen_order_moves c s1 ctx pm depth).1
      { state := (E.gen_order_moves c s1 ctx pm depth).2
        trace := tr ++ [Event.gen_order_moves c ctx pm depth
          (E.gen_order_moves c s1 ctx pm depth).1]
        best := ⟨Move.null, negI16 E.INFINITY⟩
        legal_move_count := 0
        alpha := a }
    revert h
    cases nega_max_loop E rec c ctx depth b (E.gen_order_moves c s1 ctx pm depth).1
      { state := (E.gen_order_moves c s1 ctx pm depth).2
        trace := tr ++ [Event.gen_order_moves c ctx pm depth
          (E.gen_order_moves c s1 ctx pm depth).1]
        best := ⟨Move.null, negI16 E.INFINITY⟩
        legal_move_count := 0
        alpha := a } with
    | none => intro h; exact absurd h (by simp)
    | some L =>
      intro _
      simp only
      split <;> rfl
  have hnull : ∀ (s1 : State B G) tr a b og slot pm,
      (nega_max_null E rec c s1 tr ctx depth a b og slot pm).isSome = true := by
    intro s1 tr a b og slot pm
    simp only [nega_max_null]
    split
    · rename_i htry
      have hge : E.NULL_DEPTH_REDUCTION ≤ depth := by
        simp only [try_null_move, Bool.and_eq_true, decide_eq_true_eq] at htry
        exact htry.1.1.1
      have h := hrec _ (subU16_lt depth E.NULL_DEPTH_REDUCTION hR hge hdepth) c.opponent s1
        { E.toggle_hash_turn ctx with en_passant := 0 } (negI16 b) (negI16 a)
      revert h
      cases rec c.opponent s1 { E.toggle_hash_turn ctx with en_passant := 0 }
        (subU16 depth E.NULL_DEPTH_REDUCTION) (negI16 b) (negI16 a) with
      | none => intro h; exact absurd h (by simp)
      | some r =>
        intro _
        obtain ⟨nb, s2⟩ := r
        simp only
        split
        · rfl
        · exact hmoves _ _ _ _ _ _ _
    · exact hmoves _ _ _ _ _ _ _
  have hcut : ∀ (s1 : State B G) tr a b og p,
      (nega_max_tt_cut E rec c s1 tr ctx depth a b og p).isSome = true := by
    intro s1 tr a b og p
    simp only [nega_max_tt_cut]
    split
    · rfl
    · exact hnull _ _ _ _ _ _ _
  simp only [nega_max_body]
  split
  · rfl
  · split
    · split
      · rfl
      · exact hcut _ _ _ _ _ _
      · exact hcut _ _ _ _ _ _
    · exact hnull _ _ _ _ _ _ _

theorem nega_scout_body_isSome {B G : Type} (E : Ext B G) (rec : SearchFn B G) (c : Color)
    (s : State B G) (ctx : Context) (depth : Nat) (alpha beta : Int)
    (hdepth : depth < 65536)
    (hrec : ∀ d, d < depth → ∀ c s ctx a b, (rec c s ctx d a b).isSome = true) :
    (nega_scout_body E rec c s ctx depth alpha beta).isSome = true := by
  have hmoves : ∀ (s1 : State B G) tr a b oa ob slot pm,
      (nega_scout_moves E rec c s1 tr ctx depth a b oa ob slot pm).isSome = true := by
    intro s1 tr a b oa ob slot pm
    simp only [nega_scout_moves]
    by_cases hd0 : depth = 0
    · rw [if_pos hd0]
      rfl
    · rw [if_neg hd0]
      have hrec1 : ∀ c s ctx a b, (rec c s ctx (subU16 depth 1) a b).isSome = true :=
        hrec _ (subU16_one_lt depth hd0 hdepth)
      have h := nega_scout_loop_isSome E rec c ctx depth a ob hrec1
        (E.gen_moves c s1 ctx pm depth).1 0
        { state := (E.gen_moves c s1 ctx pm depth).2
          trace := tr ++ [Event.gen_moves c ctx pm depth (E.gen_moves c s1 ctx pm depth).1]
          best := ⟨Move.null, negI16 E.INFINITY⟩
          legal_move_count := 0
          og_alpha := oa
          beta := b }
      revert h
      cases nega_scout_loop E rec c ctx depth a ob (E.gen_moves c s1 ctx pm depth).1 0
        { state := (E.gen_moves c s1 ctx pm depth).2
          trace := tr ++ [Event.gen_moves c ctx pm depth (E.gen_moves c s1 ctx pm depth).1]
          best := ⟨Move.null, negI16 E.INFINITY⟩
          legal_move_count := 0
          og_alpha := oa
          beta := b } with
      | none => intro h; exact absurd h (by simp)
      | some L => intro _; rfl
  have hcut : ∀ (s1 : State B G) tr a b oa ob p,
      (nega_scout_tt_cut E rec c s1 tr ctx depth a b oa ob p).isSome = true := by
    intro s1 tr a b oa ob p
    simp only [nega_scout_tt_cut]
    split
    · rfl
    · exact hmoves _ _ _ _ _ _ _ _
  simp only [nega_scout_body]
  split
  · rfl
  · split
    · split
      · rfl
      · exact hcut _ _ _ _ _ _ _
      · exact hcut _ _ _ _ _ _ _
    · exact hmoves _ _ _ _ _ _ _ _

theorem nega_max_isSome {B G : Type} (E : Ext B G) (hR : 1 ≤ E.NULL_DEPTH_REDUCTION) :
    ∀ fuel depth, depth < fuel → depth < 65536 →
      ∀ c s ctx alpha beta, (nega_max E fuel c s ctx depth alpha beta).isSome = true := by
  intro fuel
  induction fuel with
  | zero => intro depth h; omega
  | succ n ih =>
    intro depth hlt h16 c s ctx alpha beta
    simp only [nega_max, Option.isSome_map']
    exact nega_max_body_isSome E _ c s ctx depth alpha beta hR h16
      (fun d hd => ih d (by omega) (by omega))

theorem nega_scout_isSome {B G : Type} (E : Ext B G) :
    ∀ fuel depth, depth < fuel → depth < 65536 →
      ∀ c s ctx alpha beta, (nega_scout E fuel c s ctx depth alpha beta).isSome = true := by
  intro fuel
  induction fuel with
  | zero => intro depth h; omega
  | succ n ih =>
    intro depth hlt h16 c s ctx alpha beta
    simp only [nega_scout, Option.isSome_map']
    exact nega_scout_body_isSome E _ c s ctx depth alpha beta h16
      (fun d hd => ih d (by omega) (by omega))

theorem toy_boardFrame (t : Toy) : BoardFrame t.ext where
  quiesce_board := fun _ _ _ _ _ => rfl
  gen_order_board := fun _ _ _ _ _ => rfl
  gen_board := fun _ _ _ _ _ => rfl
  undo_board := by
    intro c s s2 m ctx h
    show s2.board.tail = s.board
    rw [h]
    rfl

/-- C4: when quiescence and move generation leave the board unchanged and `undo_move`
after `do_move` of the same move gives back the board, every call of `nega_max` and of
`nega_scout` that returns leaves the board equal to the board at entry, for every depth,
window and table contents and whichever way the call returns; and the calls do return
(for `nega_max`, given a null-move reduction of at least 1). -/
theorem board_restored {B G : Type} (E : Ext B G) (hE : BoardFrame E) :
    (∀ fuel c s ctx depth alpha beta r s1,
      nega_max E fuel c s ctx depth alpha beta = some (r, s1) → s1.board = s.board) ∧
    (∀ fuel c s ctx depth alpha beta r s1,
      nega_scout E fuel c s ctx depth alpha beta = some (r, s1) → s1.board = s.board) ∧
    (1 ≤ E.NULL_DEPTH_REDUCTION → ∀ fuel c s ctx depth alpha beta,
      depth < fuel → depth < 65536 →
      ∃ r s1, nega_max E fuel c s ctx depth alpha beta = some (r, s1) ∧
        s1.board = s.board) ∧
    (∀ fuel c s ctx depth alpha beta, depth < fuel → depth < 65536 →
      ∃ r s1, nega_scout E fuel c s ctx depth alpha beta = some (r, s1) ∧
        s1.board = s.board) := by
  refine ⟨?_, ?_, ?_, ?_⟩
  · intro fuel c s ctx depth alpha beta r s1 h
    exact nega_max_keeps_board E hE fuel c s ctx depth alpha beta r s1 h
  · intro fuel c s ctx depth alpha beta r s1 h
    exact nega_scout_keeps_board E hE fuel c s ctx depth alpha beta r s1 h
  · intro hR fuel c s ctx depth alpha beta hlt h16
    have h := nega_max_isSome E hR fuel depth hlt h16 c s ctx alpha beta
    cases hr : nega_max E fuel c s ctx depth alpha beta with
    | none => rw [hr] at h; exact absurd h (by simp)
    | some x =>
      exact ⟨x.1, x.2, rfl, nega_max_keeps_board E hE fuel c s ctx depth alpha beta x.1 x.2 hr⟩
  · intro fuel c s ctx depth alpha beta hlt h16
    have h := nega_scout_isSome E fuel depth hlt h16 c s ctx alpha beta
    cases hr : nega_scout E fuel c s ctx depth alpha beta with
    | none => rw [hr] at h; exact absurd h (by simp)
    | some x =>
      exact ⟨x.1, x.2, rfl,
        nega_scout_keeps_board E hE fuel c s ctx depth alpha beta x.1 x.2 hr⟩

theorem board_restored_witness :
    BoardFrame twoPly.ext ∧
    ((∀ fuel c s ctx depth alpha beta r s1,
      nega_max twoPly.ext fuel c s ctx depth alpha beta = some (r, s1) →
        s1.board = s.board) ∧
    (∀ fuel c s ctx depth alpha beta r s1,
      nega_scout twoPly.ext fuel c s ctx depth alpha beta = some (r, s1) →
        s1.board = s.board) ∧
    (1 ≤ twoPly.ext.NULL_DEPTH_REDUCTION → ∀ fuel c s ctx depth alpha beta,
      depth < fuel → depth < 65536 →
      ∃ r s1, nega_max twoPly.ext fuel c s ctx depth alpha beta = some (r, s1) ∧
        s1.board = s.board) ∧
    (∀ fuel c s ctx depth alpha beta, depth < fuel → depth < 65536 →
      ∃ r s1, nega_scout twoPly.ext fuel c s ctx depth alpha beta = some (r, s1) ∧
        s1.board = s.board)) :=
  ⟨toy_boardFrame twoPly, board_restored twoPly.ext (toy_boardFrame twoPly)⟩

/-! ### The move returned by the loop -/

/-- The `I16` counter of legal moves after the loop is the image of the counter before it
plus the number `k` of moves searched, at most the length of the list; when `k` is 0 every
move of the list was skipped as illegal. -/
theorem nega_max_loop_count {B G : Type} (E : Ext B G) (rec : SearchFn B G) (c : Color)
    (ctx : Context) (depth : Nat) (beta : Int) :
    ∀ (ml : List Move) (L L1 : Loop B G) (n : Nat),
      nega_max_loop E rec c ctx depth beta ml L = some L1 →
      L.legal_move_count = wrapI16 n →
      ∃ k : Nat, k ≤ ml.length ∧ L1.legal_move_count = wrapI16 ((n + k : Nat) : Int) ∧
        (k = 0 → skip_illegal E c ctx ml L.state = some L1.state) := by
  intro ml
  induction ml with
  | nil =>
    intro L L1 n h hn
    simp only [nega_max_loop, Option.some.injEq] at h
    subst h
    exact ⟨0, Nat.le_refl _, hn, fun _ => rfl⟩
  | cons move ml ih =>
    intro L L1 n h hn
    simp only [nega_max_loop] at h
    cases hs : nega_max_step E rec c ctx depth beta move L with
    | none => simp [hs] at h
    | some r =>
      obtain ⟨stop, L2⟩ := r
      rcases nega_max_step_cases E rec c ctx depth beta move L stop L2 hs with
        ⟨hc, hstop, hL2⟩ | ⟨_, lb, s2, _, _, _, hc2, _⟩
      · subst hstop
        simp only [hs] at h
        obtain ⟨k, hk, hcount, hskip⟩ := ih L2 L1 n h (by rw [hL2]; exact hn)
        refine ⟨k, by simp only [List.length_cons]; omega, hcount, ?_⟩
        intro hk0
        simp only [skip_illegal]
        rw [if_pos hc]
        have := hskip hk0
        rw [hL2] at this
        exact this
      · have hc3 : L2.legal_move_count = wrapI16 ((n + 1 : Nat) : Int) := by
          rw [hc2, hn, wrapI16_succ]
          rfl
        cases stop with
        | true =>
          simp only [hs, Option.some.injEq] at h
          subst h
          exact ⟨1, by simp, hc3, fun h1 => absurd h1 (by decide)⟩
        | false =>
          simp only [hs] at h
          obtain ⟨k, hk, hcount, _⟩ := ih L2 L1 (n + 1) h hc3
          refine ⟨k + 1, by simp only [List.length_cons]; omega, ?_, fun h1 => by omega⟩
          rw [hcount]
          congr 2
          omega

/-- With fewer than 65536 generated moves, a loop entered with the counter at 0 ends with
the counter at 0 only if every move of the list was skipped as illegal. -/
theorem nega_max_loop_no_legal {B G : Type} (E : Ext B G) (rec : SearchFn B G) (c : Color)
    (ctx : Context) (depth : Nat) (beta : Int) (ml : List Move) (L L1 : Loop B G)
    (hshort : ml.length < 65536)
    (h : nega_max_loop E rec c ctx depth beta ml L = some L1)
    (h0 : L.legal_move_count = 0) (h1 : L1.legal_move_count = 0) :
    skip_illegal E c ctx ml L.state = some L1.state := by
  obtain ⟨k, hk, hcount, hskip⟩ := nega_max_loop_count E rec c ctx depth beta ml L L1 0 h
    (by rw [h0]; rfl)
  apply hskip
  rw [h1] at hcount
  have := wrapI16_eq_zero (0 + k) (by omega) hcount.symm
  omega

/-- C5: when `nega_max` reaches move generation (position not drawn, depth at least 1, no
transposition return, no null-move prune: by `nega_max_body_cases` the call then returns
what `nega_max_moves` returns), the generator yields fewer than 65536 moves, none of them
the null move (raw value 0), some generated move does not leave the mover in check, and
the collaborators and the recursive search restore the board, then the move returned is
one of the generated moves and is not the null move; it was applied on the board of the
node and did not leave the mover in check there, and the score returned is the negated
score of the recursive search made there, which is in the record; when the board after
`do_move` depends on the state through the board only, the move returned does not leave
the mover in check when applied in the state at entry; no negated score of a recursive
search in the record of lines 84-141 is greater than the score returned; and an
iteration that finds `best` still holding the null move and a legal move sets `best` to
that move with its negated score, whatever the score. -/
theorem best_move_of_loop {B G : Type} (E : Ext B G) (hE : BoardFrame E)
    (rec : SearchFn B G) (hrec : KeepsBoard rec) (c : Color)
    (s : State B G) (tr : List Event) (ctx : Context) (depth : Nat)
    (alpha beta og_alpha : Int) (slot : Nat) (priority_move : Move) (out : Out B G)
    (ml : List Move) (sG : State B G)
    (hgen : E.gen_order_moves c s ctx priority_move depth = (ml, sG))
    (hnonnull : ∀ m ∈ ml, m.raw ≠ 0)
    (hshort : ml.length < 65536)
    (hlegal : skip_illegal E c ctx ml sG = none)
    (hout : nega_max_moves E rec c s tr ctx depth alpha beta og_alpha slot priority_move
      = some out) :
    out.result.move ∈ ml ∧ out.result.move.raw ≠ 0 ∧
    (∃ sB r sA a,
      sB.board = s.board ∧
      E.get_checks c (E.do_move c sB out.result.move ctx).2.board = 0 ∧
      rec c.opponent (E.do_move c sB out.result.move ctx).2
        (E.do_move c sB out.result.move ctx).1 (subU16 depth 1) (negI16 beta) a
        = some (r, sA) ∧
      out.result.score = negI16 r.score ∧
      Event.search c.opponent (E.do_move c sB out.result.move ctx).1 (subU16 depth 1)
        (negI16 beta) a r ∈ out.trace) ∧
    ((∀ (s1 s2 : State B G) m, s1.board = s2.board →
        (E.do_move c s1 m ctx).2.board = (E.do_move c s2 m ctx).2.board) →
      E.get_checks c (E.do_move c s out.result.move ctx).2.board = 0) ∧
    (∃ X, out.trace = tr ++ X ∧
      ∀ e ∈ X, ∀ x, e.negated_score = some x → x ≤ out.result.score) ∧
    (∀ (L : Loop B G) move stop L1, L.best.move.raw = 0 →
      E.get_checks c (E.do_move c L.state move ctx).2.board = 0 →
      nega_max_step E rec c ctx depth beta move L = some (stop, L1) →
      ∃ r sA, rec c.opponent (E.do_move c L.state move ctx).2
          (E.do_move c L.state move ctx).1 (subU16 depth 1) (negI16 beta) (negI16 L.alpha)
          = some (r, sA) ∧
        L1.best = ⟨move, negI16 r.score⟩) := by
  -- the invariant of the loop
  have hsG : sG.board = s.board := by
    have := hE.gen_order_board c s ctx priority_move depth
    rw [hgen] at this
    exact this
  let t0 : List Event := tr ++ [Event.gen_order_moves c ctx priority_move depth ml]
  let P : Loop B G → Prop := fun L =>
    L.state.board = s.board ∧
    ∃ X, L.trace = t0 ++ X ∧
      (L.best.move.raw = 0 → L.legal_move_count = 0 ∧ ∀ e ∈ X, e.negated_score = none) ∧
      (L.best.move.raw ≠ 0 →
        L.best.move ∈ ml ∧
        (∃ sB r sA a,
          sB.board = s.board ∧
          E.get_checks c (E.do_move c sB L.best.move ctx).2.board = 0 ∧
          rec c.opponent (E.do_move c sB L.best.move ctx).2
            (E.do_move c sB L.best.move ctx).1 (subU16 depth 1) (negI16 beta) a
            = some (r, sA) ∧
          L.best.score = negI16 r.score ∧
          Event.search c.opponent (E.do_move c sB L.best.move ctx).1 (subU16 depth 1)
            (negI16 beta) a r ∈ X) ∧
        ∀ e ∈ X, ∀ x, e.negated_score = some x → x ≤ L.best.score)
  have hstep : ∀ move L stop L1, (move ∈ ml ∧ move.raw ≠ 0) → P L →
      nega_max_step E rec c ctx depth beta move L = some (stop, L1) → P L1 := by
    intro move L stop L1 hm hL hs
    obtain ⟨hLb, X, hX, hzero, hpos⟩ := hL
    have hL1b : L1.state.board = s.board := by
      rw [nega_max_step_board E hE rec hrec c ctx depth beta move L stop L1 hs]
      exact hLb
    refine ⟨hL1b, ?_⟩
    rcases nega_max_step_cases E rec c ctx depth beta move L stop L1 hs with
      ⟨_, _, hL1⟩ | ⟨hc0, lb, s2, hrec1, hbest, _, hcount, _, _, _, htrace⟩
    · subst hL1
      refine ⟨X ++ [Event.do_move c move ctx (E.do_move c L.state move ctx).1,
        Event.undo_move c move], ?_, ?_, ?_⟩
      · show L.trace ++ _ = _
        rw [hX, List.append_assoc]
      · intro h0
        obtain ⟨h1, h2⟩ := hzero h0
        refine ⟨h1, ?_⟩
        intro e he
        simp only [List.mem_append, List.mem_cons, List.mem_singleton, List.not_mem_nil,
          or_false] at he
        rcases he with he | he | he
        · exact h2 e he
        · subst he; rfl
        · subst he; rfl
      · intro h0
        obtain ⟨h1, ⟨sB, r, sA, a, hb, h3, h4, h5, h6⟩, h7⟩ := hpos h0
        refine ⟨h1, ⟨sB, r, sA, a, hb, h3, h4, h5, List.mem_append_left _ h6⟩, ?_⟩
        intro e he x hx
        simp only [List.mem_append, List.mem_cons, List.mem_singleton, List.not_mem_nil,
          or_false] at he
        rcases he with he | he | he
        · exact h7 e he x hx
        · subst he; simp [Event.negated_score] at hx
        · subst he; simp [Event.negated_score] at hx
    · -- a legal move
      let Y : List Event := [Event.do_move c move ctx (E.do_move c L.state move ctx).1,
        Event.search c.opponent (E.do_move c L.state move ctx).1 (subU16 depth 1)
          (negI16 beta) (negI16 L.alpha) lb,
        Event.undo_move c move]
        ++ (if L1.alpha ≥ beta then [Event.add_move move depth] else [])
      have hsearch : Event.search c.opponent (E.do_move c L.state move ctx).1
          (subU16 depth 1) (negI16 beta) (negI16 L.alpha) lb ∈ X ++ Y := by
        simp [Y]
      have hY : ∀ e ∈ Y, ∀ x, e.negated_score = some x → x = negI16 lb.score := by
        intro e he x hx
        simp only [Y, List.mem_append, List.mem_cons, List.mem_singleton, List.not_mem_nil,
          or_false] at he
        rcases he with (he | he | he) | he
        · subst he; simp [Event.negated_score] at hx
        · subst he
          simp only [Event.negated_score, Option.some.injEq] at hx
          exact hx.symm
        · subst he; simp [Event.negated_score] at hx
        · split at he
          · simp only [List.mem_singleton] at he
            subst he; simp [Event.negated_score] at hx
          · simp at he
      by_cases hupd : L.best.move.raw = 0 ∨ negI16 lb.score > L.best.score
      · rw [if_pos hupd] at hbest
        have hraw1 : L1.best.move.raw ≠ 0 := by
          rw [hbest]
          exact hm.2
        refine ⟨X ++ Y, ?_, fun h0 => absurd h0 hraw1, fun _ => ?_⟩
        · rw [htrace, hX]
          simp [Y, List.append_assoc]
        · rw [hbest]
          refine ⟨hm.1, ⟨L.state, lb, s2, negI16 L.alpha, hLb, hc0, hrec1, rfl, hsearch⟩, ?_⟩
          intro e he x hx
          show x ≤ negI16 lb.score
          rcases List.mem_append.mp he with he | he
          · by_cases h0 : L.best.move.raw = 0
            · have := (hzero h0).2 e he
              rw [this] at hx
              exact absurd hx (by simp)
            · obtain ⟨_, _, h7⟩ := hpos h0
              have hle := h7 e he x hx
              rcases hupd with hupd | hupd
              · exact absurd hupd h0
              · omega
          · rw [hY e he x hx]
      · rw [if_neg hupd] at hbest
        have hraw : L.best.move.raw ≠ 0 := fun h => hupd (Or.inl h)
        have hle : negI16 lb.score ≤ L.best.score := by
          by_contra hgt
          exact hupd (Or.inr (by omega))
        refine ⟨X ++ Y, ?_, fun h0 => absurd (by rw [hbest] at h0; exact h0) hraw,
          fun _ => ?_⟩
        · rw [htrace, hX]
          simp [Y, List.append_assoc]
        · rw [hbest]
          obtain ⟨h1, ⟨sB, r, sA, a, hb, h3, h4, h5, h6⟩, h7⟩ := hpos hraw
          refine ⟨h1, ⟨sB, r, sA, a, hb, h3, h4, h5, List.mem_append_left _ h6⟩, ?_⟩
          intro e he x hx
          rcases List.mem_append.mp he with he | he
          · exact h7 e he x hx
          · rw [hY e he x hx]
            exact hle
  have hfirst : ∀ (L : Loop B G) move stop L1, L.best.move.raw = 0 →
      E.get_checks c (E.do_move c L.state move ctx).2.board = 0 →
      nega_max_step E rec c ctx depth beta move L = some (stop, L1) →
      ∃ r sA, rec c.opponent (E.do_move c L.state move ctx).2
          (E.do_move c L.state move ctx).1 (subU16 depth 1) (negI16 beta) (negI16 L.alpha)
          = some (r, sA) ∧
        L1.best = ⟨move, negI16 r.score⟩ := by
    intro L move stop L1 hraw hc hs
    rcases nega_max_step_cases E rec c ctx depth beta move L stop L1 hs with
      ⟨hc1, _, _⟩ | ⟨_, lb, s2, hrec1, hbest, _⟩
    · exact absurd hc hc1
    · rw [if_pos (Or.inl hraw)] at hbest
      exact ⟨lb, s2, hrec1, hbest⟩
  simp only [nega_max_moves, hgen] at hout
  split at hout
  · exact absurd hout (by simp)
  · rename_i L hL
    have hP : P L := by
      refine nega_max_loop_invariant E rec c ctx depth beta P
        (fun m => m ∈ ml ∧ m.raw ≠ 0) hstep ml _ L (fun m hm => ⟨hm, hnonnull m hm⟩) hL ?_
      exact ⟨hsG, [], by simp [t0], fun _ => ⟨rfl, by simp⟩, fun h => absurd rfl h⟩
    have hcount : L.legal_move_count ≠ 0 := by
      intro h0
      have := nega_max_loop_no_legal E rec c ctx depth beta ml _ L hshort hL rfl h0
      rw [hlegal] at this
      exact absurd this (by simp)
    obtain ⟨_, X, hX, hzero, hpos⟩ := hP
    have h2 : L.best.move.raw ≠ 0 := fun h => hcount (hzero h).1
    obtain ⟨h1, ⟨sB, r, sA, a, hb, h3, h4, h5, h6⟩, h7⟩ := hpos h2
    rw [if_neg hcount] at hout
    simp only [Option.some.injEq] at hout
    subst hout
    refine ⟨h1, h2, ⟨sB, r, sA, a, hb, h3, h4, h5, ?_⟩, ?_, ?_, hfirst⟩
    · show _ ∈ L.trace ++ _
      rw [hX]
      exact List.mem_append_left _ (List.mem_append_right _ h6)
    · intro hdo
      show E.get_checks c (E.do_move c s L.best.move ctx).2.board = 0
      rw [← hdo sB s L.best.move hb]
      exact h3
    · refine ⟨[Event.gen_order_moves c ctx priority_move depth ml] ++ X ++
        [Event.set_cell slot ctx.hash depth L.best og_alpha beta], ?_, ?_⟩
      · show L.trace ++ _ = _
        rw [hX]
        simp [t0, List.append_assoc]
      · intro e he x hx
        simp only [List.mem_append, List.mem_singleton] at he
        rcases he with (he | he) | he
        · subst he; simp [Event.negated_score] at hx
        · exact h7 e he x hx
        · subst he; simp [Event.negated_score] at hx

/-- C5, counterexample to the claim as stated: in the game `nullFirst` (root not drawn,
probe missing, no null-move search) the generator yields the moves of raw value 0 and 2,
both legal. At depth 1 on the window `(-100, 100)` the search of the first has the negated
score 7 and that of the second -3; the record holds both, yet the call returns the move 2
with the score -3, because `best` still held a move of raw value 0 when the second move
was compared. -/
theorem null_raw_move_displaced :
    nullFirst.ext.is_draw Toy.init.glob = false ∧
    (nullFirst.ext.get_cell Toy.init.glob Toy.ctx0.hash 1).hit = false ∧
    try_null_move nullFirst.ext Color.White Toy.init.board 1 100 = false ∧
    (nullFirst.ext.gen_order_moves Color.White Toy.init Toy.ctx0 Move.null 1).1
      = [⟨0⟩, ⟨2⟩] ∧
    nullFirst.ext.get_checks Color.White
      (nullFirst.ext.do_move Color.White Toy.init ⟨0⟩ Toy.ctx0).2.board = 0 ∧
    (nega_max nullFirst.ext 2 Color.White Toy.init Toy.ctx0 1 (-100) 100).map
      (fun r => r.1) = some ⟨⟨2⟩, -3⟩ ∧
    (nega_max_moves nullFirst.ext (nega_max nullFirst.ext 1) Color.White Toy.init []
      Toy.ctx0 1 (-100) 100 (-100) 0 Move.null).map
      (fun out => (out.result, out.trace.filterMap Event.negated_score))
      = some (⟨⟨2⟩, -3⟩, [7, -3]) := by
  refine ⟨rfl, rfl, ?_, rfl, rfl, ?_, ?_⟩
  · decide
  · decide
  · decide

theorem twoPlyMovesOut_eq :
    nega_max_moves twoPly.ext (nega_max twoPly.ext 1) Color.White Toy.init []
      Toy.ctx0 1 (-100) 100 (-100) 0 Move.null = some twoPlyMovesOut := by
  have h : (nega_max_moves twoPly.ext (nega_max twoPly.ext 1) Color.White Toy.init []
      Toy.ctx0 1 (-100) 100 (-100) 0 Move.null).isSome = true := by decide
  unfold twoPlyMovesOut
  cases hm : nega_max_moves twoPly.ext (nega_max twoPly.ext 1) Color.White Toy.init []
      Toy.ctx0 1 (-100) 100 (-100) 0 Move.null with
  | none => rw [hm] at h; exact absurd h (by simp)
  | some out => rfl

theorem best_move_of_loop_witness :
    (BoardFrame twoPly.ext ∧ KeepsBoard (nega_max twoPly.ext 1) ∧
      twoPly.ext.gen_order_moves Color.White Toy.init Toy.ctx0 Move.null 1
        = ([⟨1⟩, ⟨2⟩], Toy.init) ∧
      (∀ m ∈ ([⟨1⟩, ⟨2⟩] : List Move), m.raw ≠ 0) ∧
      ([⟨1⟩, ⟨2⟩] : List Move).length < 65536 ∧
      skip_illegal twoPly.ext Color.White Toy.ctx0 [⟨1⟩, ⟨2⟩] Toy.init = none ∧
      nega_max_moves twoPly.ext (nega_max twoPly.ext 1) Color.White Toy.init [] Toy.ctx0 1
        (-100) 100 (-100) 0 Move.null = some twoPlyMovesOut) ∧
    (twoPlyMovesOut.result.move ∈ ([⟨1⟩, ⟨2⟩] : List Move) ∧
    twoPlyMovesOut.result.move.raw ≠ 0 ∧
    (∃ sB r sA a,
      sB.board = Toy.init.board ∧
      twoPly.ext.get_checks Color.White
        (twoPly.ext.do_move Color.White sB twoPlyMovesOut.result.move Toy.ctx0).2.board = 0 ∧
      (nega_max twoPly.ext 1) Color.White.opponent
        (twoPly.ext.do_move Color.White sB twoPlyMovesOut.result.move Toy.ctx0).2
        (twoPly.ext.do_move Color.White sB twoPlyMovesOut.result.move Toy.ctx0).1 (subU16 1 1)
        (negI16 100) a = some (r, sA) ∧
      twoPlyMovesOut.result.score = negI16 r.score ∧
      Event.search Color.White.opponent
        (twoPly.ext.do_move Color.White sB twoPlyMovesOut.result.move Toy.ctx0).1 (subU16 1 1)
        (negI16 100) a r ∈ twoPlyMovesOut.trace) ∧
    ((∀ (s1 s2 : State (List Nat) ToyGlob) m, s1.board = s2.board →
        (twoPly.ext.do_move Color.White s1 m Toy.ctx0).2.board
          = (twoPly.ext.do_move Color.White s2 m Toy.ctx0).2.board) →
      twoPly.ext.get_checks Color.White
        (twoPly.ext.do_move Color.White Toy.init twoPlyMovesOut.result.move Toy.ctx0).2.board
        = 0) ∧
    (∃ X, twoPlyMovesOut.trace = [] ++ X ∧
      ∀ e ∈ X, ∀ x, e.negated_score = some x → x ≤ twoPlyMovesOut.result.score) ∧
    (∀ (L : Loop (List Nat) ToyGlob) move stop L1, L.best.move.raw = 0 →
      twoPly.ext.get_checks Color.White
        (twoPly.ext.do_move Color.White L.state move Toy.ctx0).2.board = 0 →
      nega_max_step twoPly.ext (nega_max twoPly.ext 1) Color.White Toy.ctx0 1 100 move L
        = some (stop, L1) →
      ∃ r sA, (nega_max twoPly.ext 1) Color.White.opponent
          (twoPly.ext.do_move Color.White L.state move Toy.ctx0).2
          (twoPly.ext.do_move Color.White L.state move Toy.ctx0).1 (subU16 1 1) (negI16 100)
          (negI16 L.alpha) = some (r, sA) ∧
        L1.best = ⟨move, negI16 r.score⟩)) :=
  ⟨⟨toy_boardFrame twoPly, nega_max_keeps_board twoPly.ext (toy_boardFrame twoPly) 1,
      rfl, by decide, by decide, rfl, twoPlyMovesOut_eq⟩,
    best_move_of_loop twoPly.ext (toy_boardFrame twoPly) (nega_max twoPly.ext 1)
      (nega_max_keeps_board twoPly.ext (toy_boardFrame twoPly) 1) Color.White Toy.init []
      Toy.ctx0 1 (-100) 100 (-100) 0 Move.null twoPlyMovesOut [⟨1⟩, ⟨2⟩] Toy.init rfl
      (by decide) (by decide) rfl twoPlyMovesOut_eq⟩

/-! ### Comparison of `nega_max` with plain negamax -/

theorem negI16_eq_neg (x : Int) (h1 : -32768 < x) (h2 : x ≤ 32767) : negI16 x = -x := by
  unfold negI16 wrapI16
  omega

theorem foldl_max_ge_init (l : List Int) : ∀ a : Int, a ≤ l.foldl max a := by
  induction l with
  | nil => intro a; exact le_refl a
  | cons x l ih =>
    intro a
    simp only [List.foldl_cons]
    exact le_trans (le_max_left a x) (ih (max a x))

theorem foldl_max_ge_mem (l : List Int) : ∀ (a x : Int), x ∈ l → x ≤ l.foldl max a := by
  induction l with
  | nil => intro a x hx; simp at hx
  | cons y l ih =>
    intro a x hx
    simp only [List.foldl_cons]
    rcases List.mem_cons.mp hx with hx | hx
    · subst hx
      exact le_trans (le_max_right a x) (foldl_max_ge_init l (max a x))
    · exact ih (max a y) x hx

theorem foldl_max_eq_init_or_mem (l : List Int) :
    ∀ a : Int, l.foldl max a = a ∨ l.foldl max a ∈ l := by
  induction l with
  | nil => intro a; exact Or.inl rfl
  | cons y l ih =>
    intro a
    simp only [List.foldl_cons]
    rcases ih (max a y) with h | h
    · rw [h]
      rcases max_choice a y with h2 | h2
      · exact Or.inl h2
      · right
        rw [h2]
        exact List.mem_cons_self _ _
    · exact Or.inr (List.mem_cons_of_mem _ h)

theorem minimax_range {B G : Type} (E : Ext B G) (R : Rules B) (h : Implements E R) :
    ∀ d c b ctx, -E.INFINITY ≤ minimax E R d c b ctx ∧ minimax E R d c b ctx ≤ E.INFINITY := by
  intro d
  induction d with
  | zero =>
    intro c b ctx
    have := h.leaf_range c b ctx
    simp only [minimax]
    omega
  | succ d ih =>
    intro c b ctx
    have hinf := h.inf_range
    simp only [minimax]
    split
    · split <;> omega
    · constructor
      · exact foldl_max_ge_init _ _
      · rcases foldl_max_eq_init_or_mem
          ((legal_moves E R c b ctx).map (fun m =>
            -(minimax E R d c.opponent (R.play c b m ctx) (R.next_ctx c b m ctx))))
          (-E.INFINITY) with h1 | h1
        · rw [h1]; omega
        · obtain ⟨m, _, hm⟩ := List.mem_map.mp h1
          rw [← hm]
          have := ih c.opponent (R.play c b m ctx) (R.next_ctx c b m ctx)
          omega

/-- The value of a position with at least one legal move is an upper bound of the negated
values of the positions after the legal moves, and is one of them. -/
theorem minimax_succ_spec {B G : Type} (E : Ext B G) (R : Rules B) (h : Implements E R)
    (d : Nat) (c : Color) (b : B) (ctx : Context) :
    (legal_moves E R c b ctx = [] →
      minimax E R (d + 1) c b ctx = if E.get_checks c b ≠ 0 then -E.INFINITY else 0) ∧
    (∀ m ∈ legal_moves E R c b ctx,
      -(minimax E R d c.opponent (R.play c b m ctx) (R.next_ctx c b m ctx))
        ≤ minimax E R (d + 1) c b ctx) ∧
    (legal_moves E R c b ctx ≠ [] → ∃ m ∈ legal_moves E R c b ctx,
      minimax E R (d + 1) c b ctx
        = -(minimax E R d c.opponent (R.play c b m ctx) (R.next_ctx c b m ctx))) := by
  refine ⟨?_, ?_, ?_⟩
  · intro he
    simp only [minimax, he, ↓reduceIte]
  · intro m hm
    have hne : legal_moves E R c b ctx ≠ [] := List.ne_nil_of_mem hm
    simp only [minimax, hne, ↓reduceIte]
    exact foldl_max_ge_mem _ _ _ (List.mem_map.mpr ⟨m, hm, rfl⟩)
  · intro hne
    simp only [minimax, hne, ↓reduceIte]
    rcases foldl_max_eq_init_or_mem
        ((legal_moves E R c b ctx).map (fun m =>
          -(minimax E R d c.opponent (R.play c b m ctx) (R.next_ctx c b m ctx))))
        (-E.INFINITY) with h1 | h1
    · -- the maximum is the seed: every value is the seed
      obtain ⟨m, hm⟩ := List.exists_mem_of_ne_nil _ hne
      refine ⟨m, hm, ?_⟩
      have hle := foldl_max_ge_mem
        ((legal_moves E R c b ctx).map (fun m =>
          -(minimax E R d c.opponent (R.play c b m ctx) (R.next_ctx c b m ctx))))
        (-E.INFINITY) _ (List.mem_map.mpr ⟨m, hm, rfl⟩)
      have hr := minimax_range E R h d c.opponent (R.play c b m ctx) (R.next_ctx c b m ctx)
      rw [h1] at hle ⊢
      omega
    · obtain ⟨m, hm, hv⟩ := List.mem_map.mp h1
      exact ⟨m, hm, hv.symm⟩

theorem max_absorb (a0 A bs x : Int) (hA : A = max a0 bs) (hx : x ≤ A) :
    max A (max bs x) = A := by
  omega

theorem nega_max_step_spec {B G : Type} (E : Ext B G) (R : Rules B) (h : Implements E R)
    (T : Color → B → Context → Nat → Int → Int → Prop) (hT : TreeClosed E R T)
    (rec : SearchFn B G) (c : Color) (ctx : Context) (d : Nat) (hd : d + 1 < 65536)
    (hrec : MeetsSpec E R T rec d) (b : B) (alpha0 beta : Int)
    (hnode : T c b ctx (d + 1) alpha0 beta)
    (ha0 : -32768 < alpha0) (hb : beta ≤ 32767)
    (move : Move) (hraw : move.raw ≠ 0) (hmem : move ∈ R.moves c b ctx)
    (L : Loop B G) (pre : List Move) (hlen : pre.length + 1 < 65536)
    (hinv : LoopInv E R c ctx d b alpha0 beta L pre) :
    ∃ stop L1, nega_max_step E rec c ctx (d + 1) beta move L = some (stop, L1) ∧
      ((stop = false ∧ LoopInv E R c ctx d b alpha0 beta L1 (pre ++ [move])) ∨
       (stop = true ∧ L1.state.board = b ∧ L1.legal_move_count ≠ 0 ∧
         -E.INFINITY ≤ L1.best.score ∧ L1.best.score ≤ E.INFINITY ∧
         beta ≤ L1.best.score ∧ isLegal E R c ctx b move ∧
         beta ≤ moveValue E R c ctx d b move)) := by
  obtain ⟨hboard, hal, halb, ⟨n, hn, hcn⟩, hzero, hpos⟩ := hinv
  have hinf := h.inf_range
  have hge : alpha0 ≤ L.alpha := by
    by_cases h0 : L.legal_move_count = 0
    · rw [(hzero h0).1]
    · rw [(hpos h0).2.2.2.1]
      exact le_max_left _ _
  have hplay : (E.do_move c L.state move ctx).2.board = R.play c b move ctx := by
    rw [h.do_board, hboard]
  have hctx : (E.do_move c L.state move ctx).1 = R.next_ctx c b move ctx := by
    rw [h.do_ctx, hboard]
  by_cases hc : E.get_checks c (E.do_move c L.state move ctx).2.board ≠ 0
  · -- the move leaves the mover in check
    have hill : ¬ isLegal E R c ctx b move := by
      unfold isLegal
      rw [← hplay]
      exact hc
    refine ⟨false, _, nega_max_step_illegal E rec c ctx (d + 1) beta move L hc, Or.inl ⟨rfl, ?_⟩⟩
    refine ⟨?_, hal, halb, ⟨n, ?_, hcn⟩, ?_, ?_⟩
    · exact h.undo_board c L.state _ move ctx (by rw [h.do_board])
        |>.trans hboard
    · rw [List.length_append, List.length_singleton]
      omega
    · intro h0
      obtain ⟨h1, h2, h3⟩ := hzero h0
      refine ⟨h1, h2, ?_⟩
      intro m hm
      rcases List.mem_append.mp hm with hm | hm
      · exact h3 m hm
      · rw [List.mem_singleton.mp hm]
        exact hill
    · intro h0
      obtain ⟨h1, h2, h3, h4, ⟨m0, hm0, hl0⟩, h5, h6⟩ := hpos h0
      refine ⟨h1, h2, h3, h4, ⟨m0, List.mem_append_left _ hm0, hl0⟩, ?_, ?_⟩
      · intro m hm hl
        rcases List.mem_append.mp hm with hm | hm
        · exact h5 m hm hl
        · rw [List.mem_singleton.mp hm] at hl
          exact absurd hl hill
      · rcases h6 with h6 | ⟨m, hm, hl, hv⟩
        · exact Or.inl h6
        · exact Or.inr ⟨m, List.mem_append_left _ hm, hl, hv⟩
  · -- the move is legal: it is searched
    have hc0 : E.get_checks c (E.do_move c L.state move ctx).2.board = 0 := by
      simpa using hc
    have hleg : isLegal E R c ctx b move := by
      unfold isLegal
      rw [← hplay]
      exact hc0
    have hsub : subU16 (d + 1) 1 = d := by
      unfold subU16
      omega
    have hnb : negI16 beta = -beta := negI16_eq_neg beta (by omega) hb
    have hna : negI16 L.alpha = -L.alpha := negI16_eq_neg L.alpha hal (by omega)
    have hchild : T c.opponent (E.do_move c L.state move ctx).2.board
        (E.do_move c L.state move ctx).1 d (-beta) (-L.alpha) := by
      rw [hplay, hctx]
      exact hT c b ctx d alpha0 beta move L.alpha hnode hmem hleg hge halb
    obtain ⟨r, s2, hr, hs2, hr1, hr2, hfs⟩ :=
      hrec c.opponent (E.do_move c L.state move ctx).2 (E.do_move c L.state move ctx).1
        (-beta) (-L.alpha) hchild (by omega) (by omega) (by omega)
    rw [hplay, hctx] at hfs
    have hns : negI16 r.score = -r.score := negI16_eq_neg r.score (by omega) (by omega)
    -- the value of the move and the score of its search
    have ht : moveValue E R c ctx d b move
        = -(minimax E R d c.opponent (R.play c b move ctx) (R.next_ctx c b move ctx)) := rfl
    obtain ⟨hfs1, hfs2, hfs3⟩ := hfs
    have hA : L.alpha < moveValue E R c ctx d b move →
        moveValue E R c ctx d b move < beta →
        -r.score = moveValue E R c ctx d b move := by
      intro h1 h2
      have := hfs1 (by omega) (by omega)
      omega
    have hB : moveValue E R c ctx d b move ≤ L.alpha → -r.score ≤ L.alpha := by
      intro h1
      have := hfs3 (by omega)
      omega
    have hC : beta ≤ moveValue E R c ctx d b move → beta ≤ -r.score := by
      intro h1
      have := hfs2 (by omega)
      omega
    have hrange := minimax_range E R h d c.opponent (R.play c b move ctx)
      (R.next_ctx c b move ctx)
    -- the result of the iteration
    have hstep : nega_max_step E rec c ctx (d + 1) beta move L
        = (let best : MoveScore :=
            if L.best.move.raw = 0 ∨ -r.score > L.best.score then ⟨move, -r.score⟩ else L.best
           if max L.alpha best.score ≥ beta then
             some (true,
               { state := { E.undo_move c s2 move with
                   glob := E.add_move (E.undo_move c s2 move).glob move (d + 1) }
                 trace := L.trace ++ [.do_move c move ctx (E.do_move c L.state move ctx).1,
                   .search c.opponent (E.do_move c L.state move ctx).1 d (-beta) (-L.alpha) r,
                   .undo_move c move] ++ [.add_move move (d + 1)]
                 best := best
                 legal_move_count := wrapI16 (L.legal_move_count + 1)
                 alpha := max L.alpha best.score })
           else
             some (false,
               { state := E.undo_move c s2 move
                 trace := L.trace ++ [.do_move c move ctx (E.do_move c L.state move ctx).1,
                   .search c.opponent (E.do_move c L.state move ctx).1 d (-beta) (-L.alpha) r,
                   .undo_move c move]
                 best := best
                 legal_move_count := wrapI16 (L.legal_move_count + 1)
                 alpha := max L.alpha best.score })) := by
      unfold nega_max_step
      rw [if_neg hc, hsub, hnb, hna, hr]
      simp only [hns]
    have hundo : (E.undo_move c s2 move).board = b := by
      refine (h.undo_board c L.state s2 move ctx ?_).trans hboard
      rw [hs2, h.do_board]
    rw [hstep]
    have hcount1 : wrapI16 (L.legal_move_count + 1) ≠ 0 := by
      rw [hcn]
      exact wrapI16_succ_ne_zero n (by omega)
    have hghost : ∃ k : Nat, k ≤ (pre ++ [move]).length ∧
        wrapI16 (L.legal_move_count + 1) = wrapI16 (k : Int) := by
      refine ⟨n + 1, ?_, ?_⟩
      · rw [List.length_append, List.length_singleton]
        omega
      · rw [hcn, wrapI16_succ]
        rfl
    -- the new best score
    have hcutfacts : ∀ x : Int, L.alpha < beta → beta ≤ max L.alpha x → beta ≤ x := by
      intro x h1 h2
      omega
    have hmove_lt : -r.score < beta → moveValue E R c ctx d b move < beta := by
      intro h1
      by_contra h5
      have := hC (by omega)
      omega
    have hmove_ge : beta ≤ -r.score → beta ≤ moveValue E R c ctx d b move := by
      intro hs
      by_contra hlt
      by_cases h5 : moveValue E R c ctx d b move ≤ L.alpha
      · have := hB h5; omega
      · have := hA (by omega) (by omega); omega
    by_cases h0 : L.legal_move_count = 0
    · obtain ⟨h1, h2, h3⟩ := hzero h0
      have hbest : (if L.best.move.raw = 0 ∨ -r.score > L.best.score
          then (⟨move, -r.score⟩ : MoveScore) else L.best) = ⟨move, -r.score⟩ :=
        if_pos (Or.inl h2)
      simp only [hbest]
      by_cases hcut : max L.alpha (-r.score) ≥ beta
      · rw [if_pos hcut]
        have hs : beta ≤ -r.score := hcutfacts _ halb hcut
        refine ⟨true, _, rfl, Or.inr ⟨rfl, hundo, hcount1, ?_, ?_, hs, hleg, hmove_ge hs⟩⟩
        · show -E.INFINITY ≤ -r.score
          omega
        · show -r.score ≤ E.INFINITY
          omega
      · rw [if_neg hcut]
        have hlt : max L.alpha (-r.score) < beta := by omega
        have htb := hmove_lt (by omega)
        refine ⟨false, _, rfl, Or.inl ⟨rfl, hundo, ?_, hlt, hghost, ?_, ?_⟩⟩
        · show -32768 < max L.alpha (-r.score)
          omega
        · intro h6
          exact absurd h6 hcount1
        · intro _
          refine ⟨hraw, ?_, ?_, ?_, ?_, ?_, ?_⟩
          · show -E.INFINITY ≤ -r.score
            omega
          · show -r.score ≤ E.INFINITY
            omega
          · show max L.alpha (-r.score) = max alpha0 (-r.score)
            rw [h1]
          · exact ⟨move, by simp, hleg⟩
          · intro m hm hl
            show moveValue E R c ctx d b m ≤ max L.alpha (-r.score)
            rcases List.mem_append.mp hm with hm | hm
            · exact absurd hl (h3 m hm)
            · rw [List.mem_singleton.mp hm]
              by_cases h5 : moveValue E R c ctx d b move ≤ L.alpha
              · omega
              · have := hA (by omega) htb; omega
          · show max L.alpha (-r.score) = alpha0 ∨ _
            by_cases h5 : moveValue E R c ctx d b move ≤ L.alpha
            · left
              have := hB h5
              omega
            · right
              refine ⟨move, by simp, hleg, ?_⟩
              show _ = max L.alpha (-r.score)
              have := hA (by omega) htb
              omega
    · obtain ⟨h1, h2, h3, h4, -, h5, -⟩ := hpos h0
      have hbs : (if L.best.move.raw = 0 ∨ -r.score > L.best.score
          then (⟨move, -r.score⟩ : MoveScore) else L.best).score = max L.best.score (-r.score) := by
        by_cases hu : L.best.move.raw = 0 ∨ -r.score > L.best.score
        · rw [if_pos hu]
          rcases hu with hu | hu
          · exact absurd hu h1
          · show -r.score = _
            omega
        · rw [if_neg hu]
          have : ¬ (-r.score > L.best.score) := fun hgt => hu (Or.inr hgt)
          omega
      have hbr : (if L.best.move.raw = 0 ∨ -r.score > L.best.score
          then (⟨move, -r.score⟩ : MoveScore) else L.best).move.raw ≠ 0 := by
        by_cases hu : L.best.move.raw = 0 ∨ -r.score > L.best.score
        · rw [if_pos hu]; exact hraw
        · rw [if_neg hu]; exact h1
      simp only
      by_cases hcut : max L.alpha (if L.best.move.raw = 0 ∨ -r.score > L.best.score
          then (⟨move, -r.score⟩ : MoveScore) else L.best).score ≥ beta
      · rw [if_pos hcut]
        have hs : beta ≤ -r.score := by
          rw [hbs] at hcut
          omega
        refine ⟨true, _, rfl, Or.inr ⟨rfl, hundo, hcount1, ?_, ?_, ?_, hleg, hmove_ge hs⟩⟩
        · show -E.INFINITY ≤ _
          rw [hbs]; omega
        · show _ ≤ E.INFINITY
          rw [hbs]; omega
        · show beta ≤ _
          rw [hbs]; omega
      · rw [if_neg hcut]
        rw [hbs] at hcut
        have htb := hmove_lt (by omega)
        refine ⟨false, _, rfl, Or.inl ⟨rfl, hundo, ?_, ?_, hghost, ?_, ?_⟩⟩
        · show -32768 < max L.alpha _
          omega
        · show max L.alpha _ < beta
          rw [hbs]; omega
        · intro h7
          exact absurd h7 hcount1
        · intro _
          refine ⟨hbr, ?_, ?_, ?_, ?_, ?_, ?_⟩
          · rw [hbs]; omega
          · rw [hbs]; omega
          · show max L.alpha _ = max alpha0 _
            rw [hbs]; omega
          · exact ⟨move, by simp, hleg⟩
          · intro m hm hl
            show moveValue E R c ctx d b m ≤ max L.alpha _
            rw [hbs]
            rcases List.mem_append.mp hm with hm | hm
            · have := h5 m hm hl
              omega
            · rw [List.mem_singleton.mp hm]
              by_cases h8 : moveValue E R c ctx d b move ≤ L.alpha
              · omega
              · have := hA (by omega) htb; omega
          · show max L.alpha _ = alpha0 ∨ _
            rw [hbs]
            by_cases h8 : moveValue E R c ctx d b move ≤ L.alpha
            · have h9 := hB h8
              have h10 : max L.alpha (max L.best.score (-r.score)) = L.alpha :=
                max_absorb alpha0 L.alpha L.best.score (-r.score) h4 h9
              rw [h10]
              rcases (hpos h0).2.2.2.2.2.2 with h6 | ⟨m, hm, hl, hv⟩
              · exact Or.inl h6
              · exact Or.inr ⟨m, List.mem_append_left _ hm, hl, hv⟩
            · right
              refine ⟨move, by simp, hleg, ?_⟩
              show moveValue E R c ctx d b move = max L.alpha _
              have := hA (by omega) htb
              omega

theorem nega_max_loop_spec {B G : Type} (E : Ext B G) (R : Rules B) (h : Implements E R)
    (T : Color → B → Context → Nat → Int → Int → Prop) (hT : TreeClosed E R T)
    (rec : SearchFn B G) (c : Color) (ctx : Context) (d : Nat) (hd : d + 1 < 65536)
    (hrec : MeetsSpec E R T rec d) (b : B) (alpha0 beta : Int)
    (hnode : T c b ctx (d + 1) alpha0 beta)
    (ha0 : -32768 < alpha0) (hb : beta ≤ 32767) :
    ∀ (ml pre : List Move) (L : Loop B G), (∀ m ∈ ml, m.raw ≠ 0 ∧ m ∈ R.moves c b ctx) →
      pre.length + ml.length < 65536 →
      LoopInv E R c ctx d b alpha0 beta L pre →
      ∃ L1, nega_max_loop E rec c ctx (d + 1) beta ml L = some L1 ∧
        LoopPost E R c ctx d b alpha0 beta L1 (pre ++ ml) := by
  intro ml
  induction ml with
  | nil =>
    intro pre L _ _ hinv
    refine ⟨L, rfl, ?_⟩
    obtain ⟨hboard, hal, halb, _, hzero, hpos⟩ := hinv
    rw [List.append_nil]
    refine ⟨hboard, ?_⟩
    by_cases h0 : L.legal_move_count = 0
    · exact Or.inl ⟨h0, (hzero h0).2.2⟩
    · obtain ⟨h1, h2, h3, h4, h5, h6, h7⟩ := hpos h0
      refine Or.inr ⟨h0, h2, h3, h5, Or.inl ⟨?_, ?_, ?_⟩⟩
      · rw [← h4]; exact halb
      · rw [← h4]; exact h6
      · rw [← h4]; exact h7
  | cons move ml ih =>
    intro pre L hml hlen hinv
    rw [List.length_cons] at hlen
    obtain ⟨stop, L1, hs, hcase⟩ := nega_max_step_spec E R h T hT rec c ctx d hd hrec b
      alpha0 beta hnode ha0 hb move (hml move (List.mem_cons_self _ _)).1
      (hml move (List.mem_cons_self _ _)).2 L pre (by omega) hinv
    simp only [nega_max_loop, hs]
    rcases hcase with ⟨hstop, hinv1⟩ | ⟨hstop, hboard, hcount, hr1, hr2, hcut, hleg, hval⟩
    · subst hstop
      obtain ⟨L2, hL2, hpost⟩ := ih (pre ++ [move]) L1
        (fun m hm => hml m (List.mem_cons_of_mem _ hm))
        (by rw [List.length_append, List.length_singleton]; omega) hinv1
      refine ⟨L2, hL2, ?_⟩
      rw [List.append_assoc, List.singleton_append] at hpost
      exact hpost
    · subst hstop
      refine ⟨L1, rfl, hboard, Or.inr ⟨hcount, hr1, hr2, ⟨move, by simp, hleg⟩,
        Or.inr ⟨hcut, move, by simp, hleg, hval⟩⟩⟩

theorem failSoft_refl (v a b : Int) : FailSoft v v a b :=
  ⟨fun _ _ => rfl, fun h => h, fun h => h⟩

theorem failSoft_of_bounds (r v a b A : Int) (hA : A = max a r) (hlt : A < b)
    (hv : v ≤ A) (hreach : A = a ∨ A ≤ v) : FailSoft r v a b := by
  refine ⟨?_, ?_, ?_⟩
  · intro h1 h2
    rcases hreach with h3 | h3 <;> omega
  · intro h1
    rcases hreach with h3 | h3 <;> omega
  · intro h1
    omega

theorem failSoft_of_cut (r v a b : Int) (hab : a < b) (hr : b ≤ r) (hv : b ≤ v) :
    FailSoft r v a b := by
  refine ⟨?_, ?_, ?_⟩
  · intro _ h2; omega
  · intro h1; omega
  · intro _; exact hr

theorem mem_legal_moves {B G : Type} (E : Ext B G) (R : Rules B) (h : Implements E R)
    (c : Color) (s : State B G) (ctx : Context) (p : Move) (depth : Nat) (m : Move) :
    m ∈ legal_moves E R c s.board ctx ↔
      m ∈ (E.gen_order_moves c s ctx p depth).1 ∧ isLegal E R c ctx s.board m := by
  unfold legal_moves isLegal
  rw [List.mem_filter, h.gen_mem]
  simp

theorem nega_max_moves_spec {B G : Type} (E : Ext B G) (R : Rules B) (h : Implements E R)
    (T : Color → B → Context → Nat → Int → Int → Prop) (hT : TreeClosed E R T)
    (rec : SearchFn B G) (c : Color) (ctx : Context) (d : Nat) (hd : d + 1 < 65536)
    (hrec : MeetsSpec E R T rec d) (s : State B G) (tr : List Event)
    (alpha beta og_alpha : Int) (slot : Nat) (pm : Move)
    (hnode : T c s.board ctx (d + 1) alpha beta)
    (ha : -32768 < alpha) (hab : alpha < beta) (hb : beta ≤ 32767) :
    ∃ out, nega_max_moves E rec c s tr ctx (d + 1) alpha beta og_alpha slot pm = some out ∧
      out.state.board = s.board ∧
      -E.INFINITY ≤ out.result.score ∧ out.result.score ≤ E.INFINITY ∧
      FailSoft out.result.score (minimax E R (d + 1) c s.board ctx) alpha beta := by
  have hinf := h.inf_range
  have hninf : negI16 E.INFINITY = -E.INFINITY :=
    negI16_eq_neg E.INFINITY (by omega) (by omega)
  have hgb := h.gen_board c s ctx pm (d + 1)
  have hnn : ∀ m ∈ (E.gen_order_moves c s ctx pm (d + 1)).1,
      m.raw ≠ 0 ∧ m ∈ R.moves c s.board ctx := by
    intro m hm
    have hm1 := (h.gen_mem c s ctx pm (d + 1) m).mp hm
    exact ⟨h.moves_nonnull c s.board ctx m hm1, hm1⟩
  have hshort : ([] : List Move).length + (E.gen_order_moves c s ctx pm (d + 1)).1.length
      < 65536 := by
    rw [List.length_nil, Nat.zero_add]
    exact h.gen_short c s ctx pm (d + 1)
  obtain ⟨L1, hL1, hboard, hpost⟩ := nega_max_loop_spec E R h T hT rec c ctx d hd hrec s.board
    alpha beta hnode ha hb (E.gen_order_moves c s ctx pm (d + 1)).1 []
    { state := (E.gen_order_moves c s ctx pm (d + 1)).2
      trace := tr ++ [Event.gen_order_moves c ctx pm (d + 1)
        (E.gen_order_moves c s ctx pm (d + 1)).1]
      best := ⟨Move.null, negI16 E.INFINITY⟩
      legal_move_count := 0
      alpha := alpha } hnn hshort
    ⟨hgb, ha, hab, ⟨0, Nat.le_refl _, rfl⟩, fun _ => ⟨rfl, rfl, by simp⟩,
      fun h0 => absurd rfl h0⟩
  rw [List.nil_append] at hpost
  have hspec := minimax_succ_spec E R h d c s.board ctx
  simp only [nega_max_moves]
  rw [hL1]
  rcases hpost with ⟨h0, hnone⟩ | ⟨h0, hr1, hr2, ⟨m0, hm0, hl0⟩, hcase⟩
  · -- no legal move
    have hempty : legal_moves E R c s.board ctx = [] := by
      apply List.eq_nil_iff_forall_not_mem.mpr
      intro m hm
      have := (mem_legal_moves E R h c s ctx pm (d + 1) m).mp hm
      exact hnone m this.1 this.2
    simp only [h0, ↓reduceIte]
    refine ⟨_, rfl, hboard, ?_⟩
    rw [hspec.1 hempty, hboard, hninf]
    refine ⟨?_, ?_, failSoft_refl _ _ _⟩
    · dsimp only
      split <;> omega
    · dsimp only
      split <;> omega
  · simp only [h0, ↓reduceIte]
    refine ⟨_, rfl, hboard, hr1, hr2, ?_⟩
    have hne : legal_moves E R c s.board ctx ≠ [] :=
      List.ne_nil_of_mem ((mem_legal_moves E R h c s ctx pm (d + 1) m0).mpr ⟨hm0, hl0⟩)
    obtain ⟨mv, hmv, hv⟩ := hspec.2.2 hne
    have hmv2 := (mem_legal_moves E R h c s ctx pm (d + 1) mv).mp hmv
    rcases hcase with ⟨hlt, hall, hreach⟩ | ⟨hcut, m1, hm1, hl1, hval⟩
    · refine failSoft_of_bounds _ _ alpha beta _ rfl hlt ?_ ?_
      · rw [hv]
        exact hall mv hmv2.1 hmv2.2
      · rcases hreach with h1 | ⟨m2, hm2, hl2, hv2⟩
        · exact Or.inl h1
        · right
          rw [← hv2]
          exact hspec.2.1 m2 ((mem_legal_moves E R h c s ctx pm (d + 1) m2).mpr ⟨hm2, hl2⟩)
    · refine failSoft_of_cut _ _ alpha beta hab hcut ?_
      exact le_trans hval
        (hspec.2.1 m1 ((mem_legal_moves E R h c s ctx pm (d + 1) m1).mpr ⟨hm1, hl1⟩))

theorem nega_max_body_spec {B G : Type} (E : Ext B G) (R : Rules B) (h : Implements E R)
    (T : Color → B → Context → Nat → Int → Int → Prop) (hT : TreeClosed E R T)
    (hnull : NullOff E T)
    (rec : SearchFn B G) (depth : Nat) (hd : depth < 65536)
    (hrec : ∀ d, depth = d + 1 → MeetsSpec E R T rec d)
    (c : Color) (s : State B G) (ctx : Context) (alpha beta : Int)
    (hnode : T c s.board ctx depth alpha beta)
    (ha : -32768 < alpha) (hab : alpha < beta) (hb : beta ≤ 32767) :
    ∃ out, nega_max_body E rec c s ctx depth alpha beta = some out ∧
      out.state.board = s.board ∧
      -E.INFINITY ≤ out.result.score ∧ out.result.score ≤ E.INFINITY ∧
      FailSoft out.result.score (minimax E R depth c s.board ctx) alpha beta := by
  cases depth with
  | zero =>
    have hl := h.leaf_range c s.board ctx
    simp only [nega_max_body, h.draw_never, Bool.false_eq_true, ↓reduceIte]
    refine ⟨_, rfl, ?_, ?_, ?_, ?_⟩
    · exact h.quiesce_board _ _ _ _ _
    · show -E.INFINITY ≤ (E.quiesce c _ ctx alpha beta).1
      rw [h.quiesce_val]
      exact le_of_lt hl.1
    · show (E.quiesce c _ ctx alpha beta).1 ≤ E.INFINITY
      rw [h.quiesce_val]
      exact le_of_lt hl.2
    · show FailSoft (E.quiesce c _ ctx alpha beta).1 _ alpha beta
      rw [h.quiesce_val]
      exact failSoft_refl _ _ _
  | succ d =>
    have hoff : try_null_move E c s.board (d + 1) beta = false :=
      hnull c s.board ctx (d + 1) alpha beta hnode
    have hmoves := nega_max_moves_spec E R h T hT rec c ctx d hd (hrec d rfl)
      { s with
        nodes := s.nodes + 1
        node_depth_hist :=
          Function.update s.node_depth_hist (d + 1) (s.node_depth_hist (d + 1) + 1) }
      [Event.get_cell ctx.hash (d + 1) (E.get_cell s.glob ctx.hash (d + 1)).hit
        (E.get_cell s.glob ctx.hash (d + 1)).cell]
      alpha beta alpha (E.get_cell s.glob ctx.hash (d + 1)).slot
      (if (E.get_cell s.glob ctx.hash (d + 1)).hit
        then (E.get_cell s.glob ctx.hash (d + 1)).cell.move else Move.null) hnode ha hab hb
    simp only [nega_max_body, h.draw_never, h.probe_miss, nega_max_null, hoff,
      Bool.false_eq_true, ↓reduceIte, Bool.false_and, Nat.add_one_ne_zero]
    simp only [h.probe_miss, Bool.false_eq_true, ↓reduceIte] at hmoves
    exact hmoves

theorem nega_max_meetsSpec {B G : Type} (E : Ext B G) (R : Rules B) (h : Implements E R)
    (T : Color → B → Context → Nat → Int → Int → Prop) (hT : TreeClosed E R T)
    (hnull : NullOff E T) :
    ∀ fuel d, d < fuel → d < 65536 → MeetsSpec E R T (nega_max E fuel) d := by
  intro fuel
  induction fuel with
  | zero => intro d hd; omega
  | succ n ih =>
    intro d hdn hd16 c s ctx a b hnode ha hab hb
    obtain ⟨out, hout, hboard, hr1, hr2, hfs⟩ := nega_max_body_spec E R h T hT hnull
      (nega_max E n) d hd16 (fun d1 hd1 => ih d1 (by omega) (by omega)) c s ctx a b hnode
      ha hab hb
    refine ⟨out.result, out.state, ?_, hboard, hr1, hr2, hfs⟩
    simp only [nega_max, hout, Option.map_some']

/-- C2 (as the code has it): when the draw detector never fires, the transposition probe
always misses, quiescence returns a window-independent leaf value strictly between
`-INFINITY` and `+INFINITY`, the generator yields the moves of the position, fewer than
65536 of them and never the null move, and the null-move step does not fire at the nodes of
the tree `T` searched below the root (`T` holds the root with its window and, with a node,
the positions after its legal moves on the windows the loop can give them), `nega_max` at
any depth, on any window `alpha < beta` of `I16` values with `alpha` above the least `I16`,
returns a score `r` with `r = v` when `alpha < v < beta`, `r <= alpha` when `v <= alpha`
and `r >= beta` when `v >= beta`, `v` being the plain negamax value of the position at that
depth; on the window `(-INFINITY, +INFINITY)`, when `T` holds the root with it, it returns
exactly `v`. -/
theorem nega_max_fail_soft {B G : Type} (E : Ext B G) (R : Rules B) (h : Implements E R)
    (T : Color → B → Context → Nat → Int → Int → Prop) (hT : TreeClosed E R T)
    (hnull : NullOff E T)
    (fuel depth : Nat) (hfuel : depth < fuel) (hdepth : depth < 65536)
    (c : Color) (s : State B G) (ctx : Context) (alpha beta : Int)
    (hroot : T c s.board ctx depth alpha beta)
    (ha : -32768 < alpha) (hab : alpha < beta) (hb : beta ≤ 32767) :
    (∃ r s1, nega_max E fuel c s ctx depth alpha beta = some (r, s1) ∧
      (alpha < minimax E R depth c s.board ctx → minimax E R depth c s.board ctx < beta →
        r.score = minimax E R depth c s.board ctx) ∧
      (minimax E R depth c s.board ctx ≤ alpha → r.score ≤ alpha) ∧
      (beta ≤ minimax E R depth c s.board ctx → beta ≤ r.score)) ∧
    (T c s.board ctx depth (-E.INFINITY) E.INFINITY →
      ∃ r s1, nega_max E fuel c s ctx depth (-E.INFINITY) E.INFINITY = some (r, s1) ∧
        r.score = minimax E R depth c s.board ctx) := by
  have hinf := h.inf_range
  constructor
  · obtain ⟨r, s1, hr, _, _, _, hfs⟩ :=
      nega_max_meetsSpec E R h T hT hnull fuel depth hfuel hdepth c s ctx alpha beta hroot
        ha hab hb
    exact ⟨r, s1, hr, hfs⟩
  · intro hroot2
    obtain ⟨r, s1, hr, _, hr1, hr2, hfs1, hfs2, hfs3⟩ :=
      nega_max_meetsSpec E R h T hT hnull fuel depth hfuel hdepth c s ctx (-E.INFINITY)
        E.INFINITY hroot2 (by omega) (by omega) (by omega)
    refine ⟨r, s1, hr, ?_⟩
    have hv := minimax_range E R h depth c s.board ctx
    by_cases h1 : minimax E R depth c s.board ctx ≤ -E.INFINITY
    · have := hfs2 h1
      omega
    · by_cases h2 : E.INFINITY ≤ minimax E R depth c s.board ctx
      · have := hfs3 h2
        omega
      · exact hfs1 (by omega) (by omega)

theorem twoPly_all_eq (c : Color) (b : List Nat) :
    twoPly.ext.get_bitboard b c.ALL
      = twoPly.ext.get_bitboard b c.PAWN ||| twoPly.ext.get_bitboard b c.KING := by
  cases c
  · show (0xFF10 : Nat) = 0xFF00 ||| 0x10
    decide
  · show (0x10FF000000000000 : Nat) = 0xFF000000000000 ||| 0x1000000000000000
    decide

theorem twoPly_null_off (c : Color) (b : List Nat) (d : Nat) (beta : Int) :
    try_null_move twoPly.ext c b d beta = false := by
  simp [try_null_move, twoPly_all_eq]

theorem twoPly_moves_implements (t : Toy) (hdrawn : t.drawn = false)
    (hprobe : t.probe = twoPly.probe) (hmoves : t.moves = twoPly.moves)
    (hleaf : t.leaf = twoPly.leaf) (hinf : t.INFINITY = 32767) :
    Implements t.ext t.rules where
  draw_never := fun _ => hdrawn
  probe_miss := by
    intro g h d
    show (t.probe h d).hit = false
    rw [hprobe]
    rfl
  quiesce_val := fun _ _ _ _ _ => rfl
  quiesce_board := fun _ _ _ _ _ => rfl
  leaf_range := by
    intro c b ctx
    show -t.INFINITY < t.leaf c b ∧ t.leaf c b < t.INFINITY
    rw [hinf, hleaf]
    unfold twoPly
    dsimp only
    split <;> decide
  gen_mem := fun _ _ _ _ _ _ => Iff.rfl
  gen_board := fun _ _ _ _ _ => rfl
  gen_short := by
    intro c s ctx p d
    show (t.moves s.board).length < 65536
    rw [hmoves]
    unfold twoPly
    dsimp only
    split <;> decide
  moves_nonnull := by
    intro c b ctx m hm
    change m ∈ t.moves b at hm
    rw [hmoves] at hm
    unfold twoPly at hm
    dsimp only at hm
    split at hm <;> simp at hm
    · rcases hm with hm | hm <;> subst hm <;> decide
    · rcases hm with hm | hm <;> subst hm <;> decide
    · subst hm; decide
  do_board := fun _ _ _ _ => rfl
  do_ctx := fun _ _ _ _ => rfl
  undo_board := by
    intro c s s2 m ctx h
    show s2.board.tail = s.board
    rw [h]
    rfl
  inf_range := by
    show 0 < t.INFINITY ∧ t.INFINITY ≤ 32767
    rw [hinf]
    decide

theorem twoPly_implements : Implements twoPly.ext twoPly.rules :=
  twoPly_moves_implements twoPly rfl rfl rfl rfl rfl

theorem knightGame_implements : Implements knightGame.ext knightGame.rules :=
  twoPly_moves_implements knightGame rfl rfl rfl rfl rfl

theorem knightTree_closed : TreeClosed knightGame.ext knightGame.rules knightTree := by
  intro c b ctx d alpha beta m a hT _ _ _ _
  unfold knightTree at hT ⊢
  omega

theorem knightTree_null_off : NullOff knightGame.ext knightTree := by
  intro c b ctx d alpha beta hT
  have hs : wrapI16 ((if c = .White then 1 else -1) * knightGame.ext.pestos b) = 0 := by
    show wrapI16 ((if c = .White then 1 else -1) * 0) = 0
    rw [mul_zero]
    rfl
  unfold try_null_move
  simp only [hs]
  rcases hT with hT | ⟨_, hT⟩
  · have hd : decide (d ≥ knightGame.ext.NULL_DEPTH_REDUCTION) = false := by
      rw [decide_eq_false_iff_not]
      show ¬ d ≥ 2
      omega
    rw [hd]
    rfl
  · have hb : decide ((0 : Int) > beta) = false := by
      rw [decide_eq_false_iff_not]
      omega
    rw [hb]
    simp

theorem nega_max_fail_soft_witness :
    (Implements knightGame.ext knightGame.rules ∧
      TreeClosed knightGame.ext knightGame.rules knightTree ∧
      NullOff knightGame.ext knightTree ∧ 2 < 3 ∧ 2 < 65536 ∧
      knightTree Color.White Toy.init.board Toy.ctx0 2 (-100) 100 ∧
      (-32768 : Int) < -100 ∧ (-100 : Int) < 100 ∧ (100 : Int) ≤ 32767) ∧
    ((∃ r s1, nega_max knightGame.ext 3 Color.White Toy.init Toy.ctx0 2 (-100) 100
        = some (r, s1) ∧
      (-100 < minimax knightGame.ext knightGame.rules 2 Color.White Toy.init.board Toy.ctx0 →
        minimax knightGame.ext knightGame.rules 2 Color.White Toy.init.board Toy.ctx0 < 100 →
        r.score
          = minimax knightGame.ext knightGame.rules 2 Color.White Toy.init.board Toy.ctx0) ∧
      (minimax knightGame.ext knightGame.rules 2 Color.White Toy.init.board Toy.ctx0 ≤ -100 →
        r.score ≤ -100) ∧
      (100 ≤ minimax knightGame.ext knightGame.rules 2 Color.White Toy.init.board Toy.ctx0 →
        100 ≤ r.score)) ∧
    (knightTree Color.White Toy.init.board Toy.ctx0 2 (-knightGame.ext.INFINITY)
        knightGame.ext.INFINITY →
      ∃ r s1, nega_max knightGame.ext 3 Color.White Toy.init Toy.ctx0 2
          (-knightGame.ext.INFINITY) knightGame.ext.INFINITY = some (r, s1) ∧
        r.score
          = minimax knightGame.ext knightGame.rules 2 Color.White Toy.init.board Toy.ctx0)) :=
  ⟨⟨knightGame_implements, knightTree_closed, knightTree_null_off, by decide, by decide,
      Or.inr ⟨rfl, by decide⟩, by decide, by decide, by decide⟩,
    nega_max_fail_soft knightGame.ext knightGame.rules knightGame_implements knightTree
      knightTree_closed knightTree_null_off 3 2 (by decide) (by decide)
      Color.White Toy.init Toy.ctx0 (-100) 100 (Or.inr ⟨rfl, by decide⟩) (by decide)
      (by decide) (by decide)⟩

/-- C2, the claim as stated fails on the window whose lower bound is the least `I16`: the
two-ply game meets every assumption (its null-move step never fires), the negamax value of
its root at depth 2 is -5, which lies inside the window `(-32768, 10)`, yet `nega_max`
returns -1 on that window. The child is searched on `(-10, -32768)` because `-alpha`
wraps, and cuts off after its first move. -/
theorem nega_max_wraps_at_least_I16 :
    Implements twoPly.ext twoPly.rules ∧
    (∀ c b d beta, try_null_move twoPly.ext c b d beta = false) ∧
    minimax twoPly.ext twoPly.rules 2 Color.White Toy.init.board Toy.ctx0 = -5 ∧
    ((-32768 : Int) < -5 ∧ (-5 : Int) < 10) ∧
    negI16 (-32768) = -32768 ∧
    (nega_max twoPly.ext 3 Color.White Toy.init Toy.ctx0 2 (-32768) 10).map
      (fun r => r.1.score) = some (-1) :=
  ⟨twoPly_implements, twoPly_null_off, by decide, by decide, by decide, by decide!⟩

/-! ### Magic attack lookup -/

set_option maxRecDepth 100000 in
theorem sampleTables_bishop_filled :
    ∀ s, s &&& sampleTables.magicmoves_b_mask 0 = s →
      sampleTables.magicmoves_b_indices 0
        (((s * sampleTables.magicmoves_b_magics 0) % 2 ^ 64)
          >>> sampleTables.magicmoves_b_shift 0) = bishopRayCast 0 s := by
  intro s hs
  have hle : s < 513 := by
    have : s &&& 512 ≤ 512 := Nat.and_le_right
    have h2 : s &&& 512 = s := hs
    omega
  have key : ∀ t, t < 513 → t &&& 512 = t →
      sampleTables.magicmoves_b_indices 0
        (((t * sampleTables.magicmoves_b_magics 0) % 2 ^ 64)
          >>> sampleTables.magicmoves_b_shift 0) = bishopRayCast 0 t := by
    decide
  exact key s hle hs

set_option maxRecDepth 100000 in
theorem sampleTables_rook_filled :
    ∀ s, s &&& sampleTables.magicmoves_r_mask 0 = s →
      sampleTables.magicmoves_r_indices 0
        (((s * sampleTables.magicmoves_r_magics 0) % 2 ^ 64)
          >>> sampleTables.magicmoves_r_shift 0) = rookRayCast 0 s := by
  intro s hs
  have hle : s < 259 := by
    have : s &&& 258 ≤ 258 := Nat.and_le_right
    have h2 : s &&& 258 = s := hs
    omega
  have key : ∀ t, t < 259 → t &&& 258 = t →
      sampleTables.magicmoves_r_indices 0
        (((t * sampleTables.magicmoves_r_magics 0) % 2 ^ 64)
          >>> sampleTables.magicmoves_r_shift 0) = rookRayCast 0 t := by
    decide
  exact key s hle hs

/-- C1: for a square `sq < 64` and each sliding kind, if the square's sub-table holds, at
the hashed index of every subset `s` of the square's relevance mask, the ray-cast attack
set of `s`, then the query (`Bmagic` for the bishop, `Rmagic` for the rook) agrees with
the ray-cast on every subset of the mask, and on every 64-bit occupancy it returns the
ray-cast of the occupancy restricted to the mask. -/
theorem magic_query_eq_rayCast (T : MagicTables) (sq : Nat) (_hsq : sq < 64) :
    ((∀ s, s &&& T.magicmoves_b_mask sq = s →
        T.magicmoves_b_indices sq
          (((s * T.magicmoves_b_magics sq) % 2 ^ 64) >>> T.magicmoves_b_shift sq)
          = bishopRayCast sq s) →
      (∀ s, s &&& T.magicmoves_b_mask sq = s → Bmagic T sq s = bishopRayCast sq s) ∧
      (∀ occ, occ < 2 ^ 64 →
        Bmagic T sq occ = bishopRayCast sq (occ &&& T.magicmoves_b_mask sq))) ∧
    ((∀ s, s &&& T.magicmoves_r_mask sq = s →
        T.magicmoves_r_indices sq
          (((s * T.magicmoves_r_magics sq) % 2 ^ 64) >>> T.magicmoves_r_shift sq)
          = rookRayCast sq s) →
      (∀ s, s &&& T.magicmoves_r_mask sq = s → Rmagic T sq s = rookRayCast sq s) ∧
      (∀ occ, occ < 2 ^ 64 →
        Rmagic T sq occ = rookRayCast sq (occ &&& T.magicmoves_r_mask sq))) := by
  have hidem : ∀ a m : Nat, (a &&& m) &&& m = a &&& m := by
    intro a m
    rw [Nat.and_assoc, Nat.and_self]
  constructor
  · intro hB
    constructor
    · intro s hs
      unfold Bmagic
      rw [hs]
      exact hB s hs
    · intro occ _
      unfold Bmagic
      exact hB _ (hidem occ _)
  · intro hR
    constructor
    · intro s hs
      unfold Rmagic
      rw [hs]
      exact hR s hs
    · intro occ _
      unfold Rmagic
      exact hR _ (hidem occ _)

theorem magic_query_eq_rayCast_witness :
    (0 < 64) ∧
    ((∀ s, s &&& sampleTables.magicmoves_b_mask 0 = s →
      Bmagic sampleTables 0 s = bishopRayCast 0 s) ∧
    (∀ occ, occ < 2 ^ 64 →
      Bmagic sampleTables 0 occ
        = bishopRayCast 0 (occ &&& sampleTables.magicmoves_b_mask 0))) ∧
    ((∀ s, s &&& sampleTables.magicmoves_r_mask 0 = s →
      Rmagic sampleTables 0 s = rookRayCast 0 s) ∧
    (∀ occ, occ < 2 ^ 64 →
      Rmagic sampleTables 0 occ
        = rookRayCast 0 (occ &&& sampleTables.magicmoves_r_mask 0))) :=
  ⟨by decide,
    (magic_query_eq_rayCast sampleTables 0 (by decide)).1 sampleTables_bishop_filled,
    (magic_query_eq_rayCast sampleTables 0 (by decide)).2 sampleTables_rook_filled⟩

/-- C10: the masked query is the NOMASK query applied to the occupancy restricted to the
mask; so the two variants agree on an occupancy already restricted to the mask, and the
masked query gives the same bitboard for two occupancies that agree on the mask. -/
theorem masked_eq_nomask (T : MagicTables) (sq occ : Nat) (_hsq : sq < 64)
    (_hocc : occ < 2 ^ 64) :
    Bmagic T sq occ = BmagicNOMASK T sq (occ &&& T.magicmoves_b_mask sq) ∧
    Rmagic T sq occ = RmagicNOMASK T sq (occ &&& T.magicmoves_r_mask sq) ∧
    (occ &&& T.magicmoves_b_mask sq = occ → Bmagic T sq occ = BmagicNOMASK T sq occ) ∧
    (occ &&& T.magicmoves_r_mask sq = occ → Rmagic T sq occ = RmagicNOMASK T sq occ) ∧
    (∀ occ2, occ2 < 2 ^ 64 →
      occ &&& T.magicmoves_b_mask sq = occ2 &&& T.magicmoves_b_mask sq →
      Bmagic T sq occ = Bmagic T sq occ2) ∧
    (∀ occ2, occ2 < 2 ^ 64 →
      occ &&& T.magicmoves_r_mask sq = occ2 &&& T.magicmoves_r_mask sq →
      Rmagic T sq occ = Rmagic T sq occ2) := by
  refine ⟨rfl, rfl, ?_, ?_, ?_, ?_⟩
  · intro h
    unfold Bmagic BmagicNOMASK
    rw [h]
  · intro h
    unfold Rmagic RmagicNOMASK
    rw [h]
  · intro occ2 _ h
    unfold Bmagic
    rw [h]
  · intro occ2 _ h
    unfold Rmagic
    rw [h]

theorem masked_eq_nomask_witness :
    (0 < 64 ∧ 0xFFFF < 2 ^ 64) ∧
    Bmagic sampleTables 0 0xFFFF
      = BmagicNOMASK sampleTables 0 (0xFFFF &&& sampleTables.magicmoves_b_mask 0) ∧
    Rmagic sampleTables 0 0xFFFF
      = RmagicNOMASK sampleTables 0 (0xFFFF &&& sampleTables.magicmoves_r_mask 0) ∧
    (0xFFFF &&& sampleTables.magicmoves_b_mask 0 = 0xFFFF →
      Bmagic sampleTables 0 0xFFFF = BmagicNOMASK sampleTables 0 0xFFFF) ∧
    (0xFFFF &&& sampleTables.magicmoves_r_mask 0 = 0xFFFF →
      Rmagic sampleTables 0 0xFFFF = RmagicNOMASK sampleTables 0 0xFFFF) ∧
    (∀ occ2, occ2 < 2 ^ 64 →
      0xFFFF &&& sampleTables.magicmoves_b_mask 0 = occ2 &&& sampleTables.magicmoves_b_mask 0 →
      Bmagic sampleTables 0 0xFFFF = Bmagic sampleTables 0 occ2) ∧
    (∀ occ2, occ2 < 2 ^ 64 →
      0xFFFF &&& sampleTables.magicmoves_r_mask 0 = occ2 &&& sampleTables.magicmoves_r_mask 0 →
      Rmagic sampleTables 0 0xFFFF = Rmagic sampleTables 0 occ2) :=
  ⟨⟨by decide, by decide⟩, masked_eq_nomask sampleTables 0 0xFFFF (by decide) (by decide)⟩

/-! ### Queen attacks -/

/-- C11: for every square and occupancy, `Qmagic` is the bitwise OR of `Bmagic` and
`Rmagic` and `QmagicNOMASK` the bitwise OR of `BmagicNOMASK` and `RmagicNOMASK`; bit by
bit, a target square is in the queen's attack set exactly when it is in the bishop's or in
the rook's for the same square and occupancy. -/
theorem queen_is_bishop_or_rook (T : MagicTables) (sq occ : Nat) :
    Qmagic T sq occ = Bmagic T sq occ ||| Rmagic T sq occ ∧
    QmagicNOMASK T sq occ = BmagicNOMASK T sq occ ||| RmagicNOMASK T sq occ ∧
    (∀ t, (Qmagic T sq occ).testBit t = true ↔
      (Bmagic T sq occ).testBit t = true ∨ (Rmagic T sq occ).testBit t = true) ∧
    (∀ t, (QmagicNOMASK T sq occ).testBit t = true ↔
      (BmagicNOMASK T sq occ).testBit t = true ∨
        (RmagicNOMASK T sq occ).testBit t = true) := by
  refine ⟨rfl, rfl, ?_, ?_⟩
  · intro t
    simp only [Qmagic, Nat.testBit_or, Bool.or_eq_true]
  · intro t
    simp only [QmagicNOMASK, Nat.testBit_or, Bool.or_eq_true]

/-! ### The record of a call -/

/-- The move loop of `nega_max` only adds to the record, and what it adds are applications
and undos of moves on the call's context, searches of the opponent one ply below on a
window whose lower bound is `-beta`, and killer records at the call's depth. -/
theorem nega_max_loop_trace {B G : Type} (E : Ext B G) (rec : SearchFn B G) (c : Color)
    (ctx : Context) (depth : Nat) (beta : Int) (Q : Event → Prop)
    (hdo : ∀ m nc, Q (.do_move c m ctx nc)) (hundo : ∀ m, Q (.undo_move c m))
    (hsearch : ∀ nc a r, Q (.search c.opponent nc (subU16 depth 1) (negI16 beta) a r))
    (hadd : ∀ m, Q (.add_move m depth)) :
    ∀ (ml : List Move) (L L1 : Loop B G),
      nega_max_loop E rec c ctx depth beta ml L = some L1 →
      ∃ rest, L1.trace = L.trace ++ rest ∧ ∀ e ∈ rest, Q e := by
  intro ml L L1 h
  refine nega_max_loop_invariant E rec c ctx depth beta
    (fun L2 => ∃ rest, L2.trace = L.trace ++ rest ∧ ∀ e ∈ rest, Q e) (fun _ => True)
    ?_ ml L L1 (fun _ _ => trivial) h ⟨[], by simp, by simp⟩
  intro move L2 stop L3 _ hL2 hs
  obtain ⟨rest, hrest, hQ⟩ := hL2
  rcases nega_max_step_cases E rec c ctx depth beta move L2 stop L3 hs with
    ⟨_, _, hL3⟩ | ⟨_, lb, s2, _, _, _, _, _, _, _, htrace⟩
  · subst hL3
    refine ⟨rest ++ [.do_move c move ctx (E.do_move c L2.state move ctx).1,
      .undo_move c move], by simp [hrest], ?_⟩
    intro e he
    simp only [List.mem_append, List.mem_cons, List.mem_singleton, List.not_mem_nil,
      or_false] at he
    rcases he with he | he | he
    · exact hQ e he
    · subst he; exact hdo _ _
    · subst he; exact hundo _
  · refine ⟨rest ++ ([.do_move c move ctx (E.do_move c L2.state move ctx).1,
        .search c.opponent (E.do_move c L2.state move ctx).1 (subU16 depth 1)
          (negI16 beta) (negI16 L2.alpha) lb,
        .undo_move c move]
      ++ (if L3.alpha ≥ beta then [.add_move move depth] else [])), ?_, ?_⟩
    · rw [htrace, hrest]
      simp only [List.append_assoc]
    · intro e he
      simp only [List.mem_append, List.mem_cons, List.mem_singleton, List.not_mem_nil,
        or_false] at he
      rcases he with he | (he | he | he) | he
      · exact hQ e he
      · subst he; exact hdo _ _
      · subst he; exact hsearch _ _ _
      · subst he; exact hundo _
      · split at he
        · simp only [List.mem_singleton] at he
          subst he; exact hadd _
        · simp at he

/-- Lines 84-141 of `nega_max` only add to the record: the move generation on the call's
context, the events of the loop, and at most one write-back, of the returned result under
the call's hash and depth with the bounds `og_alpha` and `beta` the lines were given. -/
theorem nega_max_moves_trace {B G : Type} (E : Ext B G) (rec : SearchFn B G) (c : Color)
    (s : State B G) (tr : List Event) (ctx : Context) (depth : Nat)
    (alpha beta og_alpha : Int) (slot : Nat) (priority_move : Move) (out : Out B G)
    (h : nega_max_moves E rec c s tr ctx depth alpha beta og_alpha slot priority_move
      = some out)
    (Q : Event → Prop)
    (hgen : ∀ ml, Q (.gen_order_moves c ctx priority_move depth ml))
    (hdo : ∀ m nc, Q (.do_move c m ctx nc)) (hundo : ∀ m, Q (.undo_move c m))
    (hsearch : ∀ nc a r, Q (.search c.opponent nc (subU16 depth 1) (negI16 beta) a r))
    (hadd : ∀ m, Q (.add_move m depth))
    (hset : Q (.set_cell slot ctx.hash depth out.result og_alpha beta)) :
    ∃ rest, out.trace = tr ++ rest ∧ ∀ e ∈ rest, Q e := by
  simp only [nega_max_moves] at h
  split at h
  · exact absurd h (by simp)
  · rename_i L hL
    obtain ⟨rest, hrest, hQ⟩ := nega_max_loop_trace E rec c ctx depth beta Q hdo hundo
      hsearch hadd _ _ _ hL
    simp only at hrest
    split at h
    · simp only [Option.some.injEq] at h
      subst h
      refine ⟨[.gen_order_moves c ctx priority_move depth
        (E.gen_order_moves c s ctx priority_move depth).1] ++ rest, ?_, ?_⟩
      · simp only [hrest, List.append_assoc]
      · intro e he
        simp only [List.mem_append, List.mem_singleton] at he
        rcases he with he | he
        · subst he; exact hgen _
        · exact hQ e he
    · simp only [Option.some.injEq] at h
      subst h
      refine ⟨[.gen_order_moves c ctx priority_move depth
        (E.gen_order_moves c s ctx priority_move depth).1] ++ rest
          ++ [.set_cell slot ctx.hash depth L.best og_alpha beta], ?_, ?_⟩
      · simp only [hrest, List.append_assoc]
      · intro e he
        simp only [List.mem_append, List.mem_singleton] at he
        rcases he with (he | he) | he
        · subst he; exact hgen _
        · exact hQ e he
        · subst he; exact hset

/-- The move loop of `nega_scout` only adds to the record, and what it adds are
applications and undos of moves on the call's context and searches of the opponent one ply
below; it records no killer. -/
theorem nega_scout_loop_trace {B G : Type} (E : Ext B G) (rec : SearchFn B G) (c : Color)
    (ctx : Context) (depth : Nat) (alpha og_beta : Int) (Q : Event → Prop)
    (hdo : ∀ m nc, Q (.do_move c m ctx nc)) (hundo : ∀ m, Q (.undo_move c m))
    (hsearch : ∀ nc a b r, Q (.search c.opponent nc (subU16 depth 1) a b r)) :
    ∀ (ml : List Move) (i : Nat) (L L1 : ScoutLoop B G),
      nega_scout_loop E rec c ctx depth alpha og_beta ml i L = some L1 →
      ∃ rest, L1.trace = L.trace ++ rest ∧ ∀ e ∈ rest, Q e := by
  intro ml i L L1 h
  refine nega_scout_loop_invariant E rec c ctx depth alpha og_beta
    (fun L2 => ∃ rest, L2.trace = L.trace ++ rest ∧ ∀ e ∈ rest, Q e) (fun _ => True)
    ?_ ml i L L1 (fun _ _ => trivial) h ⟨[], by simp, by simp⟩
  intro move j L2 stop L3 _ hL2 hs
  obtain ⟨rest, hrest, hQ⟩ := hL2
  rcases nega_scout_step_cases E rec c ctx depth alpha og_beta move j L2 stop L3 hs with
    ⟨_, _, hL3⟩ | ⟨_, lb, s2, s3, tr2, _, hre, _, _, _, _, _, htrace, _⟩
  · subst hL3
    refine ⟨rest ++ [.do_move c move ctx (E.do_move c L2.state move ctx).1,
      .undo_move c move], by simp [hrest], ?_⟩
    intro e he
    simp only [List.mem_append, List.mem_cons, List.mem_singleton, List.not_mem_nil,
      or_false] at he
    rcases he with he | he | he
    · exact hQ e he
    · subst he; exact hdo _ _
    · subst he; exact hundo _
  · rcases hre with ⟨_, ib, _, htr2⟩ | ⟨_, _, htr2⟩
    · refine ⟨rest ++ [.do_move c move ctx (E.do_move c L2.state move ctx).1,
          .search c.opponent (E.do_move c L2.state move ctx).1 (subU16 depth 1)
            (negI16 L2.beta) (negI16 L2.og_alpha) lb,
          .search c.opponent (E.do_move c L2.state move ctx).1 (subU16 depth 1)
            (negI16 og_beta) (negI16 L2.og_alpha) ib,
          .undo_move c move], ?_, ?_⟩
      · rw [htrace, htr2, hrest]
        simp only [List.append_assoc, List.cons_append, List.nil_append]
      · intro e he
        simp only [List.mem_append, List.mem_cons, List.mem_singleton, List.not_mem_nil,
          or_false] at he
        rcases he with he | he | he | he | he
        · exact hQ e he
        · subst he; exact hdo _ _
        · subst he; exact hsearch _ _ _ _
        · subst he; exact hsearch _ _ _ _
        · subst he; exact hundo _
    · refine ⟨rest ++ [.do_move c move ctx (E.do_move c L2.state move ctx).1,
          .search c.opponent (E.do_move c L2.state move ctx).1 (subU16 depth 1)
            (negI16 L2.beta) (negI16 L2.og_alpha) lb,
          .undo_move c move], ?_, ?_⟩
      · rw [htrace, htr2, hrest]
        simp only [List.append_assoc, List.cons_append, List.nil_append]
      · intro e he
        simp only [List.mem_append, List.mem_cons, List.mem_singleton, List.not_mem_nil,
          or_false] at he
        rcases he with he | he | he | he
        · exact hQ e he
        · subst he; exact hdo _ _
        · subst he; exact hsearch _ _ _ _
        · subst he; exact hundo _

/-- Lines 174-244 of `nega_scout` only add to the record: at depth zero the quiescence
call; else the move generation on the call's context, the events of the loop, and one
write-back of the returned result under the call's hash and depth. -/
theorem nega_scout_moves_trace {B G : Type} (E : Ext B G) (rec : SearchFn B G) (c : Color)
    (s : State B G) (tr : List Event) (ctx : Context) (depth : Nat)
    (alpha beta og_alpha og_beta : Int) (slot : Nat) (priority_move : Move) (out : Out B G)
    (h : nega_scout_moves E rec c s tr ctx depth alpha beta og_alpha og_beta slot
      priority_move = some out)
    (Q : Event → Prop)
    (hq : depth = 0 → ∀ x, Q (.quiesce c ctx alpha beta x))
    (hgen : depth ≠ 0 → ∀ ml, Q (.gen_moves c ctx priority_move depth ml))
    (hdo : depth ≠ 0 → ∀ m nc, Q (.do_move c m ctx nc))
    (hundo : depth ≠ 0 → ∀ m, Q (.undo_move c m))
    (hsearch : depth ≠ 0 → ∀ nc a b r, Q (.search c.opponent nc (subU16 depth 1) a b r))
    (hset : depth ≠ 0 → ∀ a b, Q (.set_cell slot ctx.hash depth out.result a b)) :
    ∃ rest, out.trace = tr ++ rest ∧ ∀ e ∈ rest, Q e := by
  simp only [nega_scout_moves] at h
  split at h
  · rename_i hd
    simp only [Option.some.injEq] at h
    subst h
    refine ⟨_, rfl, ?_⟩
    intro e he
    simp only [List.mem_singleton] at he
    subst he; exact hq hd _
  · rename_i hd
    split at h
    · exact absurd h (by simp)
    · rename_i L hL
      obtain ⟨rest, hrest, hQ⟩ := nega_scout_loop_trace E rec c ctx depth alpha og_beta Q
        (hdo hd) (hundo hd) (hsearch hd) _ _ _ _ hL
      simp only at hrest
      simp only [Option.some.injEq] at h
      subst h
      refine ⟨[.gen_moves c ctx priority_move depth
          (E.gen_moves c s ctx priority_move depth).1] ++ rest
            ++ [.set_cell slot ctx.hash depth
              (if L.legal_move_count = 0 then
                ⟨Move.null, if E.get_checks c L.state.board ≠ 0 then negI16 E.INFINITY else 0⟩
              else L.best) L.og_alpha L.beta], ?_, ?_⟩
      · simp only [hrest, List.append_assoc]
      · intro e he
        simp only [List.mem_append, List.mem_singleton] at he
        rcases he with (he | he) | he
        · subst he; exact hgen hd _
        · exact hQ e he
        · subst he; exact hset hd _ _

/-! ### The null-move step -/

theorem try_null_move_iff {B G : Type} (E : Ext B G) (c : Color) (b : B) (depth : Nat)
    (beta : Int) :
    try_null_move E c b depth beta = true ↔
      (E.get_bitboard b c.ALL ≠ (E.get_bitboard b c.PAWN ||| E.get_bitboard b c.KING) ∧
        E.get_checks c b = 0 ∧
        wrapI16 ((if c = .White then 1 else -1) * E.pestos b) > beta ∧
        depth ≥ E.NULL_DEPTH_REDUCTION) := by
  simp only [try_null_move, Bool.and_eq_true, decide_eq_true_eq, beq_iff_eq]
  constructor
  · rintro ⟨⟨⟨h1, h2⟩, h3⟩, h4⟩
    exact ⟨h2, h3, h4, h1⟩
  · rintro ⟨h2, h3, h4, h1⟩
    exact ⟨⟨⟨h1, h2⟩, h3⟩, h4⟩

theorem subU16_eq_sub (depth r : Nat) (hle : r ≤ depth) (h : depth < 65536) :
    subU16 depth r = depth - r := by
  unfold subU16
  have : r % 65536 = r := Nat.mod_eq_of_lt (by omega)
  rw [this]
  omega

/-- C17: at the null-move step of a returning `nega_max` call (lines 52-82, entered on
board `s.board` with the window `(alpha, beta)`), the flag `try_null_move` is true exactly
when the side to move has material beyond pawns and king, is not in check, its static
evaluation from its own side is strictly greater than `beta` and
`depth >= NULL_DEPTH_REDUCTION`. When it is true, the same state (no move applied) is
searched for the opponent on the context with the hash turn toggled and en passant
cleared, at `depth - NULL_DEPTH_REDUCTION`, on the window `(-beta, -alpha)`; if the
negated score is at least `beta` the call returns the null move with score `beta` and its
record ends with the second hash toggle (no move is generated); otherwise the call returns
what the move generation and loop return. When it is false, the call returns what move
generation and the loop return from the unchanged state, and its record gains no hash
toggle. -/
theorem null_move_search {B G : Type} (E : Ext B G) (rec : SearchFn B G) (c : Color)
    (s : State B G) (tr : List Event) (ctx : Context) (depth : Nat)
    (alpha beta og_alpha : Int) (slot : Nat) (pm : Move) (out : Out B G)
    (hdepth : depth < 65536)
    (h : nega_max_null E rec c s tr ctx depth alpha beta og_alpha slot pm = some out) :
    (try_null_move E c s.board depth beta = true ↔
      (E.get_bitboard s.board c.ALL ≠
          (E.get_bitboard s.board c.PAWN ||| E.get_bitboard s.board c.KING) ∧
        E.get_checks c s.board = 0 ∧
        wrapI16 ((if c = .White then 1 else -1) * E.pestos s.board) > beta ∧
        depth ≥ E.NULL_DEPTH_REDUCTION)) ∧
    (try_null_move E c s.board depth beta = true →
      ∃ null_best s1,
        rec c.opponent s { E.toggle_hash_turn ctx with en_passant := 0 }
          (depth - E.NULL_DEPTH_REDUCTION) (negI16 beta) (negI16 alpha)
            = some (null_best, s1) ∧
        ((negI16 null_best.score ≥ beta ∧ out.result = ⟨Move.null, beta⟩ ∧
            out.trace = tr ++ [.toggle_hash_turn ctx,
              .search c.opponent { E.toggle_hash_turn ctx with en_passant := 0 }
                (depth - E.NULL_DEPTH_REDUCTION) (negI16 beta) (negI16 alpha) null_best,
              .toggle_hash_turn { E.toggle_hash_turn ctx with en_passant := 0 }]) ∨
          (negI16 null_best.score < beta ∧
            nega_max_moves E rec c s1 (tr ++ [.toggle_hash_turn ctx,
              .search c.opponent { E.toggle_hash_turn ctx with en_passant := 0 }
                (depth - E.NULL_DEPTH_REDUCTION) (negI16 beta) (negI16 alpha) null_best,
              .toggle_hash_turn { E.toggle_hash_turn ctx with en_passant := 0 }])
              ctx depth alpha beta og_alpha slot pm = some out))) ∧
    (try_null_move E c s.board depth beta = false →
      nega_max_moves E rec c s tr ctx depth alpha beta og_alpha slot pm = some out ∧
      ∃ rest, out.trace = tr ++ rest ∧ ∀ e ∈ rest, e.not_toggle) := by
  refine ⟨try_null_move_iff E c s.board depth beta, ?_, ?_⟩
  · intro htry
    have hge : E.NULL_DEPTH_REDUCTION ≤ depth :=
      ((try_null_move_iff E c s.board depth beta).1 htry).2.2.2
    rw [← subU16_eq_sub depth E.NULL_DEPTH_REDUCTION hge hdepth]
    simp only [nega_max_null, htry, if_true] at h
    cases hr : rec c.opponent s { E.toggle_hash_turn ctx with en_passant := 0 }
        (subU16 depth E.NULL_DEPTH_REDUCTION) (negI16 beta) (negI16 alpha) with
    | none => simp [hr] at h
    | some r =>
      obtain ⟨null_best, s1⟩ := r
      simp only [hr] at h
      refine ⟨null_best, s1, rfl, ?_⟩
      by_cases hp : negI16 null_best.score ≥ beta
      · left
        rw [if_pos hp] at h
        simp only [Option.some.injEq] at h
        subst h
        exact ⟨hp, rfl, rfl⟩
      · right
        rw [if_neg hp] at h
        exact ⟨by omega, h⟩
  · intro htry
    simp only [nega_max_null, htry] at h
    have h2 : nega_max_moves E rec c s tr ctx depth alpha beta og_alpha slot pm = some out := by
      simpa using h
    refine ⟨h2, ?_⟩
    exact nega_max_moves_trace E rec c s tr ctx depth alpha beta og_alpha slot pm out h2
      Event.not_toggle (fun _ => trivial) (fun _ _ => trivial) (fun _ => trivial)
      (fun _ _ _ => trivial) (fun _ => trivial) trivial

theorem nullPruneOut_eq :
    nega_max_null stalemateGame.ext (nega_max stalemateGame.ext 1) Color.White Toy.init
      [] Toy.ctx0 1 (-10) (-5) (-10) 0 Move.null = some nullPruneOut := by
  have h : (nega_max_null stalemateGame.ext (nega_max stalemateGame.ext 1) Color.White
      Toy.init [] Toy.ctx0 1 (-10) (-5) (-10) 0 Move.null).isSome = true := by decide
  unfold nullPruneOut
  cases hm : nega_max_null stalemateGame.ext (nega_max stalemateGame.ext 1) Color.White
      Toy.init [] Toy.ctx0 1 (-10) (-5) (-10) 0 Move.null with
  | none => rw [hm] at h; exact absurd h (by simp)
  | some out => rfl

theorem null_move_search_witness :
    ((1 : Nat) < 65536 ∧
      nega_max_null stalemateGame.ext (nega_max stalemateGame.ext 1) Color.White Toy.init
        [] Toy.ctx0 1 (-10) (-5) (-10) 0 Move.null = some nullPruneOut) ∧
    ((try_null_move stalemateGame.ext Color.White Toy.init.board 1 (-5) = true ↔
      (stalemateGame.ext.get_bitboard Toy.init.board Color.White.ALL ≠
          (stalemateGame.ext.get_bitboard Toy.init.board Color.White.PAWN ||| stalemateGame.ext.get_bitboard Toy.init.board Color.White.KING) ∧
        stalemateGame.ext.get_checks Color.White Toy.init.board = 0 ∧
        wrapI16 ((if Color.White = .White then 1 else -1) * stalemateGame.ext.pestos Toy.init.board) > (-5) ∧
        1 ≥ stalemateGame.ext.NULL_DEPTH_REDUCTION)) ∧
    (try_null_move stalemateGame.ext Color.White Toy.init.board 1 (-5) = true →
      ∃ null_best s1,
        (nega_max stalemateGame.ext 1) Color.White.opponent Toy.init { stalemateGame.ext.toggle_hash_turn Toy.ctx0 with en_passant := 0 }
          (1 - stalemateGame.ext.NULL_DEPTH_REDUCTION) (negI16 (-5)) (negI16 (-10))
            = some (null_best, s1) ∧
        ((negI16 null_best.score ≥ (-5) ∧ nullPruneOut.result = ⟨Move.null, (-5)⟩ ∧
            nullPruneOut.trace = [] ++ [.toggle_hash_turn Toy.ctx0,
              .search Color.White.opponent { stalemateGame.ext.toggle_hash_turn Toy.ctx0 with en_passant := 0 }
                (1 - stalemateGame.ext.NULL_DEPTH_REDUCTION) (negI16 (-5)) (negI16 (-10)) null_best,
              .toggle_hash_turn { stalemateGame.ext.toggle_hash_turn Toy.ctx0 with en_passant := 0 }]) ∨
          (negI16 null_best.score < (-5) ∧
            nega_max_moves stalemateGame.ext (nega_max stalemateGame.ext 1) Color.White s1 ([] ++ [.toggle_hash_turn Toy.ctx0,
              .search Color.White.opponent { stalemateGame.ext.toggle_hash_turn Toy.ctx0 with en_passant := 0 }
                (1 - stalemateGame.ext.NULL_DEPTH_REDUCTION) (negI16 (-5)) (negI16 (-10)) null_best,
              .toggle_hash_turn { stalemateGame.ext.toggle_hash_turn Toy.ctx0 with en_passant := 0 }])
              Toy.ctx0 1 (-10) (-5) (-10) 0 Move.null = some nullPruneOut))) ∧
    (try_null_move stalemateGame.ext Color.White Toy.init.board 1 (-5) = false →
      nega_max_moves stalemateGame.ext (nega_max stalemateGame.ext 1) Color.White Toy.init [] Toy.ctx0 1 (-10) (-5) (-10) 0 Move.null = some nullPruneOut ∧
      ∃ rest, nullPruneOut.trace = [] ++ rest ∧ ∀ e ∈ rest, e.not_toggle)) :=
  ⟨⟨by decide, nullPruneOut_eq⟩,
    null_move_search stalemateGame.ext (nega_max stalemateGame.ext 1) Color.White Toy.init
      [] Toy.ctx0 1 (-10) (-5) (-10) 0 Move.null nullPruneOut (by decide) nullPruneOut_eq⟩

/-- C18: in a returning `nega_max` call whose null-move step (lines 52-82) is taken, the
record gains exactly the hash toggle of the caller's context (made on the copy), the
reduced-depth search on the toggled copy with en passant cleared, and the hash toggle of
that copy; nothing after these is a hash toggle, and whatever follows (move generation,
move applications, the transposition write-back) is made on the context of entry and under
its hash: the rest of the call is what lines 84-141 return on that same context. When the
step is not taken, the rest of the call is what lines 84-141 return on the same context,
again without a hash toggle. -/
theorem null_move_context {B G : Type} (E : Ext B G) (rec : SearchFn B G) (c : Color)
    (s : State B G) (tr : List Event) (ctx : Context) (depth : Nat)
    (alpha beta og_alpha : Int) (slot : Nat) (pm : Move) (out : Out B G)
    (h : nega_max_null E rec c s tr ctx depth alpha beta og_alpha slot pm = some out) :
    (try_null_move E c s.board depth beta = true →
      ∃ null_best s1 rest,
        rec c.opponent s { E.toggle_hash_turn ctx with en_passant := 0 }
          (subU16 depth E.NULL_DEPTH_REDUCTION) (negI16 beta) (negI16 alpha)
            = some (null_best, s1) ∧
        out.trace = tr ++ [.toggle_hash_turn ctx,
          .search c.opponent { E.toggle_hash_turn ctx with en_passant := 0 }
            (subU16 depth E.NULL_DEPTH_REDUCTION) (negI16 beta) (negI16 alpha) null_best,
          .toggle_hash_turn { E.toggle_hash_turn ctx with en_passant := 0 }] ++ rest ∧
        (∀ e ∈ rest, e.not_toggle ∧ e.on_context ctx) ∧
        ((rest = [] ∧ negI16 null_best.score ≥ beta) ∨
          nega_max_moves E rec c s1 (tr ++ [.toggle_hash_turn ctx,
            .search c.opponent { E.toggle_hash_turn ctx with en_passant := 0 }
              (subU16 depth E.NULL_DEPTH_REDUCTION) (negI16 beta) (negI16 alpha) null_best,
            .toggle_hash_turn { E.toggle_hash_turn ctx with en_passant := 0 }])
            ctx depth alpha beta og_alpha slot pm = some out)) ∧
    (try_null_move E c s.board depth beta = false →
      ∃ rest, out.trace = tr ++ rest ∧
        (∀ e ∈ rest, e.not_toggle ∧ e.on_context ctx) ∧
        nega_max_moves E rec c s tr ctx depth alpha beta og_alpha slot pm = some out) := by
  have hmoves : ∀ (s1 : State B G) (tr1 : List Event),
      nega_max_moves E rec c s1 tr1 ctx depth alpha beta og_alpha slot pm = some out →
      ∃ rest, out.trace = tr1 ++ rest ∧ ∀ e ∈ rest, e.not_toggle ∧ e.on_context ctx := by
    intro s1 tr1 h1
    exact nega_max_moves_trace E rec c s1 tr1 ctx depth alpha beta og_alpha slot pm out h1
      (fun e => e.not_toggle ∧ e.on_context ctx) (fun _ => ⟨trivial, rfl⟩)
      (fun _ _ => ⟨trivial, rfl⟩) (fun _ => ⟨trivial, trivial⟩)
      (fun _ _ _ => ⟨trivial, trivial⟩) (fun _ => ⟨trivial, trivial⟩) ⟨trivial, rfl⟩
  constructor
  · intro htry
    simp only [nega_max_null, htry, if_true] at h
    cases hr : rec c.opponent s { E.toggle_hash_turn ctx with en_passant := 0 }
        (subU16 depth E.NULL_DEPTH_REDUCTION) (negI16 beta) (negI16 alpha) with
    | none => simp [hr] at h
    | some r =>
      obtain ⟨null_best, s1⟩ := r
      simp only [hr] at h
      by_cases hp : negI16 null_best.score ≥ beta
      · rw [if_pos hp] at h
        simp only [Option.some.injEq] at h
        subst h
        exact ⟨null_best, s1, [], rfl, by simp, by simp, Or.inl ⟨rfl, hp⟩⟩
      · rw [if_neg hp] at h
        obtain ⟨rest, hrest, hQ⟩ := hmoves _ _ h
        exact ⟨null_best, s1, rest, rfl, hrest, hQ, Or.inr h⟩
  · intro htry
    simp only [nega_max_null, htry] at h
    have h2 : nega_max_moves E rec c s tr ctx depth alpha beta og_alpha slot pm = some out := by
      simpa using h
    obtain ⟨rest, hrest, hQ⟩ := hmoves _ _ h2
    exact ⟨rest, hrest, hQ, h2⟩

theorem nullTriedOut_eq :
    nega_max_null nullTried.ext (nega_max nullTried.ext 1) Color.White Toy.init
      [] Toy.ctx0 1 (-10) (-5) (-10) 0 Move.null = some nullTriedOut := by
  have h : (nega_max_null nullTried.ext (nega_max nullTried.ext 1) Color.White
      Toy.init [] Toy.ctx0 1 (-10) (-5) (-10) 0 Move.null).isSome = true := by decide
  unfold nullTriedOut
  cases hm : nega_max_null nullTried.ext (nega_max nullTried.ext 1) Color.White
      Toy.init [] Toy.ctx0 1 (-10) (-5) (-10) 0 Move.null with
  | none => rw [hm] at h; exact absurd h (by simp)
  | some out => rfl

/-- The record of the root call on `nullTried`: the two toggles around the null-move
search, then move generation, the first move, a cutoff and the write-back under the hash
of entry. -/
theorem nullTriedOut_trace :
    nullTriedOut.trace =
      [.toggle_hash_turn Toy.ctx0,
       .search .Black { hash := 0, turn := true, castling_rights := 0, en_passant := 0 } 0 5 10
         ⟨Move.null, 20⟩,
       .toggle_hash_turn { hash := 0, turn := true, castling_rights := 0, en_passant := 0 },
       .gen_order_moves .White Toy.ctx0 Move.null 1 [⟨1⟩, ⟨2⟩],
       .do_move .White ⟨1⟩ Toy.ctx0
         { hash := 32, turn := false, castling_rights := 0, en_passant := 0 },
       .search .Black { hash := 32, turn := false, castling_rights := 0, en_passant := 0 } 0 5 10
         ⟨Move.null, 0⟩,
       .undo_move .White ⟨1⟩,
       .add_move ⟨1⟩ 1,
       .set_cell 0 1 1 ⟨⟨1⟩, 0⟩ (-10) (-5)] := by
  decide

theorem null_move_context_witness :
    (nega_max_null nullTried.ext (nega_max nullTried.ext 1) Color.White Toy.init
        [] Toy.ctx0 1 (-10) (-5) (-10) 0 Move.null = some nullTriedOut) ∧
    ((try_null_move nullTried.ext Color.White Toy.init.board 1 (-5) = true →
      ∃ null_best s1 rest,
        (nega_max nullTried.ext 1) Color.White.opponent Toy.init { nullTried.ext.toggle_hash_turn Toy.ctx0 with en_passant := 0 }
          (subU16 1 nullTried.ext.NULL_DEPTH_REDUCTION) (negI16 (-5)) (negI16 (-10))
            = some (null_best, s1) ∧
        nullTriedOut.trace = [] ++ [.toggle_hash_turn Toy.ctx0,
          .search Color.White.opponent { nullTried.ext.toggle_hash_turn Toy.ctx0 with en_passant := 0 }
            (subU16 1 nullTried.ext.NULL_DEPTH_REDUCTION) (negI16 (-5)) (negI16 (-10)) null_best,
          .toggle_hash_turn { nullTried.ext.toggle_hash_turn Toy.ctx0 with en_passant := 0 }] ++ rest ∧
        (∀ e ∈ rest, e.not_toggle ∧ e.on_context Toy.ctx0) ∧
        ((rest = [] ∧ negI16 null_best.score ≥ (-5)) ∨
          nega_max_moves nullTried.ext (nega_max nullTried.ext 1) Color.White s1 ([] ++ [.toggle_hash_turn Toy.ctx0,
            .search Color.White.opponent { nullTried.ext.toggle_hash_turn Toy.ctx0 with en_passant := 0 }
              (subU16 1 nullTried.ext.NULL_DEPTH_REDUCTION) (negI16 (-5)) (negI16 (-10)) null_best,
            .toggle_hash_turn { nullTried.ext.toggle_hash_turn Toy.ctx0 with en_passant := 0 }])
            Toy.ctx0 1 (-10) (-5) (-10) 0 Move.null = some nullTriedOut)) ∧
    (try_null_move nullTried.ext Color.White Toy.init.board 1 (-5) = false →
      ∃ rest, nullTriedOut.trace = [] ++ rest ∧
        (∀ e ∈ rest, e.not_toggle ∧ e.on_context Toy.ctx0) ∧
        nega_max_moves nullTried.ext (nega_max nullTried.ext 1) Color.White Toy.init [] Toy.ctx0 1 (-10) (-5) (-10) 0 Move.null = some nullTriedOut)) :=
  ⟨nullTriedOut_eq,
    null_move_context nullTried.ext (nega_max nullTried.ext 1) Color.White Toy.init
      [] Toy.ctx0 1 (-10) (-5) (-10) 0 Move.null nullTriedOut nullTriedOut_eq⟩

/-- Lines 52-141 of `nega_max` only add to the record: the events of the null-move step
(two hash toggles around a search of the opponent at `depth - NULL_DEPTH_REDUCTION`, made
only when `NULL_DEPTH_REDUCTION <= depth`) and the events of lines 84-141. -/
theorem nega_max_null_trace {B G : Type} (E : Ext B G) (rec : SearchFn B G) (c : Color)
    (s : State B G) (tr : List Event) (ctx : Context) (depth : Nat)
    (alpha beta og_alpha : Int) (slot : Nat) (pm : Move) (out : Out B G)
    (h : nega_max_null E rec c s tr ctx depth alpha beta og_alpha slot pm = some out)
    (Q : Event → Prop)
    (htog : E.NULL_DEPTH_REDUCTION ≤ depth → ∀ x, Q (.toggle_hash_turn x))
    (hnull : E.NULL_DEPTH_REDUCTION ≤ depth → ∀ r,
      Q (.search c.opponent { E.toggle_hash_turn ctx with en_passant := 0 }
        (subU16 depth E.NULL_DEPTH_REDUCTION) (negI16 beta) (negI16 alpha) r))
    (hgen : ∀ ml, Q (.gen_order_moves c ctx pm depth ml))
    (hdo : ∀ m nc, Q (.do_move c m ctx nc)) (hundo : ∀ m, Q (.undo_move c m))
    (hsearch : ∀ nc a r, Q (.search c.opponent nc (subU16 depth 1) (negI16 beta) a r))
    (hadd : ∀ m, Q (.add_move m depth))
    (hset : Q (.set_cell slot ctx.hash depth out.result og_alpha beta)) :
    ∃ rest, out.trace = tr ++ rest ∧ ∀ e ∈ rest, Q e := by
  by_cases htry : try_null_move E c s.board depth beta = true
  · have hge : E.NULL_DEPTH_REDUCTION ≤ depth := by
      simp only [try_null_move, Bool.and_eq_true, decide_eq_true_eq] at htry
      exact htry.1.1.1
    simp only [nega_max_null, htry, if_true] at h
    cases hr : rec c.opponent s { E.toggle_hash_turn ctx with en_passant := 0 }
        (subU16 depth E.NULL_DEPTH_REDUCTION) (negI16 beta) (negI16 alpha) with
    | none => simp [hr] at h
    | some r =>
      obtain ⟨null_best, s1⟩ := r
      simp only [hr] at h
      have h3 : ∀ e ∈ [Event.toggle_hash_turn ctx,
          .search c.opponent { E.toggle_hash_turn ctx with en_passant := 0 }
            (subU16 depth E.NULL_DEPTH_REDUCTION) (negI16 beta) (negI16 alpha) null_best,
          .toggle_hash_turn { E.toggle_hash_turn ctx with en_passant := 0 }], Q e := by
        intro e he
        simp only [List.mem_cons, List.mem_singleton, List.not_mem_nil, or_false] at he
        rcases he with he | he | he
        · subst he; exact htog hge _
        · subst he; exact hnull hge _
        · subst he; exact htog hge _
      by_cases hp : negI16 null_best.score ≥ beta
      · rw [if_pos hp] at h
        simp only [Option.some.injEq] at h
        subst h
        exact ⟨_, rfl, h3⟩
      · rw [if_neg hp] at h
        obtain ⟨rest, hrest, hQ⟩ := nega_max_moves_trace E rec c _ _ ctx depth alpha beta
          og_alpha slot pm out h Q hgen hdo hundo hsearch hadd hset
        refine ⟨[Event.toggle_hash_turn ctx,
          .search c.opponent { E.toggle_hash_turn ctx with en_passant := 0 }
            (subU16 depth E.NULL_DEPTH_REDUCTION) (negI16 beta) (negI16 alpha) null_best,
          .toggle_hash_turn { E.toggle_hash_turn ctx with en_passant := 0 }] ++ rest,
          by rw [hrest, List.append_assoc], ?_⟩
        intro e he
        rcases List.mem_append.1 he with he | he
        · exact h3 e he
        · exact hQ e he
  · have htry : try_null_move E c s.board depth beta = false := by simpa using htry
    simp only [nega_max_null, htry] at h
    have h2 : nega_max_moves E rec c s tr ctx depth alpha beta og_alpha slot pm = some out := by
      simpa using h
    exact nega_max_moves_trace E rec c _ _ ctx depth alpha beta
      og_alpha slot pm out h2 Q hgen hdo hundo hsearch hadd hset

/-- Every event in the record of a returning `nega_max` call is one of: the quiescence
call of a depth-zero leaf; the transposition probe under the call's hash and depth; a
killer record at the call's depth; a hash toggle or the search of the opponent at
`depth - NULL_DEPTH_REDUCTION` on the toggled context (only when
`NULL_DEPTH_REDUCTION <= depth`); a move generation, move application or undo on the
call's context; a search of the opponent at `depth - 1`; the write-back of the returned
result under the call's hash and depth, with the entry `alpha` and the `beta` left by the
transposition step. -/
theorem nega_max_body_trace {B G : Type} (E : Ext B G) (rec : SearchFn B G) (c : Color)
    (s : State B G) (ctx : Context) (depth : Nat) (alpha beta : Int) (out : Out B G)
    (h : nega_max_body E rec c s ctx depth alpha beta = some out)
    (Q : Event → Prop)
    (hq : depth = 0 → ∀ x, Q (.quiesce c ctx alpha beta x))
    (hget : depth ≠ 0 → Q (.get_cell ctx.hash depth (E.get_cell s.glob ctx.hash depth).hit
      (E.get_cell s.glob ctx.hash depth).cell))
    (htog : depth ≠ 0 → E.NULL_DEPTH_REDUCTION ≤ depth → ∀ x, Q (.toggle_hash_turn x))
    (hnull : depth ≠ 0 → E.NULL_DEPTH_REDUCTION ≤ depth → ∀ a b r,
      Q (.search c.opponent { E.toggle_hash_turn ctx with en_passant := 0 }
        (subU16 depth E.NULL_DEPTH_REDUCTION) a b r))
    (hgen : depth ≠ 0 → ∀ pm ml, Q (.gen_order_moves c ctx pm depth ml))
    (hdo : depth ≠ 0 → ∀ m nc, Q (.do_move c m ctx nc))
    (hundo : depth ≠ 0 → ∀ m, Q (.undo_move c m))
    (hsearch : depth ≠ 0 → ∀ nc a b r, Q (.search c.opponent nc (subU16 depth 1) a b r))
    (hadd : depth ≠ 0 → ∀ m, Q (.add_move m depth))
    (hset : depth ≠ 0 → Q (.set_cell (E.get_cell s.glob ctx.hash depth).slot ctx.hash depth
      out.result alpha
      (if ((E.get_cell s.glob ctx.hash depth).hit &&
          decide ((E.get_cell s.glob ctx.hash depth).cell.depth ≥ depth)) = true
        then min beta (E.get_cell s.glob ctx.hash depth).cell.score else beta))) :
    ∀ e ∈ out.trace, Q e := by
  simp only [nega_max_body] at h
  split at h
  · simp only [Option.some.injEq] at h
    subst h
    simp
  · split at h
    · rename_i hd
      simp only [Option.some.injEq] at h
      subst h
      intro e he
      simp only [List.mem_singleton] at he
      subst he; exact hq hd _
    · rename_i hd
      have hprobe : ∀ e ∈ [Event.get_cell ctx.hash depth
          (E.get_cell s.glob ctx.hash depth).hit (E.get_cell s.glob ctx.hash depth).cell],
          Q e := by
        intro e he
        simp only [List.mem_singleton] at he
        subst he; exact hget hd
      have hnullp : ∀ (s1 : State B G) (a b : Int) (pm : Move),
          Q (.set_cell (E.get_cell s.glob ctx.hash depth).slot ctx.hash depth
            out.result alpha b) →
          nega_max_null E rec c s1 [Event.get_cell ctx.hash depth
            (E.get_cell s.glob ctx.hash depth).hit (E.get_cell s.glob ctx.hash depth).cell]
            ctx depth a b alpha (E.get_cell s.glob ctx.hash depth).slot pm = some out →
          ∀ e ∈ out.trace, Q e := by
        intro s1 a b pm hsb h1
        obtain ⟨rest, hrest, hQ⟩ := nega_max_null_trace E rec c s1 _ ctx depth a b alpha _
          pm out h1 Q (htog hd) (fun hge r => hnull hd hge _ _ r) (hgen hd pm) (hdo hd)
          (hundo hd) (fun nc a r => hsearch hd nc _ a r) (hadd hd) hsb
        intro e he
        rw [hrest] at he
        rcases List.mem_append.1 he with he | he
        · exact hprobe e he
        · exact hQ e he
      have hcut : ∀ (s1 : State B G) (a b : Int),
          Q (.set_cell (E.get_cell s.glob ctx.hash depth).slot ctx.hash depth
            out.result alpha b) →
          nega_max_tt_cut E rec c s1 [Event.get_cell ctx.hash depth
            (E.get_cell s.glob ctx.hash depth).hit (E.get_cell s.glob ctx.hash depth).cell]
            ctx depth a b alpha (E.get_cell s.glob ctx.hash depth) = some out →
          ∀ e ∈ out.trace, Q e := by
        intro s1 a b hsb h1
        simp only [nega_max_tt_cut] at h1
        split at h1
        · simp only [Option.some.injEq] at h1
          subst h1
          intro e he
          simp only [List.cons_append, List.nil_append, List.mem_cons, List.mem_singleton,
            List.not_mem_nil, or_false] at he
          rcases he with he | he
          · subst he; exact hget hd
          · subst he; exact hadd hd _
        · exact hnullp s1 a b _ hsb h1
      split at h
      · rename_i huse
        have hset2 := hset hd
        rw [if_pos huse] at hset2
        split at h
        · simp only [Option.some.injEq] at h
          subst h
          exact hprobe
        · exact hcut _ _ _ hset2 h
        · exact hcut _ _ _ hset2 h
      · rename_i huse
        have hset2 := hset hd
        rw [if_neg huse] at hset2
        exact hnullp _ _ _ _ hset2 h

/-- Every event in the record of a returning `nega_scout` call is one of: the
transposition probe under the call's hash and depth; the quiescence call of a depth-zero
leaf; a move generation, move application or undo on the call's context; a search of the
opponent at `depth - 1`; the write-back of the returned result under the call's hash and
depth. No killer is recorded and no hash is toggled. -/
theorem nega_scout_body_trace {B G : Type} (E : Ext B G) (rec : SearchFn B G) (c : Color)
    (s : State B G) (ctx : Context) (depth : Nat) (alpha beta : Int) (out : Out B G)
    (h : nega_scout_body E rec c s ctx depth alpha beta = some out)
    (Q : Event → Prop)
    (hget : Q (.get_cell ctx.hash depth (E.get_cell s.glob ctx.hash depth).hit
      (E.get_cell s.glob ctx.hash depth).cell))
    (hq : depth = 0 → ∀ a b x, Q (.quiesce c ctx a b x))
    (hgen : depth ≠ 0 → ∀ pm ml, Q (.gen_moves c ctx pm depth ml))
    (hdo : depth ≠ 0 → ∀ m nc, Q (.do_move c m ctx nc))
    (hundo : depth ≠ 0 → ∀ m, Q (.undo_move c m))
    (hsearch : depth ≠ 0 → ∀ nc a b r, Q (.search c.opponent nc (subU16 depth 1) a b r))
    (hset : depth ≠ 0 → ∀ a b, Q (.set_cell (E.get_cell s.glob ctx.hash depth).slot ctx.hash
      depth out.result a b)) :
    ∀ e ∈ out.trace, Q e := by
  have hprobe : ∀ e ∈ [Event.get_cell ctx.hash depth
      (E.get_cell s.glob ctx.hash depth).hit (E.get_cell s.glob ctx.hash depth).cell],
      Q e := by
    intro e he
    simp only [List.mem_singleton] at he
    subst he; exact hget
  have hmoves : ∀ (s1 : State B G) (a b oa ob : Int) (pm : Move),
      nega_scout_moves E rec c s1 [Event.get_cell ctx.hash depth
        (E.get_cell s.glob ctx.hash depth).hit (E.get_cell s.glob ctx.hash depth).cell]
        ctx depth a b oa ob (E.get_cell s.glob ctx.hash depth).slot pm = some out →
      ∀ e ∈ out.trace, Q e := by
    intro s1 a b oa ob pm h1
    obtain ⟨rest, hrest, hQ⟩ := nega_scout_moves_trace E rec c s1 _ ctx depth a b oa ob _
      pm out h1 Q (fun hd x => hq hd _ _ x) (fun hd => hgen hd pm) hdo hundo hsearch hset
    intro e he
    rw [hrest] at he
    rcases List.mem_append.1 he with he | he
    · exact hprobe e he
    · exact hQ e he
  have hcut : ∀ (s1 : State B G) (a b oa ob : Int),
      nega_scout_tt_cut E rec c s1 [Event.get_cell ctx.hash depth
        (E.get_cell s.glob ctx.hash depth).hit (E.get_cell s.glob ctx.hash depth).cell]
        ctx depth a b oa ob (E.get_cell s.glob ctx.hash depth) = some out →
      ∀ e ∈ out.trace, Q e := by
    intro s1 a b oa ob h1
    simp only [nega_scout_tt_cut] at h1
    split at h1
    · simp only [Option.some.injEq] at h1
      subst h1
      exact hprobe
    · exact hmoves s1 a b oa ob _ h1
  simp only [nega_scout_body] at h
  split at h
  · simp only [Option.some.injEq] at h
    subst h
    simp
  · split at h
    · split at h
      · simp only [Option.some.injEq] at h
        subst h
        exact hprobe
      · exact hcut _ _ _ _ _ h
      · exact hcut _ _ _ _ _ h
    · exact hmoves _ _ _ _ _ _ h

/-! ### Depth of the recursive calls -/

/-- C19: with a null-move reduction of at least 1 and a depth that is a `U16`, every
recursive search made by a returning call of `nega_max` has a strictly smaller depth that
did not wrap: it is `depth - 1` with `depth >= 1`, or `depth - NULL_DEPTH_REDUCTION` with
`depth >= NULL_DEPTH_REDUCTION`; every recursive search made by a returning call of
`nega_scout` has depth `depth - 1` with `depth >= 1`; and both searches return for every
depth, window, state and table contents, whatever the (finite) move lists and the values
returned by quiescence, once the bound on the nesting of calls exceeds the depth. -/
theorem recursive_depth_decreases {B G : Type} (E : Ext B G)
    (hR : 1 ≤ E.NULL_DEPTH_REDUCTION) :
    (∀ (rec : SearchFn B G) c s ctx depth alpha beta out, depth < 65536 →
      nega_max_body E rec c s ctx depth alpha beta = some out →
      ∀ c1 ctx1 d a b r, Event.search c1 ctx1 d a b r ∈ out.trace →
        d < depth ∧
        ((1 ≤ depth ∧ d = depth - 1) ∨
          (E.NULL_DEPTH_REDUCTION ≤ depth ∧ d = depth - E.NULL_DEPTH_REDUCTION))) ∧
    (∀ (rec : SearchFn B G) c s ctx depth alpha beta out, depth < 65536 →
      nega_scout_body E rec c s ctx depth alpha beta = some out →
      ∀ c1 ctx1 d a b r, Event.search c1 ctx1 d a b r ∈ out.trace →
        d < depth ∧ 1 ≤ depth ∧ d = depth - 1) ∧
    (∀ fuel depth, depth < fuel → depth < 65536 →
      ∀ c s ctx alpha beta, (nega_max E fuel c s ctx depth alpha beta).isSome = true) ∧
    (∀ fuel depth, depth < fuel → depth < 65536 →
      ∀ c s ctx alpha beta, (nega_scout E fuel c s ctx depth alpha beta).isSome = true) := by
  refine ⟨?_, ?_, nega_max_isSome E hR, nega_scout_isSome E⟩
  · intro rec c s ctx depth alpha beta out hdepth h c1 ctx1 d a b r he
    have hone : depth ≠ 0 → subU16 depth 1 < depth ∧
        ((1 ≤ depth ∧ subU16 depth 1 = depth - 1) ∨
          (E.NULL_DEPTH_REDUCTION ≤ depth ∧
            subU16 depth 1 = depth - E.NULL_DEPTH_REDUCTION)) := by
      intro hd
      have h1 : 1 ≤ depth := Nat.one_le_iff_ne_zero.2 hd
      exact ⟨subU16_one_lt depth hd hdepth, Or.inl ⟨h1, subU16_eq_sub depth 1 h1 hdepth⟩⟩
    have hred : E.NULL_DEPTH_REDUCTION ≤ depth →
        subU16 depth E.NULL_DEPTH_REDUCTION < depth ∧
        ((1 ≤ depth ∧ subU16 depth E.NULL_DEPTH_REDUCTION = depth - 1) ∨
          (E.NULL_DEPTH_REDUCTION ≤ depth ∧
            subU16 depth E.NULL_DEPTH_REDUCTION = depth - E.NULL_DEPTH_REDUCTION)) := by
      intro hge
      exact ⟨subU16_lt depth _ hR hge hdepth,
        Or.inr ⟨hge, subU16_eq_sub depth _ hge hdepth⟩⟩
    have hall := nega_max_body_trace E rec c s ctx depth alpha beta out h
      (fun e => ∀ c1 ctx1 d a b r, e = Event.search c1 ctx1 d a b r →
        d < depth ∧
        ((1 ≤ depth ∧ d = depth - 1) ∨
          (E.NULL_DEPTH_REDUCTION ≤ depth ∧ d = depth - E.NULL_DEPTH_REDUCTION)))
      (fun _ _ _ _ _ _ _ _ he => by cases he)
      (fun _ _ _ _ _ _ _ he => by cases he)
      (fun _ _ _ _ _ _ _ _ _ he => by cases he)
      (fun _ hge _ _ _ _ _ _ _ _ _ he => by cases he; exact hred hge)
      (fun _ _ _ _ _ _ _ _ _ he => by cases he)
      (fun _ _ _ _ _ _ _ _ _ he => by cases he)
      (fun _ _ _ _ _ _ _ _ he => by cases he)
      (fun hd _ _ _ _ _ _ _ _ _ _ he => by cases he; exact hone hd)
      (fun _ _ _ _ _ _ _ _ he => by cases he)
      (fun _ _ _ _ _ _ _ he => by cases he)
    exact hall _ he c1 ctx1 d a b r rfl
  · intro rec c s ctx depth alpha beta out hdepth h c1 ctx1 d a b r he
    have hall := nega_scout_body_trace E rec c s ctx depth alpha beta out h
      (fun e => ∀ c1 ctx1 d a b r, e = Event.search c1 ctx1 d a b r →
        d < depth ∧ 1 ≤ depth ∧ d = depth - 1)
      (fun _ _ _ _ _ _ he => by cases he)
      (fun _ _ _ _ _ _ _ _ _ _ he => by cases he)
      (fun _ _ _ _ _ _ _ _ _ he => by cases he)
      (fun _ _ _ _ _ _ _ _ _ he => by cases he)
      (fun _ _ _ _ _ _ _ _ he => by cases he)
      (fun hd _ _ _ _ _ _ _ _ _ _ he => by
        cases he
        have h1 : 1 ≤ depth := Nat.one_le_iff_ne_zero.2 hd
        exact ⟨subU16_one_lt depth hd hdepth, h1, subU16_eq_sub depth 1 h1 hdepth⟩)
      (fun _ _ _ _ _ _ _ _ _ he => by cases he)
    exact hall _ he c1 ctx1 d a b r rfl

theorem recursive_depth_decreases_witness :
    1 ≤ twoPly.ext.NULL_DEPTH_REDUCTION ∧
    ((∀ (rec : SearchFn (List Nat) ToyGlob) c s ctx depth alpha beta out, depth < 65536 →
      nega_max_body twoPly.ext rec c s ctx depth alpha beta = some out →
      ∀ c1 ctx1 d a b r, Event.search c1 ctx1 d a b r ∈ out.trace →
        d < depth ∧
        ((1 ≤ depth ∧ d = depth - 1) ∨
          (twoPly.ext.NULL_DEPTH_REDUCTION ≤ depth ∧ d = depth - twoPly.ext.NULL_DEPTH_REDUCTION))) ∧
    (∀ (rec : SearchFn (List Nat) ToyGlob) c s ctx depth alpha beta out, depth < 65536 →
      nega_scout_body twoPly.ext rec c s ctx depth alpha beta = some out →
      ∀ c1 ctx1 d a b r, Event.search c1 ctx1 d a b r ∈ out.trace →
        d < depth ∧ 1 ≤ depth ∧ d = depth - 1) ∧
    (∀ fuel depth, depth < fuel → depth < 65536 →
      ∀ c s ctx alpha beta, (nega_max twoPly.ext fuel c s ctx depth alpha beta).isSome = true) ∧
    (∀ fuel depth, depth < fuel → depth < 65536 →
      ∀ c s ctx alpha beta, (nega_scout twoPly.ext fuel c s ctx depth alpha beta).isSome = true)) :=
  ⟨by decide, recursive_depth_decreases twoPly.ext (by decide)⟩

/-! ### The transposition step -/

/-- On a usable `LOWER` cell the `switch` runs the `LOWER` case and then, there being no
`break`, the `UPPER` case: the window becomes
`(max alpha score, min beta score)`, which is always empty, so that both searches return
the stored move and score at once whatever the window they were called with (`nega_max`
after recording the stored move as a killer). -/
theorem lower_hit_returns_cell {B G : Type} (E : Ext B G) (rec : SearchFn B G) (c : Color)
    (s : State B G) (ctx : Context) (depth : Nat) (alpha beta : Int)
    (hdraw : E.is_draw s.glob = false) (hd : depth ≠ 0)
    (hhit : (E.get_cell s.glob ctx.hash depth).hit = true)
    (hdep : (E.get_cell s.glob ctx.hash depth).cell.depth ≥ depth)
    (hlow : (E.get_cell s.glob ctx.hash depth).cell.node_type = .LOWER) :
    (nega_max_body E rec c s ctx depth alpha beta).map (fun o => (o.result, o.trace))
      = some (⟨(E.get_cell s.glob ctx.hash depth).cell.move,
          (E.get_cell s.glob ctx.hash depth).cell.score⟩,
        [.get_cell ctx.hash depth true (E.get_cell s.glob ctx.hash depth).cell,
         .add_move (E.get_cell s.glob ctx.hash depth).cell.move depth]) ∧
    (nega_scout_body E rec c s ctx depth alpha beta).map (fun o => (o.result, o.trace))
      = some (⟨(E.get_cell s.glob ctx.hash depth).cell.move,
          (E.get_cell s.glob ctx.hash depth).cell.score⟩,
        [.get_cell ctx.hash depth true (E.get_cell s.glob ctx.hash depth).cell]) := by
  have hempty : max alpha (E.get_cell s.glob ctx.hash depth).cell.score ≥
      min beta (E.get_cell s.glob ctx.hash depth).cell.score := by omega
  constructor
  · simp only [nega_max_body, hdraw, hd, hhit, hdep, hlow, nega_max_tt_cut, hempty]
    simp
  · simp only [nega_scout_body, hdraw, hhit, hdep, hlow, nega_scout_tt_cut, hempty]
    simp

/-- C12 (the code departs from the claim): at the root of `lowerHit`, not drawn, searched
to depth 1 on the window `(-100, 100)`, the probe hits a `LOWER` cell of depth 5 with
score 10. The claim has alpha raised to 10, beta left at 100 and the moves searched on
`(10, 100)`. Both searches instead return the stored move 7 and score 10 at once: their
records hold the probe (and, in `nega_max`, the killer record) and no move generation. -/
theorem lower_cell_lowers_beta :
    (nega_max_body lowerHit.ext (nega_max lowerHit.ext 1) Color.White Toy.init Toy.ctx0 1
        (-100) 100).map (fun o => (o.result, o.trace))
      = some (⟨⟨7⟩, 10⟩,
        [.get_cell 1 1 true ⟨5, .LOWER, ⟨7⟩, 10⟩, .add_move ⟨7⟩ 1]) ∧
    (nega_scout_body lowerHit.ext (nega_scout lowerHit.ext 1) Color.White Toy.init Toy.ctx0 1
        (-100) 100).map (fun o => (o.result, o.trace))
      = some (⟨⟨7⟩, 10⟩, [.get_cell 1 1 true ⟨5, .LOWER, ⟨7⟩, 10⟩]) := by
  constructor
  · decide
  · decide

/-! ### The re-search of `nega_scout` -/

/-- The best move and score, the running bound and the count after a legal move has been
searched in the `nega_scout` loop are functions of the first search's score alone: they
are the same whether or not the move was searched a second time, and whatever the second
search returned. -/
theorem nega_scout_step_uses_first_score {B G : Type} (E : Ext B G) (rec : SearchFn B G)
    (c : Color) (ctx : Context) (depth : Nat) (alpha og_beta : Int) (move : Move) (i : Nat)
    (L : ScoutLoop B G) (stop : Bool) (L1 : ScoutLoop B G)
    (hlegal : E.get_checks c (E.do_move c L.state move ctx).2.board = 0)
    (h : nega_scout_step E rec c ctx depth alpha og_beta move i L = some (stop, L1)) :
    ∃ local_best s2,
      rec c.opponent (E.do_move c L.state move ctx).2 (E.do_move c L.state move ctx).1
        (subU16 depth 1) (negI16 L.beta) (negI16 L.og_alpha) = some (local_best, s2) ∧
      L1.best = (if L.best.move.raw = 0 ∨ negI16 local_best.score > L.best.score
        then ⟨move, negI16 local_best.score⟩ else L.best) ∧
      L1.og_alpha = max L.og_alpha L1.best.score := by
  rcases nega_scout_step_cases E rec c ctx depth alpha og_beta move i L stop L1 h with
    ⟨hc, _, _⟩ | ⟨_, lb, s2, s3, tr2, hr, _, hbest, hog, _⟩
  · exact absurd hlegal hc
  · exact ⟨lb, s2, hr, hbest, hog⟩

/-- C13 (the code departs from the claim): at the root of `scoutGame` with a fail-hard
quiescence, `nega_scout` to depth 1 on the window `(-100, 100)` searches move 1 (score 0),
then probes move 2 on the narrow window and gets the negated score 1, which is inside
`(-100, 100)`, so it searches move 2 again on the full window and gets -50, negated 50.
The claim has 50 compared with the best so far and used to raise alpha. The call returns
move 2 with the score 1 of the probe and writes back the bounds 1 and 2: the `MoveScore`
of the second search is a new variable of the inner block and is dropped. -/
theorem research_score_dropped :
    (nega_scout_body scoutGame.hard (nega_scout scoutGame.hard 1) Color.White Toy.init
        Toy.ctx0 1 (-100) 100).map (fun o => (o.result, o.trace))
      = some (⟨⟨2⟩, 1⟩,
        [.get_cell 1 1 false ⟨0, .UPPER, ⟨0⟩, 0⟩,
         .gen_moves .White Toy.ctx0 ⟨0⟩ 1 [⟨1⟩, ⟨2⟩],
         .do_move .White ⟨1⟩ Toy.ctx0
           { hash := 32, turn := false, castling_rights := 0, en_passant := 0 },
         .search .Black { hash := 32, turn := false, castling_rights := 0, en_passant := 0 }
           0 (-100) 100 ⟨⟨0⟩, 0⟩,
         .undo_move .White ⟨1⟩,
         .do_move .White ⟨2⟩ Toy.ctx0
           { hash := 33, turn := false, castling_rights := 0, en_passant := 0 },
         .search .Black { hash := 33, turn := false, castling_rights := 0, en_passant := 0 }
           0 (-1) 0 ⟨⟨0⟩, -1⟩,
         .search .Black { hash := 33, turn := false, castling_rights := 0, en_passant := 0 }
           0 (-100) 0 ⟨⟨0⟩, -50⟩,
         .undo_move .White ⟨2⟩,
         .set_cell 0 1 1 ⟨⟨2⟩, 1⟩ 1 2]) := by
  decide!

/-- C15: every transposition write-back in the record of a returning `nega_max` call is
made on the probed cell, under the hash of the call's context and the call's depth, with
the returned move and score, the `alpha` the call was entered with, and the `beta` left
by the transposition step: `min beta score` when the probe gave a usable cell, the entry
`beta` otherwise. Every write-back in the record of a returning `nega_scout` call is made
on the probed cell, under the hash of the call's context and the call's depth, with the
returned move and score. -/
theorem write_back_arguments {B G : Type} (E : Ext B G) (rec : SearchFn B G) (c : Color)
    (s : State B G) (ctx : Context) (depth : Nat) (alpha beta : Int) :
    (∀ out, nega_max_body E rec c s ctx depth alpha beta = some out →
      ∀ sl h d b a1 b1, Event.set_cell sl h d b a1 b1 ∈ out.trace →
        sl = (E.get_cell s.glob ctx.hash depth).slot ∧ h = ctx.hash ∧ d = depth ∧
        b = out.result ∧ a1 = alpha ∧
        b1 = (if ((E.get_cell s.glob ctx.hash depth).hit &&
            decide ((E.get_cell s.glob ctx.hash depth).cell.depth ≥ depth)) = true
          then min beta (E.get_cell s.glob ctx.hash depth).cell.score else beta)) ∧
    (∀ out, nega_scout_body E rec c s ctx depth alpha beta = some out →
      ∀ sl h d b a1 b1, Event.set_cell sl h d b a1 b1 ∈ out.trace →
        sl = (E.get_cell s.glob ctx.hash depth).slot ∧ h = ctx.hash ∧ d = depth ∧
        b = out.result) := by
  constructor
  · intro out h sl hh d b a1 b1 he
    have hall := nega_max_body_trace E rec c s ctx depth alpha beta out h
      (fun e => ∀ sl hh d b a1 b1, e = Event.set_cell sl hh d b a1 b1 →
        sl = (E.get_cell s.glob ctx.hash depth).slot ∧ hh = ctx.hash ∧ d = depth ∧
        b = out.result ∧ a1 = alpha ∧
        b1 = (if ((E.get_cell s.glob ctx.hash depth).hit &&
            decide ((E.get_cell s.glob ctx.hash depth).cell.depth ≥ depth)) = true
          then min beta (E.get_cell s.glob ctx.hash depth).cell.score else beta))
      (fun _ _ _ _ _ _ _ _ he => by cases he)
      (fun _ _ _ _ _ _ _ he => by cases he)
      (fun _ _ _ _ _ _ _ _ _ he => by cases he)
      (fun _ _ _ _ _ _ _ _ _ _ _ he => by cases he)
      (fun _ _ _ _ _ _ _ _ _ he => by cases he)
      (fun _ _ _ _ _ _ _ _ _ he => by cases he)
      (fun _ _ _ _ _ _ _ _ he => by cases he)
      (fun _ _ _ _ _ _ _ _ _ _ _ he => by cases he)
      (fun _ _ _ _ _ _ _ _ he => by cases he)
      (fun _ _ _ _ _ _ _ he => by cases he; exact ⟨rfl, rfl, rfl, rfl, rfl, rfl⟩)
    exact hall _ he sl hh d b a1 b1 rfl
  · intro out h sl hh d b a1 b1 he
    have hall := nega_scout_body_trace E rec c s ctx depth alpha beta out h
      (fun e => ∀ sl hh d b a1 b1, e = Event.set_cell sl hh d b a1 b1 →
        sl = (E.get_cell s.glob ctx.hash depth).slot ∧ hh = ctx.hash ∧ d = depth ∧
        b = out.result)
      (fun _ _ _ _ _ _ he => by cases he)
      (fun _ _ _ _ _ _ _ _ _ _ he => by cases he)
      (fun _ _ _ _ _ _ _ _ _ he => by cases he)
      (fun _ _ _ _ _ _ _ _ _ he => by cases he)
      (fun _ _ _ _ _ _ _ _ he => by cases he)
      (fun _ _ _ _ _ _ _ _ _ _ _ he => by cases he)
      (fun _ _ _ _ _ _ _ _ _ he => by cases he; exact ⟨rfl, rfl, rfl, rfl⟩)
    exact hall _ he sl hh d b a1 b1 rfl

theorem upperHitOut_eq :
    nega_max_body upperHit.ext (nega_max upperHit.ext 1) Color.White Toy.init Toy.ctx0
      1 (-100) 100 = some upperHitOut := by
  have h : (nega_max_body upperHit.ext (nega_max upperHit.ext 1) Color.White Toy.init
      Toy.ctx0 1 (-100) 100).isSome = true := by decide
  unfold upperHitOut
  cases hm : nega_max_body upperHit.ext (nega_max upperHit.ext 1) Color.White Toy.init
      Toy.ctx0 1 (-100) 100 with
  | none => rw [hm] at h; exact absurd h (by simp)
  | some out => rfl

theorem write_back_arguments_witness :
    (nega_max_body upperHit.ext (nega_max upperHit.ext 1) Color.White Toy.init Toy.ctx0
        1 (-100) 100 = some upperHitOut ∧
      Event.set_cell 3 1 1 ⟨⟨1⟩, 0⟩ (-100) 5 ∈ upperHitOut.trace) ∧
    (3 = (upperHit.ext.get_cell Toy.init.glob Toy.ctx0.hash 1).slot ∧ 1 = Toy.ctx0.hash ∧
      1 = 1 ∧ (⟨⟨1⟩, 0⟩ : MoveScore) = upperHitOut.result ∧ (-100 : Int) = (-100) ∧
      (5 : Int) = (if ((upperHit.ext.get_cell Toy.init.glob Toy.ctx0.hash 1).hit &&
          decide ((upperHit.ext.get_cell Toy.init.glob Toy.ctx0.hash 1).cell.depth ≥ 1)) = true
        then min 100 (upperHit.ext.get_cell Toy.init.glob Toy.ctx0.hash 1).cell.score
        else 100)) :=
  ⟨⟨upperHitOut_eq, by decide⟩,
    (write_back_arguments upperHit.ext (nega_max upperHit.ext 1) Color.White Toy.init
      Toy.ctx0 1 (-100) 100).1 upperHitOut upperHitOut_eq 3 1 1 ⟨⟨1⟩, 0⟩ (-100) 5
      (by decide)⟩

/-- C15 (what fails in the claim as worded): at the root of `upperHit`, `nega_max` to
depth 1 entered on the window `(-100, 100)` ends with a write-back with the bounds -100
and 5, the upper bound lowered by the transposition step; at the root of `scoutGame`,
`nega_scout` to depth 1 entered on the window `(-100, 100)` ends with a write-back with
the bounds 1 and 2 left by the move loop. -/
theorem write_back_not_entry_window :
    (nega_max_body upperHit.ext (nega_max upperHit.ext 1) Color.White Toy.init Toy.ctx0
        1 (-100) 100).map (fun o => o.trace.getLast?)
      = some (some (.set_cell 3 1 1 ⟨⟨1⟩, 0⟩ (-100) 5)) ∧
    (nega_scout_body scoutGame.hard (nega_scout scoutGame.hard 1) Color.White Toy.init
        Toy.ctx0 1 (-100) 100).map (fun o => o.trace.getLast?)
      = some (some (.set_cell 0 1 1 ⟨⟨2⟩, 1⟩ 1 2)) := by
  decide!

/-! ### Cutoffs and killer moves -/

/-- C16: in `nega_max`, an empty window after the transposition step makes the call return
the stored move and score after recording the stored move as a killer at the call's depth;
after a legal move has been searched the loop stops exactly when the raised `alpha` is at
least `beta`, and it then has recorded the move just searched as a killer at the call's
depth, as the last thing it did, and returns without looking at the remaining moves. In
`nega_scout`, an empty window after the transposition step makes the call return the stored
move and score with the state unchanged; after a legal move has been searched the loop
stops exactly when the raised bound is at least the entry beta, and returns without
looking at the remaining moves; and the record of a returning call holds no killer
record. -/
theorem cutoff_records_killer {B G : Type} (E : Ext B G) (rec : SearchFn B G) (c : Color)
    (ctx : Context) (depth : Nat) :
    (∀ (s : State B G) tr (alpha beta og_alpha : Int) p, alpha ≥ beta →
      nega_max_tt_cut E rec c s tr ctx depth alpha beta og_alpha p =
        some { result := ⟨p.cell.move, p.cell.score⟩
               state := { s with glob := E.add_move s.glob p.cell.move depth
                                 leaves := s.leaves + 1 }
               trace := tr ++ [.add_move p.cell.move depth] }) ∧
    (∀ beta move (L : Loop B G) stop L1,
      E.get_checks c (E.do_move c L.state move ctx).2.board = 0 →
      nega_max_step E rec c ctx depth beta move L = some (stop, L1) →
      (stop = true ↔ L1.alpha ≥ beta) ∧
      (L1.alpha ≥ beta →
        ∃ local_best s2,
          rec c.opponent (E.do_move c L.state move ctx).2 (E.do_move c L.state move ctx).1
            (subU16 depth 1) (negI16 beta) (negI16 L.alpha) = some (local_best, s2) ∧
          L1.trace = L.trace ++ [.do_move c move ctx (E.do_move c L.state move ctx).1,
            .search c.opponent (E.do_move c L.state move ctx).1 (subU16 depth 1)
              (negI16 beta) (negI16 L.alpha) local_best,
            .undo_move c move,
            .add_move move depth] ∧
          L1.state.glob = E.add_move (E.undo_move c s2 move).glob move depth) ∧
      (stop = true → ∀ ml, nega_max_loop E rec c ctx depth beta (move :: ml) L = some L1)) ∧
    (∀ (s : State B G) tr (alpha beta og_alpha og_beta : Int) p, alpha ≥ beta →
      nega_scout_tt_cut E rec c s tr ctx depth alpha beta og_alpha og_beta p =
        some { result := ⟨p.cell.move, p.cell.score⟩, state := s, trace := tr }) ∧
    (∀ alpha og_beta move i (L : ScoutLoop B G) stop L1,
      E.get_checks c (E.do_move c L.state move ctx).2.board = 0 →
      nega_scout_step E rec c ctx depth alpha og_beta move i L = some (stop, L1) →
      (stop = true ↔ L1.og_alpha ≥ og_beta) ∧
      (stop = true →
        ∀ ml, nega_scout_loop E rec c ctx depth alpha og_beta (move :: ml) i L = some L1)) ∧
    (∀ s alpha beta out, nega_scout_body E rec c s ctx depth alpha beta = some out →
      ∀ m d, Event.add_move m d ∉ out.trace) := by
  refine ⟨?_, ?_, ?_, ?_, ?_⟩
  · intro s tr alpha beta og_alpha p hab
    simp only [nega_max_tt_cut, if_pos hab]
  · intro beta move L stop L1 hlegal h
    rcases nega_max_step_cases E rec c ctx depth beta move L stop L1 h with
      ⟨hc, _, _⟩ | ⟨_, lb, s2, hr, _, _, _, hstop, _, hglob, htrace⟩
    · exact absurd hlegal hc
    · refine ⟨by rw [hstop]; simp, ?_, ?_⟩
      · intro hcut
        rw [if_pos hcut] at hglob htrace
        exact ⟨lb, s2, hr, by rw [htrace]; simp, hglob⟩
      · intro hs ml
        subst hs
        simp only [nega_max_loop, h]
  · intro s tr alpha beta og_alpha og_beta p hab
    simp only [nega_scout_tt_cut, if_pos hab]
  · intro alpha og_beta move i L stop L1 hlegal h
    rcases nega_scout_step_cases E rec c ctx depth alpha og_beta move i L stop L1 h with
      ⟨hc, _, _⟩ | ⟨_, lb, s2, s3, tr2, _, _, _, _, _, hstop, _⟩
    · exact absurd hlegal hc
    · refine ⟨by rw [hstop]; simp, ?_⟩
      intro hs ml
      subst hs
      simp only [nega_scout_loop, h]
  · intro s alpha beta out h m d he
    have hall := nega_scout_body_trace E rec c s ctx depth alpha beta out h
      (fun e => ∀ m d, e ≠ Event.add_move m d)
      (fun _ _ he => by cases he)
      (fun _ _ _ _ _ _ he => by cases he)
      (fun _ _ _ _ _ he => by cases he)
      (fun _ _ _ _ _ he => by cases he)
      (fun _ _ _ _ he => by cases he)
      (fun _ _ _ _ _ _ _ he => by cases he)
      (fun _ _ _ _ _ he => by cases he)
    exact hall _ he m d rfl

theorem cutoff_records_killer_witness :
    ((10 : Int) ≥ 10) ∧
    nega_max_tt_cut lowerHit.ext (nega_max lowerHit.ext 1) Color.White Toy.init
        [.get_cell 1 1 true ⟨5, .LOWER, ⟨7⟩, 10⟩] Toy.ctx0 1 10 10 (-100)
        ⟨true, 3, ⟨5, .LOWER, ⟨7⟩, 10⟩⟩ =
      some { result := ⟨⟨7⟩, 10⟩
             state := { Toy.init with
               glob := lowerHit.ext.add_move Toy.init.glob ⟨7⟩ 1
               leaves := Toy.init.leaves + 1 }
             trace := [.get_cell 1 1 true ⟨5, .LOWER, ⟨7⟩, 10⟩] ++ [.add_move ⟨7⟩ 1] } :=
  ⟨by decide,
    (cutoff_records_killer lowerHit.ext (nega_max lowerHit.ext 1) Color.White Toy.ctx0 1).1
      Toy.init [.get_cell 1 1 true ⟨5, .LOWER, ⟨7⟩, 10⟩] 10 10 (-100)
      ⟨true, 3, ⟨5, .LOWER, ⟨7⟩, 10⟩⟩ (by decide)⟩

/-- C16 (what fails in the claim as worded): `nega_scout` records no killer at a cutoff.
At the root of `lowerHit` to depth 1 on `(-100, 100)` the window is empty after the
transposition step and the call returns the stored move 7 with only the probe in its
record; at the root of `scoutGame` to depth 1 on `(-100, 0)` the first move reaches the
entry beta and the loop stops (move 2 is not applied) without a killer record. The killer
counter of the tables stays at 0 in both. -/
theorem scout_records_no_killer :
    (nega_scout_body lowerHit.ext (nega_scout lowerHit.ext 1) Color.White Toy.init Toy.ctx0 1
        (-100) 100).map (fun o => (o.result, o.trace, o.state.glob.killers))
      = some (⟨⟨7⟩, 10⟩, [.get_cell 1 1 true ⟨5, .LOWER, ⟨7⟩, 10⟩], 0) ∧
    (nega_scout_body scoutGame.hard (nega_scout scoutGame.hard 1) Color.White Toy.init
        Toy.ctx0 1 (-100) 0).map (fun o => (o.result, o.trace, o.state.glob.killers))
      = some (⟨⟨1⟩, 0⟩,
        [.get_cell 1 1 false ⟨0, .UPPER, ⟨0⟩, 0⟩,
         .gen_moves .White Toy.ctx0 ⟨0⟩ 1 [⟨1⟩, ⟨2⟩],
         .do_move .White ⟨1⟩ Toy.ctx0
           { hash := 32, turn := false, castling_rights := 0, en_passant := 0 },
         .search .Black { hash := 32, turn := false, castling_rights := 0, en_passant := 0 }
           0 0 100 ⟨⟨0⟩, 0⟩,
         .undo_move .White ⟨1⟩,
         .set_cell 0 1 1 ⟨⟨1⟩, 0⟩ 0 0], 0) := by
  decide!

/-! ### Reading a position -/

theorem fenSquares_append (cp : Char → Piece) (l1 l2 : List Char) :
    fenSquares cp (l1 ++ l2) = fenSquares cp l1 ++ fenSquares cp l2 := by
  induction l1 with
  | nil => rfl
  | cons ch l1 ih =>
    rw [List.cons_append]
    simp only [fenSquares]
    rw [ih, List.append_assoc]

theorem pieceLetter_facts (ch : Char) (h : isPieceLetter ch = true) :
    ¬ ('1' ≤ ch ∧ ch ≤ '9') ∧ ¬ ('1' ≤ ch ∧ ch ≤ '8') ∧ ch ≠ '/' ∧ ch ≠ '\x00' := by
  simp only [isPieceLetter, List.mem_cons, List.mem_singleton, List.not_mem_nil, or_false,
    decide_eq_true_eq] at h
  rcases h with h | h | h | h | h | h | h | h | h | h | h | h <;> subst h <;> decide

theorem okChar_ne_zero (ch : Char) (h : okChar ch) : ch ≠ '\x00' := by
  rcases h with h | h | h
  · intro h0
    subst h0
    exact absurd h.1 (by decide)
  · exact (pieceLetter_facts ch h).2.2.2
  · subst h
    decide

theorem getD_append_replicate (l : List Piece) (d j : Nat) :
    (l ++ List.replicate d Piece.NA).getD j Piece.NA = l.getD j Piece.NA := by
  by_cases hj : j < l.length
  · exact List.getD_append _ _ _ _ hj
  · have hj : l.length ≤ j := Nat.le_of_not_lt hj
    rw [List.getD_append_right _ _ _ _ hj, List.getD_eq_default _ _ hj]
    by_cases h2 : j - l.length < (List.replicate d Piece.NA).length
    · rw [List.getD_eq_getElem _ _ h2]
      simp
    · exact List.getD_eq_default _ _ (Nat.le_of_not_lt h2)

theorem getD_append_singleton (l : List Piece) (pc : Piece) (j : Nat) :
    (l ++ [pc]).getD j Piece.NA = if j = l.length then pc else l.getD j Piece.NA := by
  by_cases hj : j < l.length
  · rw [List.getD_append _ _ _ _ hj, if_neg (Nat.ne_of_lt hj)]
  · have hj : l.length ≤ j := Nat.le_of_not_lt hj
    rw [List.getD_append_right _ _ _ _ hj]
    by_cases he : j = l.length
    · rw [if_pos he, he, Nat.sub_self]
      rfl
    · rw [if_neg he, List.getD_eq_default _ _ hj]
      apply List.getD_eq_default
      simp only [List.length_singleton]
      omega

/-- One iteration of the placement loop keeps the invariant. -/
theorem from_fen_step_inv (cp : Char → Piece)
    (hpc : ∀ ch, isPieceLetter ch = true → (cp ch).isPiece = true)
    (L : FenLoop) (pre : List Char) (ch : Char) (hch : okChar ch) (h : FenInv cp L pre) :
    FenInv cp (from_fen_step cp L ch) (pre ++ [ch]) := by
  obtain ⟨hi, hboard, hbits, hzero⟩ := h
  have hsq : fenSquares cp (pre ++ [ch]) = fenSquares cp pre ++ squaresOf cp ch := by
    rw [fenSquares_append]
    simp [fenSquares]
  rw [FenInv, hsq]
  rcases hch with hdig | hlet | hsl
  · -- a digit
    have h9 : '1' ≤ ch ∧ ch ≤ '9' := ⟨hdig.1, le_trans hdig.2 (by decide)⟩
    simp only [from_fen_step, if_pos h9, squaresOf, if_pos hdig]
    refine ⟨?_, ?_, ?_, hzero⟩
    · simp [hi]
    · intro j hj
      rw [getD_append_replicate]
      exact hboard j hj
    · intro p hp j
      rw [getD_append_replicate]
      exact hbits p hp j
  · -- a piece letter
    obtain ⟨hn9, hn8, hnsl, _⟩ := pieceLetter_facts ch hlet
    have hpiece := hpc ch hlet
    unfold from_fen_step
    rw [if_neg hn9, if_pos hnsl]
    simp only [squaresOf, if_neg hn8, if_neg hnsl, Board.set_board]
    refine ⟨?_, ?_, ?_, ?_⟩
    · simp [hi]
    · intro j hj
      rw [getD_append_singleton, Function.update_apply, hi]
      split
      · rfl
      · exact hboard j hj
    · intro p hp j
      rw [getD_append_singleton, Function.update_apply]
      by_cases hpp : p = cp ch
      · subst hpp
        rw [if_pos rfl, Nat.testBit_or, Nat.one_shiftLeft, Nat.testBit_two_pow, hi]
        by_cases hj : j = (fenSquares cp pre).length
        · simp [hj]
        · have hj2 : ¬ (fenSquares cp pre).length = j := fun h => hj h.symm
          simp only [hj, hj2, decide_False, Bool.or_false, if_false]
          exact hbits _ hp j
      · rw [if_neg hpp]
        by_cases hj : j = (fenSquares cp pre).length
        · rw [if_pos hj]
          constructor
          · intro hb
            have := (hbits p hp j).1 hb
            rw [hj, List.getD_eq_default _ _ (Nat.le_refl _)] at this
            rw [← this] at hp
            exact absurd hp (by decide)
          · intro hb
            exact absurd hb.symm hpp
        · rw [if_neg hj]
          exact hbits p hp j
    · intro p hp
      rw [Function.update_apply]
      have hne : p ≠ cp ch := by
        intro he
        rw [he, hpiece] at hp
        exact absurd hp (by decide)
      rw [if_neg hne]
      exact hzero p hp
  · -- the separator
    subst hsl
    have hn9 : ¬ ('1' ≤ '/' ∧ '/' ≤ '9') := by decide
    have hn8 : ¬ ('1' ≤ '/' ∧ '/' ≤ '8') := by decide
    unfold from_fen_step
    rw [if_neg hn9, if_neg (by simp)]
    simp only [squaresOf, if_neg hn8, if_true, List.append_nil]
    exact ⟨hi, hboard, hbits, hzero⟩

/-- The placement loop reads the field up to the terminator and keeps the invariant. -/
theorem from_fen_loop_inv (cp : Char → Piece)
    (hpc : ∀ ch, isPieceLetter ch = true → (cp ch).isPiece = true) (junk : List Char) :
    ∀ (chars pre : List Char) (L : FenLoop), (∀ ch ∈ chars, okChar ch) → FenInv cp L pre →
      FenInv cp (from_fen_loop cp (chars ++ '\x00' :: junk) L) (pre ++ chars) := by
  intro chars
  induction chars with
  | nil =>
    intro pre L _ h
    simpa [from_fen_loop] using h
  | cons ch chars ih =>
    intro pre L hok h
    have hch := hok ch (List.mem_cons_self _ _)
    simp only [List.cons_append, from_fen_loop, if_neg (okChar_ne_zero ch hch)]
    have h1 := ih (pre ++ [ch]) _ (fun c hc => hok c (List.mem_cons_of_mem _ hc))
      (from_fen_step_inv cp hpc L pre ch hch h)
    simpa using h1

theorem squaresOf_letter (cp : Char → Piece) (ch : Char) (h : isPieceLetter ch = true) :
    squaresOf cp ch = [cp ch] := by
  obtain ⟨_, hn8, hnsl, _⟩ := pieceLetter_facts ch h
  simp only [squaresOf, if_neg hn8, if_neg hnsl]

/-- A rank made of digits 1-8 and piece letters holds characters of a placement field only
and describes as many squares as its width. -/
theorem rankWidth_spec (cp : Char → Piece) :
    ∀ (r : List Char) (w : Nat), rankWidth r = some w →
      (∀ ch ∈ r, okChar ch) ∧ (fenSquares cp r).length = w := by
  intro r
  induction r with
  | nil =>
    intro w h
    simp only [rankWidth, Option.some.injEq] at h
    subst h
    exact ⟨by simp, rfl⟩
  | cons ch r ih =>
    intro w h
    simp only [rankWidth] at h
    by_cases hdig : '1' ≤ ch ∧ ch ≤ '8'
    · rw [if_pos hdig] at h
      obtain ⟨w1, hw1, hw⟩ := Option.map_eq_some'.1 h
      obtain ⟨hok, hlen⟩ := ih w1 hw1
      refine ⟨?_, ?_⟩
      · intro c hc
        rcases List.mem_cons.1 hc with hc | hc
        · subst hc; exact Or.inl hdig
        · exact hok c hc
      · simp only [fenSquares, squaresOf, if_pos hdig, List.length_append,
          List.length_replicate, hlen]
        exact hw
    · rw [if_neg hdig] at h
      by_cases hlet : isPieceLetter ch = true
      · rw [if_pos hlet] at h
        obtain ⟨w1, hw1, hw⟩ := Option.map_eq_some'.1 h
        obtain ⟨hok, hlen⟩ := ih w1 hw1
        refine ⟨?_, ?_⟩
        · intro c hc
          rcases List.mem_cons.1 hc with hc | hc
          · subst hc; exact Or.inr (Or.inl hlet)
          · exact hok c hc
        · simp only [fenSquares, squaresOf_letter cp ch hlet, List.length_append,
            List.length_singleton, hlen]
          exact hw
      · rw [if_neg hlet] at h
        exact absurd h (by simp)

/-- A field made of ranks of width 8 separated by `'/'` holds characters of a placement
field only and describes eight squares per rank. -/
theorem joinRanks_spec (cp : Char → Piece) :
    ∀ ranks : List (List Char), (∀ r ∈ ranks, rankWidth r = some 8) →
      (∀ ch ∈ joinRanks ranks, okChar ch) ∧
      (fenSquares cp (joinRanks ranks)).length = 8 * ranks.length := by
  intro ranks
  induction ranks with
  | nil =>
    intro _
    exact ⟨by simp [joinRanks], rfl⟩
  | cons r rs ih =>
    intro h
    obtain ⟨hokr, hlenr⟩ := rankWidth_spec cp r 8 (h r (List.mem_cons_self _ _))
    cases rs with
    | nil =>
      simp only [joinRanks, List.length_singleton, Nat.mul_one]
      exact ⟨hokr, hlenr⟩
    | cons r2 rs2 =>
      obtain ⟨hok, hlen⟩ := ih (fun x hx => h x (List.mem_cons_of_mem _ hx))
      have hn8 : ¬ ('1' ≤ '/' ∧ '/' ≤ '8') := by decide
      refine ⟨?_, ?_⟩
      · intro c hc
        simp only [joinRanks, List.mem_append, List.mem_cons] at hc
        rcases hc with hc | hc | hc
        · exact hokr c hc
        · subst hc; exact Or.inr (Or.inr rfl)
        · exact hok c hc
      · simp only [joinRanks, fenSquares_append, fenSquares, squaresOf, if_neg hn8, if_true,
          List.nil_append, List.length_append, hlenr, hlen, List.length_cons]
        omega

/-- The first loop of `from_fen` (line 44) leaves `NA` on the squares below its bound. -/
theorem init_board_NA (m : Nat → Piece) :
    ∀ n j, j < n →
      (List.range n).foldl (fun m i => Function.update m i Piece.NA) m j = Piece.NA := by
  intro n
  induction n with
  | zero => intro j hj; omega
  | succ n ih =>
    intro j hj
    rw [List.range_succ, List.foldl_append]
    simp only [List.foldl_cons, List.foldl_nil, Function.update_apply]
    split
    · rfl
    · exact ih j (by omega)

theorem isPiece_ne_tags (p : Piece) (hp : p.isPiece = true) :
    p ≠ Piece.WHITE_ALL ∧ p ≠ Piece.BLACK_ALL ∧ p ≠ Piece.NA := by
  cases p <;> simp [Piece.isPiece] at hp ⊢

/-- C20: let the array `fen_board` hold a placement field made of eight ranks separated
by `'/'`, each rank made of digits 1-8 and piece letters and eight squares wide, then the
terminator and anything after it, and let `char_to_piece` read every piece letter as one
of the twelve piece kinds. After lines 42-76 of `Board::from_fen`, whatever the board
held before: the running index is 64; the field describes 64 squares and the
mailbox entry of square `i` is the `i`-th of them, square 0 being the first square of the
field; for every square below 64 the mailbox entry is piece `p` exactly when bit `i` of
`bitboards[p]` is set, and a square whose entry is `NA` is in no piece bitboard; the
twelve piece bitboards are pairwise disjoint and have no bit at or above 64; `WHITE_ALL`
and `BLACK_ALL` are the unions of the six piece bitboards of their colour. -/
theorem from_fen_consistent (char_to_piece : Char → Piece) (b : Board)
    (ranks : List (List Char)) (junk : List Char) (out : FenLoop)
    (hpc : ∀ ch, isPieceLetter ch = true → (char_to_piece ch).isPiece = true)
    (h8 : ranks.length = 8) (hw : ∀ r ∈ ranks, rankWidth r = some 8)
    (hout : from_fen char_to_piece b (joinRanks ranks ++ '\x00' :: junk) = out) :
    out.i = 64 ∧
    (fenSquares char_to_piece (joinRanks ranks)).length = 64 ∧
    (∀ i, i < 64 →
      out.b.get_board i = (fenSquares char_to_piece (joinRanks ranks)).getD i Piece.NA) ∧
    (∀ ch rest, joinRanks ranks = ch :: rest →
      (isPieceLetter ch = true → out.b.get_board 0 = char_to_piece ch) ∧
      (('1' ≤ ch ∧ ch ≤ '8') → out.b.get_board 0 = Piece.NA)) ∧
    (∀ i, i < 64 → ∀ p, p.isPiece = true →
      (out.b.get_board i = p ↔ (out.b.bitboards p).testBit i = true)) ∧
    (∀ i, i < 64 → out.b.get_board i = Piece.NA →
      ∀ p, p.isPiece = true → (out.b.bitboards p).testBit i = false) ∧
    (∀ p q, p.isPiece = true → q.isPiece = true → p ≠ q →
      out.b.bitboards p &&& out.b.bitboards q = 0) ∧
    (∀ p, p.isPiece = true → out.b.bitboards p < 2 ^ 64) ∧
    out.b.bitboards Piece.WHITE_ALL =
      (out.b.bitboards .WHITE_PAWN ||| out.b.bitboards .WHITE_KNIGHT
        ||| out.b.bitboards .WHITE_BISHOP ||| out.b.bitboards .WHITE_ROOK
        ||| out.b.bitboards .WHITE_QUEEN ||| out.b.bitboards .WHITE_KING) ∧
    out.b.bitboards Piece.BLACK_ALL =
      (out.b.bitboards .BLACK_PAWN ||| out.b.bitboards .BLACK_KNIGHT
        ||| out.b.bitboards .BLACK_BISHOP ||| out.b.bitboards .BLACK_ROOK
        ||| out.b.bitboards .BLACK_QUEEN ||| out.b.bitboards .BLACK_KING) := by
  obtain ⟨hok, hlen⟩ := joinRanks_spec char_to_piece ranks hw
  rw [h8] at hlen
  have hlen64 : (fenSquares char_to_piece (joinRanks ranks)).length = 64 := hlen
  -- the state after the placement loop
  have hinit : FenInv char_to_piece
      { b := { board := (List.range 64).foldl (fun m i => Function.update m i Piece.NA) b.board
               bitboards := fun _ => 0 }
        i := 0 } [] := by
    refine ⟨rfl, ?_, ?_, fun _ _ => rfl⟩
    · intro j hj
      exact init_board_NA b.board 64 j hj
    · intro p hp j
      simp only [Nat.zero_testBit, fenSquares, List.getD_nil, Bool.false_eq_true, false_iff]
      exact fun h => (isPiece_ne_tags p hp).2.2 h.symm
  have hinv := from_fen_loop_inv char_to_piece hpc junk (joinRanks ranks) [] _ hok hinit
  rw [List.nil_append] at hinv
  obtain ⟨hi, hboard, hbits, _⟩ := hinv
  -- the bitboards of the pieces are those left by the loop
  have hbb : ∀ p, p.isPiece = true → out.b.bitboards p =
      (from_fen_loop char_to_piece (joinRanks ranks ++ '\x00' :: junk)
        { b := { board := (List.range 64).foldl
                   (fun m i => Function.update m i Piece.NA) b.board
                 bitboards := fun _ => 0 }
          i := 0 }).b.bitboards p := by
    intro p hp
    obtain ⟨h1, h2, _⟩ := isPiece_ne_tags p hp
    rw [← hout]
    simp only [from_fen, Function.update_apply, if_neg h1, if_neg h2]
  have hmail : ∀ i, out.b.get_board i =
      (from_fen_loop char_to_piece (joinRanks ranks ++ '\x00' :: junk)
        { b := { board := (List.range 64).foldl
                   (fun m i => Function.update m i Piece.NA) b.board
                 bitboards := fun _ => 0 }
          i := 0 }).b.board i := by
    intro i
    rw [← hout]
    rfl
  have hbit : ∀ p, p.isPiece = true → ∀ j, ((out.b.bitboards p).testBit j = true ↔
      (fenSquares char_to_piece (joinRanks ranks)).getD j Piece.NA = p) := by
    intro p hp j
    rw [hbb p hp]
    exact hbits p hp j
  have hget : ∀ i, i < 64 →
      out.b.get_board i = (fenSquares char_to_piece (joinRanks ranks)).getD i Piece.NA := by
    intro i hi64
    rw [hmail]
    exact hboard i hi64
  refine ⟨?_, hlen64, hget, ?_, ?_, ?_, ?_, ?_, ?_, ?_⟩
  · rw [← hout]
    simp only [from_fen]
    rw [hi, hlen64]
  · intro ch rest hfield
    have h0 := hget 0 (by decide)
    rw [hfield] at h0
    constructor
    · intro hlet
      rw [h0]
      simp only [fenSquares, squaresOf_letter char_to_piece ch hlet, List.singleton_append,
        List.getD_cons_zero]
    · intro hdig
      rw [h0]
      have h49 : '1'.toNat ≤ ch.toNat := hdig.1
      have h1 : '1'.toNat = 49 := rfl
      have h0 : '0'.toNat = 48 := rfl
      obtain ⟨k, hk⟩ : ∃ k, ch.toNat - '0'.toNat = k + 1 := ⟨ch.toNat - 49, by omega⟩
      simp only [fenSquares, squaresOf, if_pos hdig, hk, List.replicate_succ,
        List.cons_append, List.getD_cons_zero]
  · intro i hi64 p hp
    rw [hget i hi64]
    exact (hbit p hp i).symm
  · intro i hi64 hna p hp
    rw [hget i hi64] at hna
    cases hb : (out.b.bitboards p).testBit i with
    | false => rfl
    | true =>
      have := (hbit p hp i).1 hb
      rw [hna] at this
      exact absurd this.symm (isPiece_ne_tags p hp).2.2
  · intro p q hp hq hpq
    apply Nat.eq_of_testBit_eq
    intro j
    rw [Nat.testBit_and, Nat.zero_testBit]
    cases h1 : (out.b.bitboards p).testBit j with
    | false => rfl
    | true =>
      cases h2 : (out.b.bitboards q).testBit j with
      | false => rfl
      | true =>
        exact absurd (((hbit p hp j).1 h1).symm.trans ((hbit q hq j).1 h2)) hpq
  · intro p hp
    apply Nat.lt_pow_two_of_testBit
    intro j hj
    cases hb : (out.b.bitboards p).testBit j with
    | false => rfl
    | true =>
      have := (hbit p hp j).1 hb
      rw [List.getD_eq_default _ _ (by omega)] at this
      exact absurd this.symm (isPiece_ne_tags p hp).2.2
  · rw [← hout]
    simp [from_fen, Function.update_apply]
  · rw [← hout]
    simp [from_fen, Function.update_apply]

theorem fenPiece_isPiece (ch : Char) (h : isPieceLetter ch = true) :
    (fenPiece ch).isPiece = true := by
  simp only [isPieceLetter, List.mem_cons, List.mem_singleton, List.not_mem_nil, or_false,
    decide_eq_true_eq] at h
  rcases h with h | h | h | h | h | h | h | h | h | h | h | h <;> subst h <;> rfl

theorem from_fen_consistent_witness :
    ((∀ ch, isPieceLetter ch = true → (fenPiece ch).isPiece = true) ∧
      startRanks.length = 8 ∧
      (∀ r ∈ startRanks, rankWidth r = some 8) ∧
      from_fen fenPiece emptyBoard (joinRanks startRanks ++ '\x00' :: ['x'])
        = from_fen fenPiece emptyBoard (joinRanks startRanks ++ '\x00' :: ['x'])) ∧
    ((from_fen fenPiece emptyBoard (joinRanks startRanks ++ '\x00' :: ['x'])).i = 64 ∧
    (fenSquares fenPiece (joinRanks startRanks)).length = 64 ∧
    (∀ i, i < 64 →
      (from_fen fenPiece emptyBoard (joinRanks startRanks ++ '\x00' :: ['x'])).b.get_board i = (fenSquares fenPiece (joinRanks startRanks)).getD i Piece.NA) ∧
    (∀ ch rest, joinRanks startRanks = ch :: rest →
      (isPieceLetter ch = true → (from_fen fenPiece emptyBoard (joinRanks startRanks ++ '\x00' :: ['x'])).b.get_board 0 = fenPiece ch) ∧
      (('1' ≤ ch ∧ ch ≤ '8') → (from_fen fenPiece emptyBoard (joinRanks startRanks ++ '\x00' :: ['x'])).b.get_board 0 = Piece.NA)) ∧
    (∀ i, i < 64 → ∀ p, p.isPiece = true →
      ((from_fen fenPiece emptyBoard (joinRanks startRanks ++ '\x00' :: ['x'])).b.get_board i = p ↔ ((from_fen fenPiece emptyBoard (joinRanks startRanks ++ '\x00' :: ['x'])).b.bitboards p).testBit i = true)) ∧
    (∀ i, i < 64 → (from_fen fenPiece emptyBoard (joinRanks startRanks ++ '\x00' :: ['x'])).b.get_board i = Piece.NA →
      ∀ p, p.isPiece = true → ((from_fen fenPiece emptyBoard (joinRanks startRanks ++ '\x00' :: ['x'])).b.bitboards p).testBit i = false) ∧
    (∀ p q, p.isPiece = true → q.isPiece = true → p ≠ q →
      (from_fen fenPiece emptyBoard (joinRanks startRanks ++ '\x00' :: ['x'])).b.bitboards p &&& (from_fen fenPiece emptyBoard (joinRanks startRanks ++ '\x00' :: ['x'])).b.bitboards q = 0) ∧
    (∀ p, p.isPiece = true → (from_fen fenPiece emptyBoard (joinRanks startRanks ++ '\x00' :: ['x'])).b.bitboards p < 2 ^ 64) ∧
    (from_fen fenPiece emptyBoard (joinRanks startRanks ++ '\x00' :: ['x'])).b.bitboards Piece.WHITE_ALL =
      ((from_fen fenPiece emptyBoard (joinRanks startRanks ++ '\x00' :: ['x'])).b.bitboards .WHITE_PAWN ||| (from_fen fenPiece emptyBoard (joinRanks startRanks ++ '\x00' :: ['x'])).b.bitboards .WHITE_KNIGHT
        ||| (from_fen fenPiece emptyBoard (joinRanks startRanks ++ '\x00' :: ['x'])).b.bitboards .WHITE_BISHOP ||| (from_fen fenPiece emptyBoard (joinRanks startRanks ++ '\x00' :: ['x'])).b.bitboards .WHITE_ROOK
        ||| (from_fen fenPiece emptyBoard (joinRanks startRanks ++ '\x00' :: ['x'])).b.bitboards .WHITE_QUEEN ||| (from_fen fenPiece emptyBoard (joinRanks startRanks ++ '\x00' :: ['x'])).b.bitboards .WHITE_KING) ∧
    (from_fen fenPiece emptyBoard (joinRanks startRanks ++ '\x00' :: ['x'])).b.bitboards Piece.BLACK_ALL =
      ((from_fen fenPiece emptyBoard (joinRanks startRanks ++ '\x00' :: ['x'])).b.bitboards .BLACK_PAWN ||| (from_fen fenPiece emptyBoard (joinRanks startRanks ++ '\x00' :: ['x'])).b.bitboards .BLACK_KNIGHT
        ||| (from_fen fenPiece emptyBoard (joinRanks startRanks ++ '\x00' :: ['x'])).b.bitboards .BLACK_BISHOP ||| (from_fen fenPiece emptyBoard (joinRanks startRanks ++ '\x00' :: ['x'])).b.bitboards .BLACK_ROOK
        ||| (from_fen fenPiece emptyBoard (joinRanks startRanks ++ '\x00' :: ['x'])).b.bitboards .BLACK_QUEEN ||| (from_fen fenPiece emptyBoard (joinRanks startRanks ++ '\x00' :: ['x'])).b.bitboards .BLACK_KING)) :=
  ⟨⟨fenPiece_isPiece, rfl, by decide, rfl⟩,
    from_fen_consistent fenPiece emptyBoard startRanks ['x']
      (from_fen fenPiece emptyBoard (joinRanks startRanks ++ '\x00' :: ['x']))
      fenPiece_isPiece rfl (by decide) rfl⟩

/-! ### Range of the table index -/

theorem shiftRight_lt_of_lt (x shift : Nat) (hx : x < 2 ^ 64) (hs : shift ≤ 64) :
    x >>> shift < 2 ^ (64 - shift) := by
  rw [Nat.shiftRight_eq_div_pow, Nat.div_lt_iff_lt_mul (Nat.two_pow_pos shift),
    ← Nat.pow_add]
  have h : 64 - shift + shift = 64 := by omega
  rw [h]
  exact hx

/-- C21: for every 64-bit occupancy, mask and magic and every shift from 1 to 63, the
offset computed by the masked queries and the offset computed by the NOMASK queries are
strictly less than `2 ^ (64 - shift)`; these offsets are the ones at which `Bmagic`,
`Rmagic`, `BmagicNOMASK` and `RmagicNOMASK` read the sub-table of a square whose mask,
magic and shift are the given ones, so the result of a query depends on the first
`2 ^ (64 - shift)` slots of the sub-table only. -/
theorem magic_index_in_range (occupancy mask magic shift : Nat)
    (_hocc : occupancy < 2 ^ 64) (_hmask : mask < 2 ^ 64) (_hmagic : magic < 2 ^ 64)
    (_h1 : 1 ≤ shift) (h63 : shift ≤ 63) :
    magicIndex occupancy mask magic shift < 2 ^ (64 - shift) ∧
    magicIndexNOMASK occupancy magic shift < 2 ^ (64 - shift) ∧
    (∀ (T : MagicTables) square, T.magicmoves_b_mask square = mask →
      T.magicmoves_b_magics square = magic → T.magicmoves_b_shift square = shift →
      Bmagic T square occupancy
        = T.magicmoves_b_indices square (magicIndex occupancy mask magic shift) ∧
      BmagicNOMASK T square occupancy
        = T.magicmoves_b_indices square (magicIndexNOMASK occupancy magic shift)) ∧
    (∀ (T : MagicTables) square, T.magicmoves_r_mask square = mask →
      T.magicmoves_r_magics square = magic → T.magicmoves_r_shift square = shift →
      Rmagic T square occupancy
        = T.magicmoves_r_indices square (magicIndex occupancy mask magic shift) ∧
      RmagicNOMASK T square occupancy
        = T.magicmoves_r_indices square (magicIndexNOMASK occupancy magic shift)) ∧
    (∀ (T T2 : MagicTables) square, T.magicmoves_b_mask square = mask →
      T.magicmoves_b_magics square = magic → T.magicmoves_b_shift square = shift →
      T2.magicmoves_b_mask square = mask → T2.magicmoves_b_magics square = magic →
      T2.magicmoves_b_shift square = shift →
      (∀ i, i < 2 ^ (64 - shift) →
        T2.magicmoves_b_indices square i = T.magicmoves_b_indices square i) →
      Bmagic T2 square occupancy = Bmagic T square occupancy ∧
      BmagicNOMASK T2 square occupancy = BmagicNOMASK T square occupancy) ∧
    (∀ (T T2 : MagicTables) square, T.magicmoves_r_mask square = mask →
      T.magicmoves_r_magics square = magic → T.magicmoves_r_shift square = shift →
      T2.magicmoves_r_mask square = mask → T2.magicmoves_r_magics square = magic →
      T2.magicmoves_r_shift square = shift →
      (∀ i, i < 2 ^ (64 - shift) →
        T2.magicmoves_r_indices square i = T.magicmoves_r_indices square i) →
      Rmagic T2 square occupancy = Rmagic T square occupancy ∧
      RmagicNOMASK T2 square occupancy = RmagicNOMASK T square occupancy) := by
  have hmod : ∀ x : Nat, x % 2 ^ 64 < 2 ^ 64 := fun x => Nat.mod_lt _ (Nat.two_pow_pos 64)
  have hidx : magicIndex occupancy mask magic shift < 2 ^ (64 - shift) :=
    shiftRight_lt_of_lt _ shift (hmod _) (by omega)
  have hidxn : magicIndexNOMASK occupancy magic shift < 2 ^ (64 - shift) :=
    shiftRight_lt_of_lt _ shift (hmod _) (by omega)
  refine ⟨hidx, hidxn, ?_, ?_, ?_, ?_⟩
  · intro T square hm hg hs
    simp only [Bmagic, BmagicNOMASK, magicIndex, magicIndexNOMASK, hm, hg, hs, and_self]
  · intro T square hm hg hs
    simp only [Rmagic, RmagicNOMASK, magicIndex, magicIndexNOMASK, hm, hg, hs, and_self]
  · intro T T2 square hm hg hs hm2 hg2 hs2 hagree
    have h1 := hagree _ hidx
    have h2 := hagree _ hidxn
    simp only [magicIndex, magicIndexNOMASK] at h1 h2
    simp only [Bmagic, BmagicNOMASK, hm, hg, hs, hm2, hg2, hs2, h1, h2, and_self]
  · intro T T2 square hm hg hs hm2 hg2 hs2 hagree
    have h1 := hagree _ hidx
    have h2 := hagree _ hidxn
    simp only [magicIndex, magicIndexNOMASK] at h1 h2
    simp only [Rmagic, RmagicNOMASK, hm, hg, hs, hm2, hg2, hs2, h1, h2, and_self]

theorem magic_index_in_range_witness :
    (0xFFFF < 2 ^ 64 ∧ sampleTables.magicmoves_b_mask 0 < 2 ^ 64 ∧
      sampleTables.magicmoves_b_magics 0 < 2 ^ 64 ∧
      1 ≤ sampleTables.magicmoves_b_shift 0 ∧ sampleTables.magicmoves_b_shift 0 ≤ 63) ∧
    (magicIndex 0xFFFF (sampleTables.magicmoves_b_mask 0) (sampleTables.magicmoves_b_magics 0) (sampleTables.magicmoves_b_shift 0) < 2 ^ (64 - (sampleTables.magicmoves_b_shift 0)) ∧
    magicIndexNOMASK 0xFFFF (sampleTables.magicmoves_b_magics 0) (sampleTables.magicmoves_b_shift 0) < 2 ^ (64 - (sampleTables.magicmoves_b_shift 0)) ∧
    (∀ (T : MagicTables) square, T.magicmoves_b_mask square = (sampleTables.magicmoves_b_mask 0) →
      T.magicmoves_b_magics square = (sampleTables.magicmoves_b_magics 0) → T.magicmoves_b_shift square = (sampleTables.magicmoves_b_shift 0) →
      Bmagic T square 0xFFFF
        = T.magicmoves_b_indices square (magicIndex 0xFFFF (sampleTables.magicmoves_b_mask 0) (sampleTables.magicmoves_b_magics 0) (sampleTables.magicmoves_b_shift 0)) ∧
      BmagicNOMASK T square 0xFFFF
        = T.magicmoves_b_indices square (magicIndexNOMASK 0xFFFF (sampleTables.magicmoves_b_magics 0) (sampleTables.magicmoves_b_shift 0))) ∧
    (∀ (T : MagicTables) square, T.magicmoves_r_mask square = (sampleTables.magicmoves_b_mask 0) →
      T.magicmoves_r_magics square = (sampleTables.magicmoves_b_magics 0) → T.magicmoves_r_shift square = (sampleTables.magicmoves_b_shift 0) →
      Rmagic T square 0xFFFF
        = T.magicmoves_r_indices square (magicIndex 0xFFFF (sampleTables.magicmoves_b_mask 0) (sampleTables.magicmoves_b_magics 0) (sampleTables.magicmoves_b_shift 0)) ∧
      RmagicNOMASK T square 0xFFFF
        = T.magicmoves_r_indices square (magicIndexNOMASK 0xFFFF (sampleTables.magicmoves_b_magics 0) (sampleTables.magicmoves_b_shift 0))) ∧
    (∀ (T T2 : MagicTables) square, T.magicmoves_b_mask square = (sampleTables.magicmoves_b_mask 0) →
      T.magicmoves_b_magics square = (sampleTables.magicmoves_b_magics 0) → T.magicmoves_b_shift square = (sampleTables.magicmoves_b_shift 0) →
      T2.magicmoves_b_mask square = (sampleTables.magicmoves_b_mask 0) → T2.magicmoves_b_magics square = (sampleTables.magicmoves_b_magics 0) →
      T2.magicmoves_b_shift square = (sampleTables.magicmoves_b_shift 0) →
      (∀ i, i < 2 ^ (64 - (sampleTables.magicmoves_b_shift 0)) →
        T2.magicmoves_b_indices square i = T.magicmoves_b_indices square i) →
      Bmagic T2 square 0xFFFF = Bmagic T square 0xFFFF ∧
      BmagicNOMASK T2 square 0xFFFF = BmagicNOMASK T square 0xFFFF) ∧
    (∀ (T T2 : MagicTables) square, T.magicmoves_r_mask square = (sampleTables.magicmoves_b_mask 0) →
      T.magicmoves_r_magics square = (sampleTables.magicmoves_b_magics 0) → T.magicmoves_r_shift square = (sampleTables.magicmoves_b_shift 0) →
      T2.magicmoves_r_mask square = (sampleTables.magicmoves_b_mask 0) → T2.magicmoves_r_magics square = (sampleTables.magicmoves_b_magics 0) →
      T2.magicmoves_r_shift square = (sampleTables.magicmoves_b_shift 0) →
      (∀ i, i < 2 ^ (64 - (sampleTables.magicmoves_b_shift 0)) →
        T2.magicmoves_r_indices square i = T.magicmoves_r_indices square i) →
      Rmagic T2 square 0xFFFF = Rmagic T square 0xFFFF ∧
      RmagicNOMASK T2 square 0xFFFF = RmagicNOMASK T square 0xFFFF)) :=
  ⟨⟨by decide, by decide, by decide, by decide, by decide⟩,
    magic_index_in_range 0xFFFF (sampleTables.magicmoves_b_mask 0)
      (sampleTables.magicmoves_b_magics 0) (sampleTables.magicmoves_b_shift 0)
      (by decide) (by decide) (by decide) (by decide) (by decide)⟩

/-! ### The flag of a typed move -/

theorem one_shiftLeft_and_ne_zero (r t : Nat) :
    (1 <<< t) &&& r ≠ 0 ↔ r.testBit t = true := by
  rw [Nat.one_shiftLeft, Nat.two_pow_and]
  cases r.testBit t with
  | false => simp
  | true =>
    simp only [Bool.toNat_true, Nat.mul_one, ne_eq, iff_true]
    exact Nat.pos_iff_ne_zero.1 (Nat.two_pow_pos t)

/-- For squares below 64 the test `to - from == 2` made modulo `2 ^ w` (an unsigned
`Square` of `w >= 7` bits) holds exactly when it holds on the integers. -/
theorem unsigned_diff_eq_two (w a b : Nat) (hw : 7 ≤ w) (ha : a < 64) (hb : b < 64) :
    (a + 2 ^ w - b) % 2 ^ w = 2 ↔ (a : Int) - (b : Int) = 2 := by
  have hP : 128 ≤ 2 ^ w := by
    calc 128 = 2 ^ 7 := by norm_num
      _ ≤ 2 ^ w := Nat.pow_le_pow_right (by norm_num) hw
  by_cases hab : b ≤ a
  · have h1 : a + 2 ^ w - b = 2 ^ w + (a - b) := by omega
    rw [h1, Nat.add_mod_left, Nat.mod_eq_of_lt (by omega)]
    omega
  · have h1 : a + 2 ^ w - b < 2 ^ w := by omega
    rw [Nat.mod_eq_of_lt h1]
    omega

theorem color_pawn_ne_king (c : Color) : c.PAWN ≠ c.KING := by
  cases c <;> decide

/-- C22: for squares below 64, `derive_flag` returns `QUEEN_PROMO` exactly when the piece
on `from` is the colour's pawn and bit `to` of the colour's final rank is set, whether or
not `to` is occupied; it returns `CASTLE` exactly when that is not so, the piece on
`from` is the colour's king, `to` is empty and `to - from` is 2 or -2; it returns
`REGULAR` exactly when neither holds; it returns no other flag; and the board it leaves is
the board it was given. -/
theorem derive_flag_spec (FINAL_RANK : Color → Nat) (c : Color) (b : Board)
    (from_ to_ : Nat) (_hfrom : from_ < 64) (_hto : to_ < 64) :
    ((derive_flag FINAL_RANK c b from_ to_).1 = Flag.QUEEN_PROMO ↔
      (b.get_board from_ = c.PAWN ∧ (FINAL_RANK c).testBit to_ = true)) ∧
    ((derive_flag FINAL_RANK c b from_ to_).1 = Flag.CASTLE ↔
      (¬ (b.get_board from_ = c.PAWN ∧ (FINAL_RANK c).testBit to_ = true) ∧
        b.get_board from_ = c.KING ∧ b.get_board to_ = Piece.NA ∧
        ((to_ : Int) - (from_ : Int) = 2 ∨ (to_ : Int) - (from_ : Int) = -2))) ∧
    ((derive_flag FINAL_RANK c b from_ to_).1 = Flag.REGULAR ↔
      (¬ (b.get_board from_ = c.PAWN ∧ (FINAL_RANK c).testBit to_ = true) ∧
        ¬ (b.get_board from_ = c.KING ∧ b.get_board to_ = Piece.NA ∧
          ((to_ : Int) - (from_ : Int) = 2 ∨ (to_ : Int) - (from_ : Int) = -2)))) ∧
    ((derive_flag FINAL_RANK c b from_ to_).1 = Flag.QUEEN_PROMO ∨
      (derive_flag FINAL_RANK c b from_ to_).1 = Flag.CASTLE ∨
      (derive_flag FINAL_RANK c b from_ to_).1 = Flag.REGULAR) ∧
    (derive_flag FINAL_RANK c b from_ to_).2 = b := by
  have hneg : ((to_ : Int) - (from_ : Int) = -2) ↔ ((from_ : Int) - (to_ : Int) = 2) := by
    omega
  have hpk := color_pawn_ne_king c
  have hbit := one_shiftLeft_and_ne_zero (FINAL_RANK c) to_
  rw [hneg]
  by_cases hcap : b.get_board to_ = Piece.NA <;>
  by_cases hpawn : b.get_board from_ = c.PAWN <;>
  by_cases hfin : (FINAL_RANK c).testBit to_ = true <;>
  by_cases hking : b.get_board from_ = c.KING <;>
  by_cases h2 : (to_ : Int) - (from_ : Int) = 2 <;>
  by_cases hm2 : (from_ : Int) - (to_ : Int) = 2 <;>
  simp_all [derive_flag]

/-- The flags of six typed moves on `promoBoard` for White: the pawn on 8 promotes on the
empty square 0 and by capturing the rook on 1, and makes a regular move to 16; the king on
60 castles to 62 and to 58 and makes a regular move to 61. -/
theorem derive_flag_examples :
    (derive_flag sampleFinalRank Color.White promoBoard 8 0).1 = Flag.QUEEN_PROMO ∧
    (derive_flag sampleFinalRank Color.White promoBoard 8 1).1 = Flag.QUEEN_PROMO ∧
    (derive_flag sampleFinalRank Color.White promoBoard 8 16).1 = Flag.REGULAR ∧
    (derive_flag sampleFinalRank Color.White promoBoard 60 62).1 = Flag.CASTLE ∧
    (derive_flag sampleFinalRank Color.White promoBoard 60 58).1 = Flag.CASTLE ∧
    (derive_flag sampleFinalRank Color.White promoBoard 60 61).1 = Flag.REGULAR := by
  decide

theorem derive_flag_spec_witness :
    ((8 : Nat) < 64 ∧ (1 : Nat) < 64) ∧
    (((derive_flag sampleFinalRank Color.White promoBoard 8 1).1 = Flag.QUEEN_PROMO ↔
      (promoBoard.get_board 8 = Color.White.PAWN ∧ (sampleFinalRank Color.White).testBit 1 = true)) ∧
    ((derive_flag sampleFinalRank Color.White promoBoard 8 1).1 = Flag.CASTLE ↔
      (¬ (promoBoard.get_board 8 = Color.White.PAWN ∧ (sampleFinalRank Color.White).testBit 1 = true) ∧
        promoBoard.get_board 8 = Color.White.KING ∧ promoBoard.get_board 1 = Piece.NA ∧
        ((1 : Int) - (8 : Int) = 2 ∨ (1 : Int) - (8 : Int) = -2))) ∧
    ((derive_flag sampleFinalRank Color.White promoBoard 8 1).1 = Flag.REGULAR ↔
      (¬ (promoBoard.get_board 8 = Color.White.PAWN ∧ (sampleFinalRank Color.White).testBit 1 = true) ∧
        ¬ (promoBoard.get_board 8 = Color.White.KING ∧ promoBoard.get_board 1 = Piece.NA ∧
          ((1 : Int) - (8 : Int) = 2 ∨ (1 : Int) - (8 : Int) = -2)))) ∧
    ((derive_flag sampleFinalRank Color.White promoBoard 8 1).1 = Flag.QUEEN_PROMO ∨
      (derive_flag sampleFinalRank Color.White promoBoard 8 1).1 = Flag.CASTLE ∨
      (derive_flag sampleFinalRank Color.White promoBoard 8 1).1 = Flag.REGULAR) ∧
    (derive_flag sampleFinalRank Color.White promoBoard 8 1).2 = promoBoard) :=
  ⟨⟨by decide, by decide⟩,
    derive_flag_spec sampleFinalRank Color.White promoBoard 8 1 (by decide) (by decide)⟩

end MyChess
